import Mathlib

/-!
# sqldatadump: chunking, value rendering, metadata assembly and export

A shallow embedding of `main.go`.

* Go strings are Lean strings (UTF-8 text).  The library routines the program
  calls on them (`strings.Index`, `strings.Count`, `strings.Replace`,
  `strings.Join`, the `%s` and `%d` verbs of `fmt.Sprintf`) are transcribed from
  the Go standard library; the program only searches for and inserts ASCII text,
  on which bytes and code points agree.
* Go `int` values are integers; lengths and indices are natural numbers.
* A `float64` is the rational number it denotes; `float64` rounds a rational to
  the nearest value with a 53 bit significand, ties to even.
* A slice expression is fallible: `none` stands for the run-time panic.  A slice
  is the list of its elements, its capacity being its length.
* A Go map is a list of key/value entries with distinct keys.
* The database, the file system and the clock are outside the model: the loops
  of `main` are functions of the rows fetched, and the files written are their
  result.  The run of `main` as a whole is the list of its effects on a `World`
  that answers its calls.
* Paths are those of a system with the slash as separator: `filepath.Clean` is
  read one path element at a time, as its loop does, and `filepath.Join` cleans
  the slash-joined elements.
-/

namespace Sqldatadump

/-! ## Floating point, as used by the chunkers -/

/-- Nearest integer, ties to the even one. -/
def roundHalfEven (q : ℚ) : ℤ :=
  let f := ⌊q⌋
  if q - f < 1/2 then f
  else if 1/2 < q - f then f + 1
  else if f % 2 = 0 then f else f + 1

/-- Rounding of a real value to binary64 (round to nearest, ties to even; the
exponent range is not limited, which is exact for every magnitude between
2^(-1022) and 2^1024). -/
def float64 (x : ℚ) : ℚ :=
  if x = 0 then 0
  else
    let u : ℚ := (2 : ℚ) ^ (Int.log 2 |x| - 52)
    (roundHalfEven (x / u) : ℚ) * u

/-- Conversion float64(n) of a Go int. -/
def float64OfInt (n : ℤ) : ℚ := float64 (n : ℚ)

/-- Library function math.Floor. -/
def mathFloor (x : ℚ) : ℚ := ((⌊x⌋ : ℤ) : ℚ)

/-- Conversion int(f) of a float64: truncation toward zero. -/
def intOfFloat64 (x : ℚ) : ℤ := if 0 ≤ x then ⌊x⌋ else ⌈x⌉

/-! ## Slices -/

/-- Slice expression s[lo:hi]; none is the run-time panic on bad bounds. -/
def sliceRange {α : Type} (s : List α) (lo hi : ℤ) : Option (List α) :=
  if 0 ≤ lo ∧ lo ≤ hi ∧ hi ≤ (s.length : ℤ) then some ((s.take hi.toNat).drop lo.toNat) else none

/-- Slice expression s[lo:]; none is the run-time panic on bad bounds. -/
def sliceFrom {α : Type} (s : List α) (lo : ℤ) : Option (List α) :=
  if 0 ≤ lo ∧ lo ≤ (s.length : ℤ) then some (s.drop lo.toNat) else none

/-! ## Strings and formatting (Go standard library) -/

namespace strings

/-- Scan for the first position at or after offset i where sub starts; -1 when there is none. -/
def indexFrom (sub : List Char) : List Char → ℕ → ℤ
  | [], i => if sub.isPrefixOf [] then (i : ℤ) else -1
  | c :: t, i => if sub.isPrefixOf (c :: t) then (i : ℤ) else indexFrom sub t (i + 1)

/-- Library function strings.Index: index of the first instance of substr in s, or -1. -/
def Index (s substr : String) : ℤ := indexFrom substr.data s.data 0

/-- The counting loop of strings.Count for a separator of two or more characters. -/
def countLoop (sub : List Char) : ℕ → List Char → ℕ → ℕ
  | 0, _, n => n
  | fuel + 1, s, n =>
    let i := indexFrom sub s 0
    if i = -1 then n else countLoop sub fuel (s.drop (i.toNat + sub.length)) (n + 1)

/-- Library function strings.Count: number of non-overlapping instances of substr in s. -/
def Count (s substr : String) : ℕ :=
  match substr.data with
  | [] => s.length + 1
  | [c] => s.data.count c
  | sub => countLoop sub (s.length + 1) s.data 0

/-- The replacement loop of strings.Replace: r iterations remain, i have run,
start is the read position and b the builder. -/
def replaceLoop (s old new : List Char) : ℕ → ℕ → ℕ → List Char → List Char × ℕ
  | 0, _, start, b => (b, start)
  | r + 1, i, start, b =>
    let j : ℕ :=
      if old.length = 0 then
        if 0 < i then start + (if start < s.length then 1 else 0) else start
      else (start + indexFrom old (s.drop start) 0).toNat
    replaceLoop s old new r (i + 1) (j + old.length) (b ++ (s.take j).drop start ++ new)

/-- Library function strings.Replace. -/
def Replace (s old new : String) (n : ℤ) : String :=
  if old = new ∨ n = 0 then s
  else
    let m := Count s old
    if m = 0 then s
    else
      let n1 : ℕ := if n < 0 ∨ (m : ℤ) < n then m else n.toNat
      let r := replaceLoop s.data old.data new.data n1 0 0 []
      String.mk (r.1 ++ s.data.drop r.2)

/-- Library function strings.ReplaceAll. -/
def ReplaceAll (s old new : String) : String := Replace s old new (-1)

/-- Library function strings.Join. -/
def Join (elems : List String) (sep : String) : String :=
  match elems with
  | [] => ""
  | [e] => e
  | e :: rest => rest.foldl (fun b s => b ++ sep ++ s) e

end strings

/-- The character of a decimal digit. -/
def digitChar (d : ℕ) : Char := Char.ofNat (48 + d)

/-- Digit loop of fmt's integer formatting, filling the buffer from the right. -/
def fmtUintLoop : ℕ → ℕ → List Char → List Char
  | 0, u, buf => digitChar u :: buf
  | fuel + 1, u, buf =>
    if 10 ≤ u then fmtUintLoop fuel (u / 10) (digitChar (u - u / 10 * 10) :: buf)
    else digitChar u :: buf

/-- Verb %d of fmt.Sprintf on an unsigned integer. -/
def fmtUint (u : ℕ) : String := String.mk (fmtUintLoop u u [])

/-- Verb %d of fmt.Sprintf on a signed integer. -/
def fmtD (t : ℤ) : String :=
  if t < 0 then "-" ++ fmtUint t.natAbs else fmtUint t.natAbs

/-- Digit loop of strconv.ParseUint in base 10; n is the value read so far (the
range check against the bit size is left out). -/
def parseUintLoop : List Char → ℕ → Option ℕ
  | [], n => some n
  | c :: t, n =>
    if 48 ≤ c.toNat ∧ c.toNat ≤ 57 then parseUintLoop t (n * 10 + (c.toNat - 48)) else none

/-- Library function strconv.ParseUint in base 10: none is the syntax error. -/
def parseUint (s : List Char) : Option ℕ :=
  if s = [] then none else parseUintLoop s 0

/-- Library function strconv.ParseInt in base 10: an optional sign, then digits. -/
def parseInt (s : String) : Option ℤ :=
  match s.data with
  | [] => none
  | c :: t =>
    if c = '+' then (parseUint t).map (fun (n : ℕ) => (n : ℤ))
    else if c = '-' then (parseUint t).map (fun (n : ℕ) => -(n : ℤ))
    else (parseUint (c :: t)).map (fun (n : ℕ) => (n : ℤ))

/-- Decimal digits of u, padded with zeros on the left to the given width (appendInt of package time). -/
def padUint (u width : ℕ) : String :=
  String.mk (List.replicate (width - (fmtUint u).length) '0') ++ fmtUint u

/-- Helper appendInt of package time: sign, then zero padded digits. -/
def appendInt (x : ℤ) (width : ℕ) : String :=
  if x < 0 then "-" ++ padUint x.natAbs width else padUint x.natAbs width

/-- A floating point value as fmt sees it. -/
inductive GoFloat where
  | finite (neg : Bool) (mag : ℚ)
  | inf (neg : Bool)
  | nan
deriving DecidableEq

/-- Verb %f of fmt.Sprintf: fixed point with six decimals. -/
def fmtF : GoFloat → String
  | .nan => "NaN"
  | .inf false => "+Inf"
  | .inf true => "-Inf"
  | .finite neg mag =>
    let n := (roundHalfEven (mag * 1000000)).toNat
    (if neg then "-" else "") ++ fmtUint (n / 1000000) ++ "." ++ padUint (n % 1000000) 6

/-- What Format reads off a time.Time: the civil date and clock in the value's
location, the nanoseconds, and the zone offset in seconds east of UTC. -/
structure Time where
  year : ℤ
  month : ℕ
  day : ℕ
  hour : ℕ
  minute : ℕ
  second : ℕ
  nanosecond : ℕ
  offset : ℤ
deriving DecidableEq

/-- Method Format of time.Time with layout time.RFC3339, "2006-01-02T15:04:05Z07:00". -/
def Time.FormatRFC3339 (t : Time) : String :=
  let zone : ℤ := Int.tdiv t.offset 60
  appendInt t.year 4 ++ "-" ++ padUint t.month 2 ++ "-" ++ padUint t.day 2 ++ "T"
    ++ padUint t.hour 2 ++ ":" ++ padUint t.minute 2 ++ ":" ++ padUint t.second 2
    ++ (if t.offset = 0 then "Z"
        else if zone < 0 then
          "-" ++ padUint ((-zone).toNat / 60) 2 ++ ":" ++ padUint ((-zone).toNat % 60) 2
        else "+" ++ padUint (zone.toNat / 60) 2 ++ ":" ++ padUint (zone.toNat % 60) 2)

/-! ## Data model -/

/-- A Go map with string keys: entries with distinct keys. -/
structure GoMap (β : Type) where
  entries : List (String × β)
deriving DecidableEq

/-- The empty map literal. -/
def GoMap.empty {β : Type} : GoMap β := ⟨[]⟩

/-- Assignment m[k] = v. -/
def GoMap.set {β : Type} (m : GoMap β) (k : String) (v : β) : GoMap β :=
  ⟨m.entries.filter (fun e => e.1 ≠ k) ++ [(k, v)]⟩

/-- Lookup with presence flag, v, ok := m[k]. -/
def GoMap.get? {β : Type} (m : GoMap β) (k : String) : Option β :=
  (m.entries.find? (fun e => e.1 = k)).map Prod.snd

/-- The keys of the map. -/
def GoMap.keys {β : Type} (m : GoMap β) : List String := m.entries.map Prod.fst

/-- A dynamically typed cell value (a value of the empty interface type), by
dynamic type.  Type uint has no case in the type switch of insertStringValue.  A
value of a type whose %s text is produced outside this program (DateTime1,
DateTimeOffset, any other type) is represented by that text. -/
inductive Value where
  | nil
  | int (t : ℤ)
  | int8 (t : ℤ)
  | int16 (t : ℤ)
  | int32 (t : ℤ)
  | int64 (t : ℤ)
  | float32 (t : GoFloat)
  | float64 (t : GoFloat)
  | uint (t : ℕ)
  | uint8 (t : ℕ)
  | uint16 (t : ℕ)
  | uint32 (t : ℕ)
  | uint64 (t : ℕ)
  | string (t : String)
  | bool (t : Bool)
  | time (t : Time)
  | dateTime1 (fmtS : String)
  | dateTimeOffset (fmtS : String)
  | bytes (t : String)
  | other (fmtS : String)
deriving DecidableEq

/-- A fetched record: a map from column name to cell value. -/
abbrev Row := GoMap Value

/-- Index expression r[name]: the zero value nil when the key is absent. -/
def Row.index (r : Row) (name : String) : Value := (r.get? name).getD Value.nil

structure RawTableData where
  TableCatalog : String
  TableSchema : String
  TableName : String
  ColumnName : String
  ColumnOrdinalPosition : ℤ
  ColumnIsNullable : String
  ColumnDatatype : String
deriving DecidableEq

structure Column where
  Name : String
  OrdinalPosition : ℤ
  IsNullable : String
  Datatype : String
deriving DecidableEq

structure ExportTableMetadata where
  TableCatalog : String
  TableSchema : String
  TableName : String
  Columns : List Column
  ColumnMap : GoMap Column
  SelectStatement : String
deriving DecidableEq

/-! ## Chunkers -/

/-- Result res after the first n iterations of the loop over full chunks. -/
def chunkLoop {α : Type} (s : List α) (size : ℤ) : ℕ → Option (List (List α))
  | 0 => some []
  | i + 1 =>
    match chunkLoop s size i with
    | none => none
    | some res =>
      match sliceRange s ((i : ℤ) * size) ((i : ℤ) * size + size) with
      | none => none
      | some c => some (res ++ [c])

/-- The body shared, word for word, by chunkMapInterfaceSlice and
chunkStringSlice.  A size of 0 panics at the integer remainder. -/
def chunkSlice {α : Type} (s : List α) (size : ℕ) : Option (List (List α)) :=
  if size = 0 then none
  else
    let fullchunks := mathFloor (float64 (float64OfInt s.length / float64OfInt size))
    let partialchunk := s.length % size
    match chunkLoop s size (intOfFloat64 fullchunks).toNat with
    | none => none
    | some res =>
      if partialchunk > 0 then
        match sliceFrom s (intOfFloat64 fullchunks * (size : ℤ)) with
        | none => none
        | some c => some (res ++ [c])
      else some res

def chunkMapInterfaceSlice (s : List Row) (size : ℕ) : Option (List (List Row)) :=
  chunkSlice s size

def chunkStringSlice (s : List String) (size : ℕ) : Option (List (List String)) :=
  chunkSlice s size

/-! ## Value renderer -/

def insertStringValue (val : Value) : String :=
  match val with
  | .nil => "NULL"
  | .int t => fmtD t
  | .int8 t => fmtD t
  | .int16 t => fmtD t
  | .int32 t => fmtD t
  | .int64 t => fmtD t
  | .float32 t => fmtF t
  | .float64 t => fmtF t
  | .uint8 t => fmtUint t
  | .uint16 t => fmtUint t
  | .uint32 t => fmtUint t
  | .uint64 t => fmtUint t
  | .string t => "'" ++ strings.ReplaceAll t "'" "''" ++ "'"
  | .bool t => if t then "1" else "0"
  | .time t => "'" ++ t.FormatRFC3339 ++ "'"
  | .dateTime1 s => "'" ++ s ++ "'"
  | .dateTimeOffset s => "'" ++ s ++ "'"
  | .bytes t => t
  | .uint t => "'" ++ ("%!s(uint=" ++ fmtUint t ++ ")") ++ "'"
  | .other s => "'" ++ s ++ "'"

/-! ## Metadata assembler (the loop over objects in main) -/

/-- The identity text fmt.Sprintf("%s.%s.%s", catalog, schema, name) of a row. -/
def ident (o : RawTableData) : String :=
  o.TableCatalog ++ "." ++ o.TableSchema ++ "." ++ o.TableName

/-- The Column literal built from a row. -/
def columnOf (o : RawTableData) : Column :=
  { Name := o.ColumnName, OrdinalPosition := o.ColumnOrdinalPosition,
    IsNullable := o.ColumnIsNullable, Datatype := o.ColumnDatatype }

/-- Update of the element tables[len(tables)-1]; none is the index panic on an empty slice. -/
def updateLast {α : Type} (f : α → α) : List α → Option (List α)
  | [] => none
  | [a] => some [f a]
  | a :: b :: rest => (updateLast f (b :: rest)).map (fun l => a :: l)

/-- One iteration of the loop: the state is (tables, prevIdent). -/
def assembleStep (st : List ExportTableMetadata × String) (o : RawTableData) :
    Option (List ExportTableMetadata × String) :=
  let st1 : List ExportTableMetadata × String :=
    if ident o ≠ st.2 then
      (st.1 ++ [{ TableCatalog := o.TableCatalog, TableSchema := o.TableSchema,
                  TableName := o.TableName, Columns := [], ColumnMap := GoMap.empty,
                  SelectStatement := "" }], ident o)
    else st
  match updateLast (fun t => { t with Columns := t.Columns ++ [columnOf o] }) st1.1 with
  | none => none
  | some tables2 =>
    match updateLast (fun t => { t with ColumnMap := t.ColumnMap.set o.ColumnName (columnOf o) })
        tables2 with
    | none => none
    | some tables3 => some (tables3, st1.2)

/-- The loop over objects, from a given state. -/
def assembleLoop : List RawTableData → List ExportTableMetadata × String →
    Option (List ExportTableMetadata × String)
  | [], st => some st
  | o :: rest, st =>
    match assembleStep st o with
    | none => none
    | some st1 => assembleLoop rest st1

/-- The tables assembled by main from the fetched metadata rows. -/
def assembleTables (objects : List RawTableData) : Option (List ExportTableMetadata) :=
  (assembleLoop objects ([], "")).map Prod.fst

/-! ## Table exporter (the loop over tables in main) -/

/-- The loop building the bracketed column list; i is the loop index. -/
def columnsLoop : List Column → ℕ → String → String
  | [], _, columns => columns
  | col :: rest, i, columns =>
    columnsLoop rest (i + 1)
      (if i = 0 then columns ++ ("[" ++ col.Name ++ "]") else columns ++ (", [" ++ col.Name ++ "]"))

/-- The variable columns of main. -/
def columnsOf (table : ExportTableMetadata) : String := columnsLoop table.Columns 0 ""

/-- The SELECT statement text of a table. -/
def selectStatement (table : ExportTableMetadata) : String :=
  "SELECT " ++ columnsOf table ++ " FROM [" ++ table.TableCatalog ++ "].["
    ++ table.TableSchema ++ "].[" ++ table.TableName ++ "]"

/-- The variable insert of main: the head shared by all INSERT statements of a table. -/
def insertBase (table : ExportTableMetadata) : String :=
  "INSERT INTO [" ++ table.TableCatalog ++ "].[" ++ table.TableSchema ++ "].["
    ++ table.TableName ++ "] (" ++ columnsOf table ++ ") VALUES "

/-- The loop over the columns building niv, the value tuple of row r; k is the loop index. -/
def valuesLoop (r : Row) : List Column → ℕ → String → String
  | [], _, niv => niv
  | c :: rest, k, niv =>
    valuesLoop r rest (k + 1)
      ((if k ≠ 0 then niv ++ ", " else niv) ++ insertStringValue (r.index c.Name))

/-- The loop over the rows of one batch building ni; i is the loop index. -/
def batchLoop (table : ExportTableMetadata) : List Row → ℕ → String → String
  | [], _, ni => ni
  | r :: rest, i, ni =>
    let niv := valuesLoop r table.Columns 0 ""
    batchLoop table rest (i + 1)
      (if i = 0 then ni ++ ("\n  (" ++ niv ++ ") \n") else ni ++ (", (" ++ niv ++ ") \n"))

/-- The INSERT statement appended to insertStatements for the batch dc. -/
def insertStatement (table : ExportTableMetadata) (dc : List Row) : String :=
  batchLoop table dc 0 (insertBase table) ++ "\n"

/-- The slice insertStatements built from the fetched rows resarr. -/
def insertStatements (table : ExportTableMetadata) (resarr : List Row) (rowsPerBatch : ℕ) :
    Option (List String) :=
  (chunkMapInterfaceSlice resarr rowsPerBatch).map (fun datachunks =>
    datachunks.map (insertStatement table))

/-- The text idionoff written for one file chunk. -/
def fileContent (table : ExportTableMetadata) (chunk : List String) : String :=
  "SET IDENTITY_INSERT [" ++ table.TableSchema ++ "].[" ++ table.TableName ++ "] ON\n\n "
    ++ strings.Join chunk " \n\n " ++ " \n\nSET IDENTITY_INSERT [" ++ table.TableSchema
    ++ "].[" ++ table.TableName ++ "] OFF"

/-- The text fmt.Sprintf("%s_%s_%s_%d.sql", catalog, schema, name, i+1) built for
the chunk with loop index i.  It is the last argument of filepath.Join in main, not
yet the path written: see filePath. -/
def fileName (table : ExportTableMetadata) (i : ℕ) : String :=
  table.TableCatalog ++ "_" ++ table.TableSchema ++ "_" ++ table.TableName ++ "_"
    ++ fmtD ((i : ℤ) + 1) ++ ".sql"

/-- The loop over filechunks: the files written, in order, each as the name text
given to filepath.Join and the content. -/
def writeLoop (table : ExportTableMetadata) : List (List String) → ℕ → List (String × String)
  | [], _ => []
  | chunk :: rest, i => (fileName table i, fileContent table chunk) :: writeLoop table rest (i + 1)

/-- The files main writes for a table whose INSERT statements are stmts. -/
def exportFiles (table : ExportTableMetadata) (stmts : List String) (batchesPerFile : ℕ) :
    Option (List (String × String)) :=
  (chunkStringSlice stmts batchesPerFile).map (fun filechunks => writeLoop table filechunks 0)

/-! ## Closed forms used in the proofs -/

/-- The i-th full chunk s[i*size : i*size+size]. -/
def fullChunk {α : Type} (s : List α) (size i : ℕ) : List α :=
  (s.take (i * size + size)).drop (i * size)

/-- The table the assembling loop builds from a maximal run of rows: its first
row h and the rows rest that follow it. -/
def runTable (h : RawTableData) (rest : List RawTableData) : ExportTableMetadata :=
  { TableCatalog := h.TableCatalog, TableSchema := h.TableSchema, TableName := h.TableName,
    Columns := (h :: rest).map columnOf,
    ColumnMap := (h :: rest).foldl (fun m r => m.set r.ColumnName (columnOf r)) GoMap.empty,
    SelectStatement := "" }

/-! ## The texts the specification describes -/

/-- The single quote character. -/
def quoteChar : Char := Char.ofNat 39

/-- The text t with every single quote character replaced by two single quotes
and no other character changed. -/
def doubleQuotes (t : String) : String :=
  String.mk (t.data.flatMap (fun c => if c = quoteChar then [quoteChar, quoteChar] else [c]))

/-- The bracketed, comma-separated list of the column names, in Columns order. -/
def columnList (cols : List Column) : String :=
  String.intercalate ", " (cols.map (fun c => "[" ++ c.Name ++ "]"))

/-- The parenthesized tuple of a row: for each column, in Columns order, the
rendering of the row's value under the column's name, separated by ", ". -/
def valueTuple (cols : List Column) (r : Row) : String :=
  "(" ++ String.intercalate ", " (cols.map (fun c => insertStringValue (r.index c.Name))) ++ ")"

/-! ## Export of one table, and undoing the text rendering -/

/-- The export step of main for one table: the INSERT statements of the fetched
rows, then the files written for them, as (name, content) in order. -/
def exportTable (table : ExportTableMetadata) (resarr : List Row)
    (rowsPerBatch batchesPerFile : ℕ) : Option (List (String × String)) :=
  match insertStatements table resarr rowsPerBatch with
  | none => none
  | some stmts => exportFiles table stmts batchesPerFile

/-- A text without its first and its last character. -/
def stripEnds (s : String) : String := String.mk (s.data.drop 1).dropLast

/-- Every pair of single quotes replaced by one single quote, reading from the left. -/
def collapseQuotes : List Char → List Char
  | [] => []
  | [c] => [c]
  | c :: d :: rest =>
    if c = quoteChar ∧ d = quoteChar then quoteChar :: collapseQuotes rest
    else c :: collapseQuotes (d :: rest)

/-- Whether every maximal run of single quotes has even length; n is the length
of the run read so far. -/
def quoteRunsEven : List Char → ℕ → Bool
  | [], n => n % 2 = 0
  | c :: rest, n =>
    if c = quoteChar then quoteRunsEven rest (n + 1)
    else n % 2 = 0 && quoteRunsEven rest 0

/-! ## Command line and connection string -/

/-- Scan keeping the position of the last place where sub starts; i is the
offset of the text still to read and best the last position found so far. -/
def strings.lastIndexFrom (sub : List Char) : List Char → ℕ → ℤ → ℤ
  | [], i, best => if sub.isPrefixOf [] then (i : ℤ) else best
  | c :: t, i, best =>
    strings.lastIndexFrom sub t (i + 1) (if sub.isPrefixOf (c :: t) then (i : ℤ) else best)

/-- Library function strings.LastIndex: index of the last instance of substr in s, or -1. -/
def strings.LastIndex (s substr : String) : ℤ := strings.lastIndexFrom substr.data s.data 0 (-1)

/-- Slice expression s[lo:hi] on a string; none is the run-time panic on bad bounds. -/
def sliceString (s : String) (lo hi : ℤ) : Option String :=
  (sliceRange s.data lo hi).map String.mk

/-- Slice expression s[lo:] on a string; none is the run-time panic on bad bounds. -/
def sliceStringFrom (s : String) (lo : ℤ) : Option String :=
  (sliceFrom s.data lo).map String.mk

structure config where
  Directory : String
  RowsPerBatch : ℤ
  BatchesPerFile : ℤ
  IgnoreTables : String
  DbAddress : String
  DbPort : String
  DbUsername : String
  DbPassword : String
  DbDatabase : String
  DbSchema : String
deriving DecidableEq

def isValidConnectionString (connectionDetails : String) : Bool :=
  if strings.Count connectionDetails ":" < 2 then false
  else if strings.Count connectionDetails "@" < 1 then false
  else if strings.Count connectionDetails "/" < 1 then false
  else true

/-- The five assignments of main that cut the connection string into the fields of
cfg, in source order; none is a run-time panic of one of the slice expressions. -/
def connectionFields (cfg : config) (connectionDetails : String) : Option config :=
  match sliceString connectionDetails 0 (strings.Index connectionDetails ":") with
  | none => none
  | some username =>
    match sliceString connectionDetails (strings.Index connectionDetails ":" + 1)
        (strings.Index connectionDetails "@") with
    | none => none
    | some password =>
      match sliceString connectionDetails (strings.Index connectionDetails "@" + 1)
          (strings.LastIndex connectionDetails ":") with
      | none => none
      | some address =>
        match sliceString connectionDetails (strings.LastIndex connectionDetails ":" + 1)
            (strings.LastIndex connectionDetails "/") with
        | none => none
        | some port =>
          match sliceStringFrom connectionDetails (strings.Index connectionDetails "/" + 1) with
          | none => none
          | some database =>
            some { cfg with DbUsername := username, DbPassword := password,
                            DbAddress := address, DbPort := port, DbDatabase := database }

/-! ## Timestamps that the layout renders without loss, up to the second -/

/-- A timestamp with a year of four digits, civil fields in their ranges and a
zone offset of whole minutes. -/
def Time.inRFC3339Range (t : Time) : Prop :=
  0 ≤ t.year ∧ t.year ≤ 9999 ∧ 1 ≤ t.month ∧ t.month ≤ 12 ∧ 1 ≤ t.day ∧ t.day ≤ 31
    ∧ t.hour ≤ 23 ∧ t.minute ≤ 59 ∧ t.second ≤ 59 ∧ t.offset % 60 = 0

/-! ## Output paths (package path/filepath with the slash as separator) -/

/-- The elements of a path: the texts between its slashes, empty ones included;
cur is the element being read. -/
def filepath.elements : List Char → List Char → List (List Char)
  | [], cur => [cur]
  | c :: rest, cur =>
    if c = '/' then cur :: filepath.elements rest [] else filepath.elements rest (cur ++ [c])

/-- One turn of the loop of Clean, on the path element e; out holds the elements
written so far.  An empty element and "." are skipped.  On ".." the last element
written is removed when there is one to go back over (in a path that is not rooted
the ".." elements written at the front stay); otherwise ".." is written when the
path is not rooted and dropped when it is.  Any other element is written. -/
def filepath.cleanStep (rooted : Bool) (out : List (List Char)) (e : List Char) :
    List (List Char) :=
  if e = [] then out
  else if e = ['.'] then out
  else if e = ['.', '.'] then
    if (match out.getLast? with
        | none => false
        | some last => rooted || decide (last ≠ ['.', '.'])) = true then out.dropLast
    else if rooted = false then out ++ [e]
    else out
  else out ++ [e]

/-- The elements written, with one slash between neighbours. -/
def filepath.joinElements : List (List Char) → List Char
  | [] => []
  | [e] => e
  | e :: f :: rest => e ++ '/' :: filepath.joinElements (f :: rest)

/-- Library function filepath.Clean. -/
def filepath.Clean (path : String) : String :=
  if path = "" then "."
  else
    let rooted : Bool := decide (path.data.head? = some '/')
    let out := (filepath.elements path.data []).foldl (filepath.cleanStep rooted) []
    if rooted = true then String.mk ('/' :: filepath.joinElements out)
    else if out = [] then "."
    else String.mk (filepath.joinElements out)

/-- Library function filepath.Join: the elements from the first non-empty one on,
joined with slashes and cleaned. -/
def filepath.Join : List String → String
  | [] => ""
  | e :: rest =>
    if e ≠ "" then filepath.Clean (strings.Join (e :: rest) "/") else filepath.Join rest

/-- The path main writes the file of the chunk with loop index i to, newpath being
the output directory: filepath.Join(newpath, fmt.Sprintf(...)). -/
def filePath (newpath : String) (table : ExportTableMetadata) (i : ℕ) : String :=
  filepath.Join [newpath, fileName table i]

/-! ## Table identities -/

/-- The identity of the table a metadata row belongs to: catalog, schema and name. -/
def RawTableData.identity (o : RawTableData) : String × String × String :=
  (o.TableCatalog, o.TableSchema, o.TableName)

/-- The identity of an assembled table. -/
def ExportTableMetadata.identity (t : ExportTableMetadata) : String × String × String :=
  (t.TableCatalog, t.TableSchema, t.TableName)

/-- The distinct values of a list in the order of their first appearance: the list
is read from the left and a value is kept when it has not been seen yet. -/
def firstSeen {α : Type} [DecidableEq α] (l : List α) : List α :=
  l.foldl (fun seen x => if x ∈ seen then seen else seen ++ [x]) []

/-! ## The run of main -/

/-- Library function unicode.IsSpace. -/
def unicodeIsSpace (c : Char) : Bool :=
  let n := c.toNat
  (9 ≤ n && n ≤ 13) || n == 32 || n == 133 || n == 160 || n == 5760
    || (8192 ≤ n && n ≤ 8202) || n == 8232 || n == 8233 || n == 8239 || n == 8287 || n == 12288

/-- Library function strings.TrimSpace: s without leading and trailing white space. -/
def strings.TrimSpace (s : String) : String :=
  String.mk ((s.data.dropWhile unicodeIsSpace).rdropWhile unicodeIsSpace)

/-- The loop of strings.Split (genSplit): n separators remain to be cut at, s is
the text still to split and a the pieces found so far. -/
def strings.splitLoop (sep : List Char) : ℕ → List Char → List (List Char) → List (List Char)
  | 0, s, a => a ++ [s]
  | n + 1, s, a =>
    let m := strings.indexFrom sep s 0
    if m < 0 then a ++ [s]
    else strings.splitLoop sep n (s.drop (m.toNat + sep.length)) (a ++ [s.take m.toNat])

/-- Library function strings.Split. -/
def strings.Split (s sep : String) : List String :=
  if sep.data = [] then s.data.map (fun c => String.mk [c])
  else
    let n := min (strings.Count s sep + 1) (s.length + 1)
    (strings.splitLoop sep.data (n - 1) s.data []).map String.mk

/-- The variable ignoreTablesInItems of main, built from cfg.IgnoreTables. -/
def ignoreTablesInItems (ignoreTables : String) : String :=
  strings.Join ((strings.Split ignoreTables ",").map (fun e => "'" ++ strings.TrimSpace e ++ "'"))
    ", "

/-- The text of the metadata query of main. -/
def metadataQuery (items : String) : String :=
  "SELECT c.[TABLE_CATALOG], c.[TABLE_SCHEMA], c.[TABLE_NAME], c.[COLUMN_NAME], c.[ORDINAL_POSITION], c.[IS_NULLABLE], c.[DATA_TYPE]\n\tFROM INFORMATION_SCHEMA.COLUMNS c \n\tJOIN INFORMATION_SCHEMA.TABLES t ON c.[TABLE_NAME] = t.[TABLE_NAME]\n\tWHERE t.[TABLE_TYPE] = 'BASE TABLE' \n\t\tAND t.[TABLE_NAME] NOT IN ("
    ++ items
    ++ ")\n\t\tAND c.[TABLE_SCHEMA] = @p1\n\tORDER BY c.[TABLE_SCHEMA], c.[TABLE_NAME], c.[ORDINAL_POSITION] "

/-- The data source name main connects with. -/
def dataSourceName (cfg : config) : String :=
  "server=" ++ cfg.DbAddress ++ ";user id=" ++ cfg.DbUsername ++ ";password=" ++ cfg.DbPassword
    ++ ";database=" ++ cfg.DbDatabase ++ ";port=" ++ cfg.DbPort

/-- What main does to the outside world, in order. -/
inductive Event where
  | usage
  | exit (code : ℤ)
  | fatal
  | panic
  | mkdirAll (path : String)
  | connect (dataSource : String)
  | println (text : String)
  | query (text : String) (arg : String)
  | queryx (text : String)
  | callChunkMapInterfaceSlice (size : ℤ)
  | callChunkStringSlice (size : ℤ)
  | writeFile (path : String) (content : String)
deriving DecidableEq

/-- The outside world as main meets it: whether a directory can be made, whether
a connection opens, the rows a query returns (none for an error), whether a file
can be written. -/
structure World where
  mkdirAll : String → Bool
  connect : String → Bool
  query : String → String → Option (List RawTableData)
  queryx : String → Option (List Row)
  writeFile : String → Bool

/-- The loop over filechunks with its writes, each to filepath.Join(newpath, name):
the events, and whether all writes succeeded. -/
def writeFiles (w : World) (newpath : String) : List (String × String) → List Event × Bool
  | [] => ([], true)
  | f :: rest =>
    if w.writeFile (filepath.Join [newpath, f.1]) = true then
      (Event.writeFile (filepath.Join [newpath, f.1]) f.2 :: (writeFiles w newpath rest).1,
        (writeFiles w newpath rest).2)
    else ([Event.writeFile (filepath.Join [newpath, f.1]) f.2, Event.fatal], false)

/-- The loop over tables of main; newpath is the output directory. -/
def exportLoop (w : World) (newpath : String) (cfg : config) :
    List ExportTableMetadata → List Event
  | [] => []
  | table :: rest =>
    Event.queryx (selectStatement table) ::
      match w.queryx (selectStatement table) with
      | none => [Event.fatal]
      | some resarr =>
        Event.callChunkMapInterfaceSlice cfg.RowsPerBatch ::
          match insertStatements table resarr cfg.RowsPerBatch.toNat with
          | none => [Event.panic]
          | some stmts =>
            Event.callChunkStringSlice cfg.BatchesPerFile ::
              match chunkStringSlice stmts cfg.BatchesPerFile.toNat with
              | none => [Event.panic]
              | some filechunks =>
                (writeFiles w newpath (writeLoop table filechunks 0)).1
                  ++ (if (writeFiles w newpath (writeLoop table filechunks 0)).2 = true
                      then exportLoop w newpath cfg rest else [])

/-- Function main after flag.Parse: cfg holds the flags and args the remaining
arguments.  The output directory newpath is filepath.Join(cfg.Directory). -/
def mainRun (w : World) (cfg : config) (args : List String) : List Event :=
  if args.length ≠ 1 then [Event.usage, Event.exit (-1)]
  else if cfg.Directory = "" then [Event.usage, Event.exit (-1)]
  else if cfg.BatchesPerFile ≤ 0 ∨ cfg.RowsPerBatch ≤ 0 then [Event.usage, Event.exit (-1)]
  else
    Event.mkdirAll (filepath.Join [cfg.Directory]) ::
      if w.mkdirAll (filepath.Join [cfg.Directory]) = false then [Event.fatal]
      else if isValidConnectionString (args.headD "") = false then
        [Event.usage, Event.exit (-1)]
      else
        match connectionFields cfg (args.headD "") with
        | none => [Event.panic]
        | some cfg1 =>
          Event.connect (dataSourceName cfg1) ::
            if w.connect (dataSourceName cfg1) = false then [Event.fatal]
            else
              Event.println (ignoreTablesInItems cfg1.IgnoreTables) ::
                Event.query (metadataQuery (ignoreTablesInItems cfg1.IgnoreTables))
                    cfg1.DbSchema ::
                  match w.query (metadataQuery (ignoreTablesInItems cfg1.IgnoreTables))
                      cfg1.DbSchema with
                  | none => [Event.fatal]
                  | some objects =>
                    match assembleTables objects with
                    | none => [Event.panic]
                    | some tables => exportLoop w (filepath.Join [cfg.Directory]) cfg1 tables

/-! ## Exactness of the floating point quotient -/

theorem roundHalfEven_ge (y : ℚ) (m : ℤ) (h : (m : ℚ) ≤ y) : m ≤ roundHalfEven y := by
  have hf : m ≤ ⌊y⌋ := Int.le_floor.mpr h
  unfold roundHalfEven
  simp only
  split_ifs <;> omega

theorem roundHalfEven_lt (y : ℚ) (m : ℤ) (h : y < (m : ℚ) - 1/2) : roundHalfEven y < m := by
  have hy : y < (m : ℚ) := by linarith
  have hf : ⌊y⌋ < m := Int.floor_lt.mpr hy
  unfold roundHalfEven
  simp only
  by_cases h1 : y - ⌊y⌋ < 1/2
  · rw [if_pos h1]; exact hf
  · have hf2 : ⌊y⌋ + 1 < m := by
      by_contra hc
      have hm : m = ⌊y⌋ + 1 := by omega
      apply h1
      have : (m : ℚ) = ⌊y⌋ + 1 := by rw [hm]; push_cast; ring
      linarith
    rw [if_neg h1]
    split_ifs <;> omega

theorem roundHalfEven_intCast (m : ℤ) : roundHalfEven (m : ℚ) = m := by
  unfold roundHalfEven
  simp

theorem float64_natCast_of_lt (a : ℕ) (ha : a < 2 ^ 53) : float64 (a : ℚ) = a := by
  unfold float64
  by_cases h0 : (a : ℚ) = 0
  · simp [h0]
  · simp only [h0, if_false]
    have hpos : (0 : ℚ) < a := by
      have : (0:ℚ) ≤ a := Nat.cast_nonneg a
      exact lt_of_le_of_ne this (Ne.symm h0)
    rw [abs_of_pos hpos]
    have hlo : ((2 : ℕ) : ℚ) ^ Int.log 2 (a : ℚ) ≤ a := Int.zpow_log_le_self (by norm_num) hpos
    have he : Int.log 2 (a : ℚ) < 53 := by
      have h1 : ((2 : ℕ) : ℚ) ^ Int.log 2 (a : ℚ) < ((2 : ℕ) : ℚ) ^ (53 : ℤ) := by
        apply lt_of_le_of_lt hlo
        have : (a : ℚ) < ((2 ^ 53 : ℕ) : ℚ) := by exact_mod_cast ha
        calc (a : ℚ) < ((2 ^ 53 : ℕ) : ℚ) := this
          _ = ((2 : ℕ) : ℚ) ^ (53 : ℤ) := by norm_num
      exact (zpow_lt_zpow_iff_right₀ (by norm_num)).mp h1
    obtain ⟨k, hk⟩ : ∃ k : ℕ, Int.log 2 (a : ℚ) - 52 = -(k : ℤ) := ⟨(52 - Int.log 2 (a : ℚ)).toNat, by omega⟩
    rw [hk]
    have hu : ((2 : ℚ) ^ (-(k : ℤ))) = 1 / ((2 ^ k : ℕ) : ℚ) := by
      rw [zpow_neg, zpow_natCast]; push_cast; simp
    rw [hu]
    have hdiv : (a : ℚ) / (1 / ((2 ^ k : ℕ) : ℚ)) = (((a * 2 ^ k : ℕ) : ℤ) : ℚ) := by
      push_cast; field_simp
    rw [hdiv, roundHalfEven_intCast]
    push_cast; field_simp

theorem float64_exp_bound (x : ℚ) (hx : 0 < x) (hx53 : x < 2 ^ 53) :
    ∃ k : ℕ, Int.log 2 |x| - 52 = -(k : ℤ) ∧ (2 : ℚ) ^ 52 / 2 ^ k ≤ x := by
  rw [abs_of_pos hx]
  have hlo : ((2 : ℕ) : ℚ) ^ Int.log 2 x ≤ x := Int.zpow_log_le_self (by norm_num) hx
  have he : Int.log 2 x < 53 := by
    have h1 : ((2 : ℕ) : ℚ) ^ Int.log 2 x < ((2 : ℕ) : ℚ) ^ (53 : ℤ) := by
      apply lt_of_le_of_lt hlo
      calc x < 2 ^ 53 := hx53
        _ = ((2 : ℕ) : ℚ) ^ (53 : ℤ) := by norm_num
    exact (zpow_lt_zpow_iff_right₀ (by norm_num)).mp h1
  obtain ⟨k, hk⟩ : ∃ k : ℕ, Int.log 2 x = 52 - (k : ℤ) :=
    ⟨(52 - Int.log 2 x).toNat, by omega⟩
  refine ⟨k, by omega, ?_⟩
  rw [hk, zpow_sub₀ (by norm_num), zpow_natCast] at hlo
  have h52 : ((2 : ℕ) : ℚ) ^ (52 : ℤ) = 2 ^ 52 := by norm_num
  rw [h52] at hlo
  exact_mod_cast hlo

theorem float64_div_floor (a d : ℕ) (ha : a < 2 ^ 53) (hd : 1 ≤ d) :
    ⌊float64 ((a : ℚ) / (d : ℚ))⌋ = ((a / d : ℕ) : ℤ) := by
  have hdpos : (0 : ℚ) < d := by exact_mod_cast hd
  by_cases h0 : a = 0
  · subst h0; simp [float64]
  have hapos : (0 : ℚ) < a := by exact_mod_cast Nat.pos_of_ne_zero h0
  have hxpos : (0 : ℚ) < (a : ℚ) / d := div_pos hapos hdpos
  have ha53 : (a : ℚ) < 2 ^ 53 := by exact_mod_cast ha
  have hxa : (a : ℚ) / d ≤ a := div_le_self hapos.le (by exact_mod_cast hd)
  obtain ⟨k, hk, hlo⟩ := float64_exp_bound _ hxpos (lt_of_le_of_lt hxa ha53)
  have hP : (0 : ℚ) < 2 ^ k := by positivity
  -- the quotient and its neighbours
  have hq1 : (((a / d : ℕ) : ℤ) : ℚ) ≤ (a : ℚ) / d := by
    push_cast; exact Nat.cast_div_le
  have hq2 : (a : ℚ) / d + 1 / d ≤ (((a / d : ℕ) : ℤ) : ℚ) + 1 := by
    have h : a + 1 ≤ (a / d + 1) * d := by
      have := Nat.lt_div_mul_add (a := a) hd
      rw [Nat.add_mul, Nat.one_mul]
      omega
    have h' : ((a : ℚ) + 1) ≤ ((a / d : ℕ) + 1 : ℚ) * d := by exact_mod_cast h
    rw [← add_div, div_le_iff₀ hdpos]
    push_cast
    exact h'
  have hdk : (d : ℚ) < 2 * 2 ^ k := by
    have h1 : (2 : ℚ) ^ 52 / 2 ^ k * d ≤ a := by
      have := mul_le_mul_of_nonneg_right hlo hdpos.le
      rwa [div_mul_cancel₀ _ hdpos.ne'] at this
    have h2 : (2 : ℚ) ^ 52 / 2 ^ k * d < 2 ^ 53 := lt_of_le_of_lt h1 ha53
    rw [div_mul_eq_mul_div, div_lt_iff₀ hP] at h2
    have h3 : (2 : ℚ) ^ 52 * d < 2 ^ 52 * (2 * 2 ^ k) := by
      calc (2 : ℚ) ^ 52 * d < 2 ^ 53 * 2 ^ k := h2
        _ = 2 ^ 52 * (2 * 2 ^ k) := by ring
    exact lt_of_mul_lt_mul_left h3 (by positivity)
  have hu : ((2 : ℚ) ^ (-(k : ℤ))) = 1 / 2 ^ k := by
    rw [zpow_neg, zpow_natCast]; simp
  have hf : float64 ((a : ℚ) / d)
      = (roundHalfEven ((a : ℚ) / d * 2 ^ k) : ℚ) / 2 ^ k := by
    unfold float64
    rw [if_neg hxpos.ne']
    simp only
    rw [hk, hu]
    field_simp
  rw [hf, Int.floor_eq_iff]
  constructor
  · -- lower bound: the quotient is representable at this exponent
    have hge := roundHalfEven_ge ((a : ℚ) / d * 2 ^ k) (((a / d : ℕ) : ℤ) * 2 ^ k) (by
      push_cast
      have := mul_le_mul_of_nonneg_right hq1 hP.le
      push_cast at this
      exact this)
    have hge' : ((((a / d : ℕ) : ℤ) * 2 ^ k : ℤ) : ℚ) ≤ (roundHalfEven ((a : ℚ) / d * 2 ^ k) : ℚ) := by
      exact_mod_cast hge
    rw [le_div_iff₀ hP]
    push_cast at hge' ⊢
    exact hge'
  · -- upper bound: the quotient stays more than half an ulp below the next integer
    have hlt := roundHalfEven_lt ((a : ℚ) / d * 2 ^ k) ((((a / d : ℕ) : ℤ) + 1) * 2 ^ k) (by
      push_cast
      have h1 : (1 : ℚ) / 2 < 1 / d * 2 ^ k := by
        rw [div_mul_eq_mul_div, one_mul, lt_div_iff₀ hdpos]
        linarith
      have h2 : ((a : ℚ) / d + 1 / d) * 2 ^ k ≤ ((((a / d : ℕ) : ℤ) : ℚ) + 1) * 2 ^ k :=
        mul_le_mul_of_nonneg_right hq2 hP.le
      push_cast at h2
      linarith)
    have hlt' : (roundHalfEven ((a : ℚ) / d * 2 ^ k) : ℚ) < (((((a / d : ℕ) : ℤ) + 1) * 2 ^ k : ℤ) : ℚ) := by
      exact_mod_cast hlt
    rw [div_lt_iff₀ hP]
    push_cast at hlt' ⊢
    exact hlt'

theorem float64_natCast_of_ge (b : ℕ) (hb : 2 ^ 53 ≤ b) :
    ∃ d : ℕ, float64 (b : ℚ) = d ∧ 2 ^ 53 ≤ d := by
  have hbq : (2 : ℚ) ^ 53 ≤ b := by exact_mod_cast hb
  have hbpos : (0 : ℚ) < b := lt_of_lt_of_le (by positivity) hbq
  have hlo : ((2 : ℕ) : ℚ) ^ Int.log 2 (b : ℚ) ≤ b := Int.zpow_log_le_self (by norm_num) hbpos
  have hhi : (b : ℚ) < ((2 : ℕ) : ℚ) ^ (Int.log 2 (b : ℚ) + 1) := Int.lt_zpow_succ_log_self (by norm_num) _
  have he : 53 ≤ Int.log 2 (b : ℚ) := by
    have h1 : ((2 : ℕ) : ℚ) ^ (53 : ℤ) < ((2 : ℕ) : ℚ) ^ (Int.log 2 (b : ℚ) + 1) := by
      refine lt_of_le_of_lt ?_ hhi
      calc ((2 : ℕ) : ℚ) ^ (53 : ℤ) = 2 ^ 53 := by norm_num
        _ ≤ b := hbq
    have := (zpow_lt_zpow_iff_right₀ (by norm_num)).mp h1
    omega
  obtain ⟨j, hj⟩ : ∃ j : ℕ, Int.log 2 (b : ℚ) - 52 = (j : ℤ) + 1 :=
    ⟨(Int.log 2 (b : ℚ) - 53).toNat, by omega⟩
  have hlog : Int.log 2 (b : ℚ) = ((j + 53 : ℕ) : ℤ) := by push_cast; omega
  have hf : float64 (b : ℚ) = (roundHalfEven ((b : ℚ) / 2 ^ (j + 1)) : ℚ) * 2 ^ (j + 1) := by
    unfold float64
    rw [if_neg hbpos.ne', abs_of_pos hbpos]
    simp only
    rw [hj]
    have : (2 : ℚ) ^ ((j : ℤ) + 1) = 2 ^ (j + 1) := by
      rw [← zpow_natCast]; push_cast; rfl
    rw [this]
  have hP : (0 : ℚ) < 2 ^ (j + 1) := by positivity
  have hge := roundHalfEven_ge ((b : ℚ) / 2 ^ (j + 1)) (2 ^ 52) (by
    rw [le_div_iff₀ hP]
    rw [hlog, zpow_natCast] at hlo
    push_cast at hlo ⊢
    calc (2 : ℚ) ^ 52 * 2 ^ (j + 1) = 2 ^ (j + 53) := by ring
      _ ≤ b := hlo)
  obtain ⟨m, hm⟩ : ∃ m : ℕ, roundHalfEven ((b : ℚ) / 2 ^ (j + 1)) = (m : ℤ) :=
    ⟨(roundHalfEven ((b : ℚ) / 2 ^ (j + 1))).toNat, by
      have : (0 : ℤ) ≤ 2 ^ 52 := by positivity
      omega⟩
  refine ⟨m * 2 ^ (j + 1), ?_, ?_⟩
  · rw [hf, hm]; push_cast; ring
  · rw [hm] at hge
    have hm52 : 2 ^ 52 ≤ m := by exact_mod_cast hge
    calc 2 ^ 53 = 2 ^ 52 * 2 ^ 1 := by norm_num
      _ ≤ m * 2 ^ (j + 1) := Nat.mul_le_mul hm52 (Nat.pow_le_pow_right (by norm_num) (by omega))

theorem fullchunks_eq (len size : ℕ) (hlen : len < 2 ^ 53) (hsize : 1 ≤ size) :
    intOfFloat64 (mathFloor (float64 (float64OfInt len / float64OfInt size)))
      = ((len / size : ℕ) : ℤ) := by
  have hfl : float64OfInt (len : ℤ) = (len : ℚ) := by
    unfold float64OfInt; push_cast; exact float64_natCast_of_lt len hlen
  obtain ⟨d, hd, hd1, hdiv⟩ : ∃ d : ℕ, float64OfInt (size : ℤ) = d ∧ 1 ≤ d ∧ len / d = len / size := by
    by_cases hs : size < 2 ^ 53
    · exact ⟨size, by unfold float64OfInt; push_cast; exact float64_natCast_of_lt size hs, hsize, rfl⟩
    · obtain ⟨d, hd, hd53⟩ := float64_natCast_of_ge size (by omega)
      refine ⟨d, by unfold float64OfInt; push_cast; exact hd, by omega, ?_⟩
      rw [Nat.div_eq_of_lt (by omega), Nat.div_eq_of_lt (by omega)]
  rw [hfl, hd]
  have hfloor := float64_div_floor len d hlen hd1
  unfold mathFloor intOfFloat64
  rw [hfloor, hdiv]
  simp

theorem sliceRange_natCast {α : Type} (s : List α) (lo hi : ℕ) (h1 : lo ≤ hi) (h2 : hi ≤ s.length) :
    sliceRange s (lo : ℤ) (hi : ℤ) = some ((s.take hi).drop lo) := by
  unfold sliceRange
  rw [if_pos ⟨by omega, by omega, by omega⟩]
  simp

theorem sliceFrom_natCast {α : Type} (s : List α) (lo : ℕ) (h : lo ≤ s.length) :
    sliceFrom s (lo : ℤ) = some (s.drop lo) := by
  unfold sliceFrom
  rw [if_pos ⟨by omega, by omega⟩]
  simp

theorem chunkLoop_eq {α : Type} (s : List α) (size n : ℕ) (h : n * size ≤ s.length) :
    chunkLoop s (size : ℤ) n = some ((List.range n).map (fullChunk s size)) := by
  induction n with
  | zero => rfl
  | succ n ih =>
    have hn : n * size + size ≤ s.length := by rw [Nat.succ_mul] at h; exact h
    have ih' := ih (by omega)
    have hs : sliceRange s ((n : ℤ) * (size : ℤ)) ((n : ℤ) * (size : ℤ) + (size : ℤ))
        = some (fullChunk s size n) := by
      have := sliceRange_natCast s (n * size) (n * size + size) (by omega) hn
      push_cast at this
      exact this
    simp only [chunkLoop, ih', hs, List.range_succ, List.map_append, List.map_cons, List.map_nil]

theorem fullChunks_flatten {α : Type} (s : List α) (size n : ℕ) :
    ((List.range n).map (fullChunk s size)).flatten = s.take (n * size) := by
  induction n with
  | zero => simp
  | succ n ih =>
    rw [List.range_succ, List.map_append, List.flatten_append, ih]
    simp only [List.map_cons, List.map_nil, List.flatten_cons, List.flatten_nil, List.append_nil]
    unfold fullChunk
    have h : List.take (n * size) s = List.take (n * size) (List.take (n * size + size) s) := by
      rw [List.take_take]; congr 1; omega
    rw [h, List.take_append_drop, Nat.succ_mul]

theorem fullChunk_length {α : Type} (s : List α) (size i : ℕ) (h : i * size + size ≤ s.length) :
    (fullChunk s size i).length = size := by
  unfold fullChunk
  rw [List.length_drop, List.length_take]
  omega

/-- Closed form of the chunker on admissible inputs. -/
theorem chunkSlice_eq {α : Type} (s : List α) (size : ℕ) (hsize : 1 ≤ size)
    (hlen : s.length < 2 ^ 53) :
    chunkSlice s size = some ((List.range (s.length / size)).map (fullChunk s size)
      ++ (if 0 < s.length % size then [s.drop (s.length / size * size)] else [])) := by
  unfold chunkSlice
  rw [if_neg (by omega)]
  simp only
  rw [fullchunks_eq s.length size hlen hsize]
  have hmul : s.length / size * size ≤ s.length := Nat.div_mul_le_self _ _
  rw [Int.toNat_natCast, chunkLoop_eq s size _ hmul]
  simp only
  by_cases hp : 0 < s.length % size
  · have hs : sliceFrom s (((s.length / size : ℕ) : ℤ) * (size : ℤ))
        = some (s.drop (s.length / size * size)) := by
      rw [← Nat.cast_mul]
      exact sliceFrom_natCast s (s.length / size * size) hmul
    simp only [gt_iff_lt, hp, if_true, hs]
  · simp only [gt_iff_lt, hp, if_false, List.append_nil]


theorem chunkSlice_flatten {α : Type} (s : List α) (size : ℕ) (hsize : 1 ≤ size)
    (hlen : s.length < 2 ^ 53) :
    ∃ cs, chunkSlice s size = some cs ∧ cs.flatten = s := by
  refine ⟨_, chunkSlice_eq s size hsize hlen, ?_⟩
  rw [List.flatten_append, fullChunks_flatten]
  by_cases hp : 0 < s.length % size
  · simp [hp]
  · have hmod : s.length % size = 0 := by omega
    have hfull : s.length / size * size = s.length := by
      have := Nat.div_add_mod s.length size
      rw [hmod, Nat.mul_comm] at this
      omega
    simp [hp, hfull]

theorem chunkSlice_sizes {α : Type} (s : List α) (size : ℕ) (hsize : 1 ≤ size)
    (hlen : s.length < 2 ^ 53) :
    ∃ cs, chunkSlice s size = some cs
      ∧ (∀ c ∈ cs.dropLast, c.length = size)
      ∧ (∀ c, cs.getLast? = some c → 1 ≤ c.length ∧ c.length ≤ size)
      ∧ (∀ c ∈ cs, 1 ≤ c.length ∧ c.length ≤ size) := by
  refine ⟨_, chunkSlice_eq s size hsize hlen, ?_⟩
  have hfull : ∀ c ∈ (List.range (s.length / size)).map (fullChunk s size), c.length = size := by
    intro c hc
    obtain ⟨i, hi, rfl⟩ := List.mem_map.mp hc
    have hi' : i < s.length / size := List.mem_range.mp hi
    apply fullChunk_length
    have h1 : (i + 1) * size ≤ s.length / size * size := Nat.mul_le_mul_right _ hi'
    have h2 : s.length / size * size ≤ s.length := Nat.div_mul_le_self _ _
    rw [Nat.succ_mul] at h1
    omega
  by_cases hp : 0 < s.length % size
  · have hlast : (s.drop (s.length / size * size)).length = s.length % size := by
      rw [List.length_drop]
      have := Nat.div_add_mod s.length size
      rw [Nat.mul_comm] at this
      omega
    have hlt : s.length % size < size := Nat.mod_lt _ (by omega)
    simp only [hp, if_true]
    refine ⟨?_, ?_, ?_⟩
    · rw [List.dropLast_concat]; exact hfull
    · intro c hc
      rw [List.getLast?_concat] at hc
      cases hc
      omega
    · intro c hc
      rcases List.mem_append.mp hc with h | h
      · have := hfull c h; omega
      · rw [List.mem_singleton] at h
        subst h
        omega
  · simp only [hp, if_false, List.append_nil]
    refine ⟨?_, ?_, ?_⟩
    · intro c hc
      exact hfull c (List.mem_of_mem_dropLast hc)
    · intro c hc
      have := hfull c (List.mem_of_getLast?_eq_some hc)
      omega
    · intro c hc
      have := hfull c hc
      omega

/-- C1: for every chunk size of at least 1, concatenating in order the chunks that
chunkStringSlice returns for a sequence of strings gives back that sequence, and
likewise for chunkMapInterfaceSlice on a sequence of rows.  The sequences are
shorter than 2^53, the range in which the float64 quotient of the code is exact. -/
theorem chunk_concat (s : List String) (rows : List Row) (size : ℕ) (hsize : 1 ≤ size)
    (hs : s.length < 2 ^ 53) (hrows : rows.length < 2 ^ 53) :
    (∃ cs, chunkStringSlice s size = some cs ∧ cs.flatten = s)
      ∧ (∃ cs, chunkMapInterfaceSlice rows size = some cs ∧ cs.flatten = rows) :=
  ⟨chunkSlice_flatten s size hsize hs, chunkSlice_flatten rows size hsize hrows⟩

theorem chunk_concat_witness :
    (1 ≤ 2 ∧ ["a", "b", "c"].length < 2 ^ 53 ∧ [(GoMap.empty : Row)].length < 2 ^ 53)
      ∧ ((∃ cs, chunkStringSlice ["a", "b", "c"] 2 = some cs ∧ cs.flatten = ["a", "b", "c"])
        ∧ (∃ cs, chunkMapInterfaceSlice [(GoMap.empty : Row)] 2 = some cs
            ∧ cs.flatten = [(GoMap.empty : Row)])) :=
  ⟨⟨by decide, by decide, by decide⟩,
    chunk_concat ["a", "b", "c"] [GoMap.empty] 2 (by decide) (by decide) (by decide)⟩

/-- C2: for every chunk size S of at least 1, every chunk returned by
chunkStringSlice and by chunkMapInterfaceSlice except possibly the last has exactly
S elements, the last chunk has between 1 and S elements, and so every chunk has
between 1 and S elements.  The sequences are shorter than 2^53. -/
theorem chunk_sizes (s : List String) (rows : List Row) (size : ℕ) (hsize : 1 ≤ size)
    (hs : s.length < 2 ^ 53) (hrows : rows.length < 2 ^ 53) :
    (∃ cs, chunkStringSlice s size = some cs
      ∧ (∀ c ∈ cs.dropLast, c.length = size)
      ∧ (∀ c, cs.getLast? = some c → 1 ≤ c.length ∧ c.length ≤ size)
      ∧ (∀ c ∈ cs, 1 ≤ c.length ∧ c.length ≤ size))
    ∧ (∃ cs, chunkMapInterfaceSlice rows size = some cs
      ∧ (∀ c ∈ cs.dropLast, c.length = size)
      ∧ (∀ c, cs.getLast? = some c → 1 ≤ c.length ∧ c.length ≤ size)
      ∧ (∀ c ∈ cs, 1 ≤ c.length ∧ c.length ≤ size)) :=
  ⟨chunkSlice_sizes s size hsize hs, chunkSlice_sizes rows size hsize hrows⟩

theorem chunk_sizes_witness :
    (1 ≤ 2 ∧ ["a", "b", "c"].length < 2 ^ 53 ∧ [(GoMap.empty : Row)].length < 2 ^ 53)
    ∧ ((∃ cs, chunkStringSlice ["a", "b", "c"] 2 = some cs
      ∧ (∀ c ∈ cs.dropLast, c.length = 2)
      ∧ (∀ c, cs.getLast? = some c → 1 ≤ c.length ∧ c.length ≤ 2)
      ∧ (∀ c ∈ cs, 1 ≤ c.length ∧ c.length ≤ 2))
    ∧ (∃ cs, chunkMapInterfaceSlice [(GoMap.empty : Row)] 2 = some cs
      ∧ (∀ c ∈ cs.dropLast, c.length = 2)
      ∧ (∀ c, cs.getLast? = some c → 1 ≤ c.length ∧ c.length ≤ 2)
      ∧ (∀ c ∈ cs, 1 ≤ c.length ∧ c.length ≤ 2))) :=
  ⟨⟨by decide, by decide, by decide⟩,
    chunk_sizes ["a", "b", "c"] [GoMap.empty] 2 (by decide) (by decide) (by decide)⟩


/-! ## Text rendering -/

theorem indexFrom_single (q : Char) (rest : List Char) (i : ℕ) (h : q ∈ rest) :
    ∃ pre post, rest = pre ++ q :: post ∧ q ∉ pre
      ∧ strings.indexFrom [q] rest i = ((i + pre.length : ℕ) : ℤ) := by
  induction rest generalizing i with
  | nil => simp at h
  | cons c t ih =>
    by_cases hc : q = c
    · subst hc
      refine ⟨[], t, rfl, by simp, ?_⟩
      simp [strings.indexFrom, List.isPrefixOf]
    · have ht : q ∈ t := by
        rcases List.mem_cons.mp h with h1 | h1
        · exact absurd h1 hc
        · exact h1
      obtain ⟨pre, post, hrest, hpre, hidx⟩ := ih (i + 1) ht
      refine ⟨c :: pre, post, by rw [hrest]; rfl, ?_, ?_⟩
      · simp only [List.mem_cons, not_or]; exact ⟨hc, hpre⟩
      · have : strings.indexFrom [q] (c :: t) i = strings.indexFrom [q] t (i + 1) := by
          simp [strings.indexFrom, List.isPrefixOf, hc]
        rw [this, hidx]
        simp only [List.length_cons]
        congr 1
        omega

theorem flatMap_escape_of_not_mem (q : Char) (new l : List Char) (h : q ∉ l) :
    l.flatMap (fun c => if c = q then new else [c]) = l := by
  induction l with
  | nil => rfl
  | cons c t ih =>
    simp only [List.mem_cons, not_or] at h
    have hc : ¬ c = q := fun e => h.1 e.symm
    simp only [List.flatMap_cons, hc, if_false, ih h.2, List.singleton_append]

theorem replaceLoop_single (q : Char) (new s : List Char) (r : ℕ) :
    ∀ (i start : ℕ) (b : List Char), start ≤ s.length → r ≤ (s.drop start).count q →
      (strings.replaceLoop s [q] new r i start b).2 ≤ s.length
      ∧ (s.drop (strings.replaceLoop s [q] new r i start b).2).count q
          = (s.drop start).count q - r
      ∧ (strings.replaceLoop s [q] new r i start b).1
          ++ (s.drop (strings.replaceLoop s [q] new r i start b).2).flatMap
              (fun c => if c = q then new else [c])
        = b ++ (s.drop start).flatMap (fun c => if c = q then new else [c]) := by
  induction r with
  | zero =>
    intro i start b hstart _
    simp only [strings.replaceLoop, Nat.sub_zero]
    exact ⟨hstart, trivial, trivial⟩
  | succ r ih =>
    intro i start b hstart hcount
    have hmem : q ∈ s.drop start := by
      apply List.count_pos_iff.mp
      omega
    obtain ⟨pre, post, hrest, hpre, hidx⟩ := indexFrom_single q (s.drop start) 0 hmem
    have hlen : s.length = start + (pre.length + (post.length + 1)) := by
      have h1 : (s.drop start).length = s.length - start := List.length_drop _ _
      rw [hrest] at h1
      simp only [List.length_append, List.length_cons] at h1
      omega
    have hj : (((start : ℤ) + strings.indexFrom [q] (s.drop start) 0).toNat) = start + pre.length := by
      rw [hidx]; simp only [Nat.zero_add]; omega
    have hstep : strings.replaceLoop s [q] new (r + 1) i start b
        = strings.replaceLoop s [q] new r (i + 1) (start + pre.length + 1) (b ++ pre ++ new) := by
      have htake : (s.take (start + pre.length)).drop start = pre := by
        rw [List.drop_take, hrest]
        simp
      simp only [strings.replaceLoop, List.length_singleton, Nat.one_ne_zero, if_false, hj, htake]
    have hdrop : s.drop (start + pre.length + 1) = post := by
      have : s.drop (start + pre.length + 1) = (s.drop start).drop (pre.length + 1) := by
        rw [List.drop_drop, Nat.add_assoc]
      rw [this, hrest]
      simp
    have hcpre : pre.count q = 0 := List.count_eq_zero.mpr hpre
    have hcrest : (s.drop start).count q = post.count q + 1 := by
      rw [hrest]; simp [hcpre]
    rw [hstep]
    obtain ⟨h1, h2, h3⟩ := ih (i + 1) (start + pre.length + 1) (b ++ pre ++ new) (by omega)
      (by rw [hdrop]; omega)
    refine ⟨h1, ?_, ?_⟩
    · rw [h2, hdrop, hcrest]; omega
    · rw [h3, hdrop]
      conv_rhs => rw [hrest]
      simp only [List.flatMap_append, List.flatMap_cons, if_true,
        flatMap_escape_of_not_mem q new pre hpre, List.append_assoc]

theorem replaceAll_quote (t : String) : strings.ReplaceAll t "'" "''" = doubleQuotes t := by
  have hq : ("'" : String).data = [quoteChar] := by decide
  have hqq : ("''" : String).data = [quoteChar, quoteChar] := by decide
  have hne : ¬ (("'" : String) = "''" ∨ (-1 : ℤ) = 0) := by decide
  unfold strings.ReplaceAll strings.Replace
  rw [if_neg hne]
  have hcount : strings.Count t "'" = t.data.count quoteChar := by
    unfold strings.Count
    rw [hq]
  simp only [hcount]
  by_cases hm : t.data.count quoteChar = 0
  · rw [if_pos hm]
    unfold doubleQuotes
    rw [flatMap_escape_of_not_mem quoteChar _ t.data (List.count_eq_zero.mp hm)]
  · rw [if_neg hm]
    have hn1 : (if (-1 : ℤ) < 0 ∨ ((t.data.count quoteChar : ℕ) : ℤ) < -1
        then t.data.count quoteChar else (-1 : ℤ).toNat) = t.data.count quoteChar := by
      rw [if_pos (Or.inl (by decide))]
    rw [hn1]
    obtain ⟨_, h2, h3⟩ := replaceLoop_single quoteChar [quoteChar, quoteChar] t.data
      (t.data.count quoteChar) 0 0 [] (Nat.zero_le _) (by simp)
    simp only [List.drop_zero, Nat.sub_self, List.nil_append] at h2 h3
    have hrest := flatMap_escape_of_not_mem quoteChar [quoteChar, quoteChar] _
      (List.count_eq_zero.mp h2)
    rw [hrest] at h3
    unfold doubleQuotes
    exact congrArg String.mk h3

/-- C3: for every text value t, insertStringValue returns a single quote, then t
with every single quote character replaced by two single quotes and no other
character changed, then a single quote; O'Brien renders as 'O''Brien'. -/
theorem insertStringValue_text (t : String) :
    insertStringValue (Value.string t) = "'" ++ doubleQuotes t ++ "'"
      ∧ insertStringValue (Value.string "O'Brien") = "'O''Brien'" := by
  refine ⟨?_, by decide⟩
  show "'" ++ strings.ReplaceAll t "'" "''" ++ "'" = _
  rw [replaceAll_quote]


/-! ## Integer rendering -/

theorem digitChar_toNat (d : ℕ) (h : d < 10) : (digitChar d).toNat = 48 + d := by
  interval_cases d <;> rfl

theorem fmtUintLoop_spec (fuel : ℕ) : ∀ (u : ℕ) (buf : List Char), u ≤ fuel →
    ∃ ds : List Char, fmtUintLoop fuel u buf = ds ++ buf ∧ ds ≠ []
      ∧ (∀ c ∈ ds, 48 ≤ c.toNat ∧ c.toNat ≤ 57)
      ∧ (∀ (rest : List Char) (n : ℕ),
          parseUintLoop (ds ++ rest) n = parseUintLoop rest (n * 10 ^ ds.length + u)) := by
  induction fuel with
  | zero =>
    intro u buf hu
    have hu0 : u = 0 := by omega
    subst hu0
    refine ⟨[digitChar 0], rfl, by simp, ?_, ?_⟩
    · intro c hc
      rw [List.mem_singleton] at hc
      subst hc
      decide
    · intro rest n
      simp [parseUintLoop, digitChar_toNat 0 (by decide)]
  | succ fuel ih =>
    intro u buf hu
    by_cases h10 : 10 ≤ u
    · obtain ⟨ds, hds, _, hdig, hparse⟩ :=
        ih (u / 10) (digitChar (u - u / 10 * 10) :: buf) (by omega)
      have hlt : u - u / 10 * 10 < 10 := by omega
      have hd := digitChar_toNat (u - u / 10 * 10) hlt
      refine ⟨ds ++ [digitChar (u - u / 10 * 10)], ?_, by simp, ?_, ?_⟩
      · rw [fmtUintLoop, if_pos h10, hds]
        simp
      · intro c hc
        rcases List.mem_append.mp hc with h | h
        · exact hdig c h
        · rw [List.mem_singleton] at h
          subst h
          omega
      · intro rest n
        rw [List.append_assoc, hparse]
        simp only [List.singleton_append, parseUintLoop, hd]
        rw [if_pos (by omega)]
        congr 1
        simp only [List.length_append, List.length_singleton, pow_succ]
        have e1 : n * (10 ^ ds.length * 10) = n * 10 ^ ds.length * 10 := by ring
        rw [e1]
        generalize n * 10 ^ ds.length = B
        omega
    · have hlt : u < 10 := by omega
      have hd := digitChar_toNat u hlt
      refine ⟨[digitChar u], ?_, by simp, ?_, ?_⟩
      · rw [fmtUintLoop, if_neg h10]
        rfl
      · intro c hc
        rw [List.mem_singleton] at hc
        subst hc
        omega
      · intro rest n
        simp only [List.singleton_append, parseUintLoop, hd, List.length_singleton, pow_one]
        rw [if_pos (by omega)]
        congr 1
        omega

theorem parseUint_fmtUint (u : ℕ) :
    parseUint (fmtUint u).data = some u
      ∧ (fmtUint u).data ≠ []
      ∧ ∀ c ∈ (fmtUint u).data, 48 ≤ c.toNat ∧ c.toNat ≤ 57 := by
  obtain ⟨ds, hds, hne, hdig, hparse⟩ := fmtUintLoop_spec u u [] (Nat.le_refl u)
  have hdata : (fmtUint u).data = ds := by
    unfold fmtUint
    rw [hds, List.append_nil]
  rw [hdata]
  refine ⟨?_, hne, hdig⟩
  unfold parseUint
  rw [if_neg hne]
  have := hparse [] 0
  rw [List.append_nil] at this
  rw [this]
  simp [parseUintLoop]

theorem parseInt_fmtUint (u : ℕ) : parseInt (fmtUint u) = some (u : ℤ) := by
  obtain ⟨hparse, hne, hdig⟩ := parseUint_fmtUint u
  unfold parseInt
  cases hdata : (fmtUint u).data with
  | nil => exact absurd hdata hne
  | cons c t =>
    rw [hdata] at hparse hdig
    have hc := hdig c (List.mem_cons_self c t)
    have h1 : ¬ c = '+' := by
      intro e; subst e
      have : ('+' : Char).toNat = 43 := rfl
      omega
    have h2 : ¬ c = '-' := by
      intro e; subst e
      have : ('-' : Char).toNat = 45 := rfl
      omega
    simp only [h1, h2, if_false, hparse, Option.map_some']

theorem parseInt_fmtD (t : ℤ) : parseInt (fmtD t) = some t := by
  unfold fmtD
  by_cases ht : t < 0
  · rw [if_pos ht]
    obtain ⟨hparse, _, _⟩ := parseUint_fmtUint t.natAbs
    unfold parseInt
    have hdata : ("-" ++ fmtUint t.natAbs).data = '-' :: (fmtUint t.natAbs).data := by
      rw [String.data_append]; rfl
    rw [hdata]
    have h1 : ¬ ('-' : Char) = '+' := by decide
    have hneg : -((t.natAbs : ℕ) : ℤ) = t := by omega
    simp only [h1, if_false, if_true, hparse, Option.map_some', hneg]
  · have hpos : ((t.natAbs : ℕ) : ℤ) = t := by omega
    rw [if_neg ht, parseInt_fmtUint, hpos]

/-- The integer types the type switch lists: a value of type int, int8, int16,
int32 or int64, and a value of type uint8, uint16, uint32 or uint64, is rendered
as its decimal digits (after a minus sign when negative), and the text parses back
to the value. -/
theorem insertStringValue_listed_integers (t : ℤ) (u : ℕ) :
    (∀ v ∈ [Value.int t, Value.int8 t, Value.int16 t, Value.int32 t, Value.int64 t],
        insertStringValue v = fmtD t ∧ parseInt (insertStringValue v) = some t)
      ∧ (∀ v ∈ [Value.uint8 u, Value.uint16 u, Value.uint32 u, Value.uint64 u],
        insertStringValue v = fmtUint u ∧ parseInt (insertStringValue v) = some (u : ℤ)
          ∧ ∀ c ∈ (insertStringValue v).data, 48 ≤ c.toNat ∧ c.toNat ≤ 57) := by
  constructor
  · intro v hv
    simp only [List.mem_cons, List.mem_singleton, List.not_mem_nil, or_false] at hv
    rcases hv with h | h | h | h | h <;> subst h <;> exact ⟨rfl, parseInt_fmtD t⟩
  · intro v hv
    simp only [List.mem_cons, List.mem_singleton, List.not_mem_nil, or_false] at hv
    rcases hv with h | h | h | h <;> subst h <;>
      exact ⟨rfl, parseInt_fmtUint u, (parseUint_fmtUint u).2.2⟩


/-! ## Metadata assembler -/

theorem updateLast_concat {α : Type} (f : α → α) (l : List α) (a : α) :
    updateLast f (l ++ [a]) = some (l ++ [f a]) := by
  induction l with
  | nil => rfl
  | cons b l ih =>
    cases l with
    | nil => rfl
    | cons c l =>
      simp only [List.cons_append] at ih ⊢
      show (updateLast f (c :: (l ++ [a]))).map (fun r => b :: r) = _
      rw [ih]
      rfl

theorem assembleLoop_append (l : List RawTableData) (o : RawTableData)
    (st : List ExportTableMetadata × String) :
    assembleLoop (l ++ [o]) st
      = match assembleLoop l st with
        | none => none
        | some st1 => assembleStep st1 o := by
  induction l generalizing st with
  | nil =>
    simp only [List.nil_append, assembleLoop]
    cases assembleStep st o <;> rfl
  | cons a l ih =>
    simp only [List.cons_append, assembleLoop]
    cases assembleStep st a with
    | none => rfl
    | some st1 => exact ih st1

theorem ident_ne_empty (o : RawTableData) : ident o ≠ "" := by
  intro h
  have := congrArg String.length h
  simp only [ident, String.length_append] at this
  have h1 : (".".length : ℕ) = 1 := by decide
  have h2 : ("".length : ℕ) = 0 := by decide
  omega

/-- Rows with the same catalog and the same schema, as the metadata query of main
returns them, have the same identity text exactly when they have the same table
name. -/
theorem ident_eq_iff_tableName (o p : RawTableData) (hc : o.TableCatalog = p.TableCatalog)
    (hs : o.TableSchema = p.TableSchema) : ident o = ident p ↔ o.TableName = p.TableName := by
  unfold ident
  rw [hc, hs]
  constructor
  · intro h
    have hd := congrArg String.data h
    simp only [String.data_append] at hd
    exact String.ext (List.append_cancel_left hd)
  · intro h
    rw [h]

/-- The state of the assembling loop after the rows: the tables are the images of
the maximal runs of rows with equal identity text, and prevIdent is the identity
text of the last run. -/
theorem assembleLoop_runs (rows : List RawTableData) :
    ∃ segs : List (RawTableData × List RawTableData),
      assembleLoop rows ([], "")
        = some (segs.map (fun p => runTable p.1 p.2),
                match segs.getLast? with
                | none => ""
                | some p => ident p.1)
      ∧ (segs.map (fun p => p.1 :: p.2)).flatten = rows
      ∧ (∀ p ∈ segs, ∀ r ∈ p.2, ident r = ident p.1)
      ∧ List.Chain' (fun p q => ident p.1 ≠ ident q.1) segs := by
  induction rows using List.reverseRecOn with
  | nil => exact ⟨[], rfl, rfl, by simp, List.chain'_nil⟩
  | append_singleton rows o ih =>
    obtain ⟨segs, hloop, hflat, hsame, hchain⟩ := ih
    rw [assembleLoop_append, hloop]
    simp only
    by_cases hnew : ident o ≠ (match segs.getLast? with
        | none => ""
        | some p => ident p.1)
    · -- a new table is appended
      refine ⟨segs ++ [(o, [])], ?_, ?_, ?_, ?_⟩
      · unfold assembleStep
        simp only
        rw [if_pos hnew]
        simp only [updateLast_concat, List.getLast?_concat, List.map_append,
          List.map_cons, List.map_nil]
        rfl
      · simp [hflat]
      · intro p hp r hr
        rcases List.mem_append.mp hp with h | h
        · exact hsame p h r hr
        · rw [List.mem_singleton] at h
          subst h
          simp at hr
      · rw [List.chain'_append]
        refine ⟨hchain, List.chain'_singleton _, ?_⟩
        intro x hx y hy
        simp only [List.head?_cons, Option.mem_def, Option.some.injEq] at hy
        subst hy
        rw [Option.mem_def] at hx
        rw [hx] at hnew
        exact fun e => hnew e.symm
    · -- the row joins the last table
      have hold : ident o = (match segs.getLast? with
          | none => ""
          | some p => ident p.1) := not_not.mp hnew
      rcases List.eq_nil_or_concat segs with hnil | ⟨segs0, p, hsegs⟩
      · subst hnil
        exact absurd hold (ident_ne_empty o)
      · rw [List.concat_eq_append] at hsegs
        subst hsegs
        rw [List.getLast?_concat] at hold hnew
        simp only at hold hnew
        refine ⟨segs0 ++ [(p.1, p.2 ++ [o])], ?_, ?_, ?_, ?_⟩
        · unfold assembleStep
          simp only [List.getLast?_concat]
          rw [if_neg hnew]
          simp only [List.map_append, List.map_cons, List.map_nil, updateLast_concat]
          simp [runTable, List.foldl_append]
        · rw [← hflat]
          simp
        · intro q hq r hr
          rcases List.mem_append.mp hq with h | h
          · exact hsame q (List.mem_append_left _ h) r hr
          · rw [List.mem_singleton] at h
            subst h
            rcases List.mem_append.mp hr with h1 | h1
            · exact hsame p (List.mem_append_right _ (List.mem_singleton.mpr rfl)) r h1
            · rw [List.mem_singleton] at h1
              subst h1
              exact hold
        · rw [List.chain'_append] at hchain ⊢
          refine ⟨hchain.1, List.chain'_singleton _, ?_⟩
          intro x hx y hy
          simp only [List.head?_cons, Option.mem_def, Option.some.injEq] at hy
          subst hy
          exact hchain.2.2 x hx p (by simp)


theorem GoMap.get?_set {β : Type} (m : GoMap β) (k k1 : String) (v : β) :
    (m.set k v).get? k1 = if k1 = k then some v else m.get? k1 := by
  unfold GoMap.set GoMap.get?
  simp only
  by_cases h : k1 = k
  · subst h
    rw [if_pos rfl, List.find?_append]
    have : List.find? (fun e => decide (e.1 = k1))
        (List.filter (fun e => decide (e.1 ≠ k1)) m.entries) = none := by
      rw [List.find?_eq_none]
      intro x hx
      have := (List.mem_filter.mp hx).2
      simpa using this
    rw [this]
    simp
  · rw [if_neg h, List.find?_append]
    have : List.find? (fun e => decide (e.1 = k1))
        (List.filter (fun e => decide (e.1 ≠ k)) m.entries)
        = List.find? (fun e => decide (e.1 = k1)) m.entries := by
      induction m.entries with
      | nil => rfl
      | cons e l ih =>
        by_cases he : e.1 = k
        · have he1 : ¬ e.1 = k1 := fun e1 => h (e1.symm.trans he)
          rw [List.filter_cons_of_neg (by simpa using he),
            List.find?_cons_of_neg _ (by simpa using he1), ih]
        · rw [List.filter_cons_of_pos (by simpa using he)]
          by_cases he1 : e.1 = k1
          · rw [List.find?_cons_of_pos _ (by simpa using he1),
              List.find?_cons_of_pos _ (by simpa using he1)]
          · rw [List.find?_cons_of_neg _ (by simpa using he1),
              List.find?_cons_of_neg _ (by simpa using he1), ih]
    rw [this]
    cases hf : List.find? (fun e => decide (e.1 = k1)) m.entries with
    | some x => simp
    | none =>
      have hk : ¬ k = k1 := fun e => h e.symm
      simp [hk]

theorem GoMap.mem_keys_iff {β : Type} (m : GoMap β) (k : String) :
    k ∈ m.keys ↔ (m.get? k).isSome = true := by
  unfold GoMap.keys GoMap.get?
  rw [List.mem_map]
  constructor
  · rintro ⟨e, he, rfl⟩
    cases hf : List.find? (fun x => decide (x.1 = e.1)) m.entries with
    | none =>
      rw [List.find?_eq_none] at hf
      exact absurd (hf e he) (by simp)
    | some x => rfl
  · intro hs
    cases hf : List.find? (fun x => decide (x.1 = k)) m.entries with
    | none => rw [hf] at hs; simp at hs
    | some x => exact ⟨x, List.mem_of_find?_eq_some hf, by simpa using List.find?_some hf⟩

theorem foldl_set_get? (seg : List RawTableData) (m : GoMap Column) (name : String) :
    (seg.foldl (fun m r => m.set r.ColumnName (columnOf r)) m).get? name
      = (((seg.map columnOf).filter (fun c => c.Name = name)).getLast?).or (m.get? name) := by
  induction seg generalizing m with
  | nil => simp
  | cons r t ih =>
    rw [List.foldl_cons, ih, GoMap.get?_set]
    have hcons : (List.map columnOf (r :: t)).filter (fun c => c.Name = name)
        = (if r.ColumnName = name then [columnOf r] else [])
          ++ (List.map columnOf t).filter (fun c => c.Name = name) := by
      by_cases h : r.ColumnName = name
      · simp [List.filter_cons, columnOf, h]
      · simp [List.filter_cons, columnOf, h]
    rw [hcons, List.getLast?_append]
    by_cases h : r.ColumnName = name
    · rw [if_pos h, if_pos h.symm]
      cases ((List.map columnOf t).filter (fun c => c.Name = name)).getLast? <;> simp
    · have h1 : ¬ name = r.ColumnName := fun e => h e.symm
      rw [if_neg h, if_neg h1]
      cases ((List.map columnOf t).filter (fun c => c.Name = name)).getLast? <;> simp

theorem runTable_columnMap (h : RawTableData) (rest : List RawTableData) (name : String) :
    (name ∈ (runTable h rest).ColumnMap.keys ↔ name ∈ (runTable h rest).Columns.map Column.Name)
      ∧ (runTable h rest).ColumnMap.get? name
          = ((runTable h rest).Columns.filter (fun c => c.Name = name)).getLast? := by
  have hget : (runTable h rest).ColumnMap.get? name
      = ((runTable h rest).Columns.filter (fun c => c.Name = name)).getLast? := by
    unfold runTable
    simp only
    rw [foldl_set_get?]
    have : (GoMap.empty : GoMap Column).get? name = none := rfl
    rw [this]
    cases (List.filter (fun c => decide (c.Name = name)) (List.map columnOf (h :: rest))).getLast? <;> rfl
  refine ⟨?_, hget⟩
  rw [GoMap.mem_keys_iff, hget, List.mem_map]
  constructor
  · intro hs
    obtain ⟨c, hc⟩ := Option.isSome_iff_exists.mp hs
    have hmem := List.mem_of_getLast?_eq_some hc
    obtain ⟨h1, h2⟩ := List.mem_filter.mp hmem
    exact ⟨c, h1, by simpa using h2⟩
  · rintro ⟨c, hc, hname⟩
    have hmem : c ∈ (runTable h rest).Columns.filter (fun c => c.Name = name) :=
      List.mem_filter.mpr ⟨hc, by simpa using hname⟩
    cases hl : ((runTable h rest).Columns.filter (fun c => c.Name = name)).getLast? with
    | some x => rfl
    | none =>
      rw [List.getLast?_eq_none_iff] at hl
      rw [hl] at hmem
      simp at hmem

/-- C7: the assembling loop neither reorders nor deduplicates columns.  The
Columns of the produced tables, concatenated in order, are one Column per input
row in input order, made of the row's name, ordinal position, nullability and data
type.  The rows split into consecutive runs, one per produced table, whose images
are the Columns of the tables: a name occurs in a table's Columns as often as in
its run, and ascending ordinals in the run give ascending ordinals in Columns. -/
theorem columns_preserved (objects : List RawTableData) :
    ∃ tables, assembleTables objects = some tables
      ∧ (tables.map (fun t => t.Columns)).flatten
          = objects.map (fun o => Column.mk o.ColumnName o.ColumnOrdinalPosition
              o.ColumnIsNullable o.ColumnDatatype)
      ∧ ∃ runs : List (List RawTableData), runs.flatten = objects
          ∧ List.Forall₂ (fun t run =>
              run ≠ []
              ∧ (∀ r ∈ run, ident r = t.TableCatalog ++ "." ++ t.TableSchema ++ "." ++ t.TableName)
              ∧ t.Columns = run.map columnOf
              ∧ (∀ name, (t.Columns.filter (fun c => c.Name = name)).length
                  = (run.filter (fun r => r.ColumnName = name)).length)
              ∧ ((run.map (fun r => r.ColumnOrdinalPosition)).Sorted (fun a b => a < b)
                  → (t.Columns.map (fun c => c.OrdinalPosition)).Sorted (fun a b => a < b)))
            tables runs := by
  obtain ⟨segs, hloop, hflat, hsame, _⟩ := assembleLoop_runs objects
  refine ⟨segs.map (fun p => runTable p.1 p.2), ?_, ?_, segs.map (fun p => p.1 :: p.2), hflat, ?_⟩
  · unfold assembleTables
    rw [hloop]
    rfl
  · have hcols : (List.map (fun t => t.Columns) (List.map (fun p => runTable p.1 p.2) segs))
        = (segs.map (fun p => p.1 :: p.2)).map (List.map columnOf) := by
      simp [runTable, Function.comp_def]
    rw [hcols, ← List.map_flatten, hflat]
    rfl
  · rw [List.forall₂_map_left_iff, List.forall₂_map_right_iff, List.forall₂_same]
    intro p hp
    have hcol : (runTable p.1 p.2).Columns = (p.1 :: p.2).map columnOf := rfl
    refine ⟨by simp, ?_, hcol, ?_, ?_⟩
    · intro r hr
      rcases List.mem_cons.mp hr with h | h
      · subst h; rfl
      · exact hsame p hp r h
    · intro name
      rw [hcol, List.filter_map, List.length_map]
      rfl
    · intro hs
      rw [hcol, List.map_map]
      exact hs

/-- C8: in every table the assembling loop produces, the keys of ColumnMap are
exactly the column names occurring in Columns, and looking a name up in ColumnMap
returns the last Column of Columns with that name. -/
theorem columnMap_matches_columns (objects : List RawTableData) :
    ∃ tables, assembleTables objects = some tables
      ∧ ∀ t ∈ tables, ∀ name : String,
          (name ∈ t.ColumnMap.keys ↔ name ∈ t.Columns.map Column.Name)
          ∧ t.ColumnMap.get? name = (t.Columns.filter (fun c => c.Name = name)).getLast? := by
  obtain ⟨segs, hloop, _, _, _⟩ := assembleLoop_runs objects
  refine ⟨segs.map (fun p => runTable p.1 p.2), ?_, ?_⟩
  · unfold assembleTables
    rw [hloop]
    rfl
  · intro t ht name
    obtain ⟨p, _, rfl⟩ := List.mem_map.mp ht
    exact runTable_columnMap p.1 p.2 name


/-! ## Evaluations at particular inputs -/

/-- C4, at the Go value uint(42): the type switch of insertStringValue has no case
for uint, so the value takes the default branch and is rendered by the verb %s
inside single quotes, not as the digit string 42. -/
theorem insertStringValue_uint_default :
    insertStringValue (Value.uint 42) = "'%!s(uint=42)'"
      ∧ insertStringValue (Value.uint 42) ≠ "42"
      ∧ insertStringValue (Value.uint64 42) = "42" := by
  decide

/-- Rows of two schemas, which the metadata query of main (it filters on one
schema) does not return together: three rows of table c in schema a.b followed by
two rows of table b.c in schema a have the same identity text db.a.b.c, and the
assembling loop produces a single table holding all five columns.  The theorems on
table identities below are therefore stated for rows of one catalog and schema. -/
theorem assembleTables_merges_two_tables :
    (assembleTables
        [ RawTableData.mk "db" "a.b" "c" "c1" 1 "NO" "int",
          RawTableData.mk "db" "a.b" "c" "c2" 2 "NO" "int",
          RawTableData.mk "db" "a.b" "c" "c3" 3 "NO" "int",
          RawTableData.mk "db" "a" "b.c" "d1" 1 "NO" "int",
          RawTableData.mk "db" "a" "b.c" "d2" 2 "NO" "int" ]).map
      (fun tables => tables.map (fun t =>
        (t.TableCatalog, t.TableSchema, t.TableName, t.Columns.map Column.Name)))
      = some [("db", "a.b", "c", ["c1", "c2", "c3", "d1", "d2"])] := by
  decide

/-- Two consecutive rows of two schemas (schema a.b, table c, then schema a,
table b.c), which the metadata query of main does not return together: the second
row's column is added to the table of the first row, because both rows have the
identity text db.a.b.c. -/
theorem assembleTables_joins_distinct_tables :
    (RawTableData.mk "db" "a.b" "c" "x" 1 "NO" "int").TableSchema
        ≠ (RawTableData.mk "db" "a" "b.c" "y" 1 "NO" "int").TableSchema
      ∧ ident (RawTableData.mk "db" "a.b" "c" "x" 1 "NO" "int")
        = ident (RawTableData.mk "db" "a" "b.c" "y" 1 "NO" "int")
      ∧ (assembleTables
          [ RawTableData.mk "db" "a.b" "c" "x" 1 "NO" "int",
            RawTableData.mk "db" "a" "b.c" "y" 1 "NO" "int" ]).map
          (fun tables => tables.map (fun t => t.Columns.map Column.Name))
        = some [["x", "y"]] := by
  decide

/-- The example of the specification: rows of T1 (ordinals 1, 2, 3) followed by
rows of T2 (ordinals 1, 2) give two tables, T1 then T2, with their columns in
order. -/
theorem assembleTables_example :
    (assembleTables
        [ RawTableData.mk "db" "dbo" "T1" "a" 1 "NO" "int",
          RawTableData.mk "db" "dbo" "T1" "b" 2 "YES" "varchar",
          RawTableData.mk "db" "dbo" "T1" "c" 3 "NO" "int",
          RawTableData.mk "db" "dbo" "T2" "x" 1 "NO" "int",
          RawTableData.mk "db" "dbo" "T2" "y" 2 "NO" "int" ]).map
      (fun tables => tables.map (fun t =>
        (t.TableCatalog, t.TableSchema, t.TableName, t.Columns.map Column.Name)))
      = some [("db", "dbo", "T1", ["a", "b", "c"]), ("db", "dbo", "T2", ["x", "y"])] := by
  decide


/-! ## One table per identity -/

theorem firstSeen_step_block {α : Type} [DecidableEq α] (v : α) (b : List α)
    (hb : ∀ x ∈ b, x = v) (seen : List α) (hv : v ∈ seen) :
    b.foldl (fun seen x => if x ∈ seen then seen else seen ++ [x]) seen = seen := by
  induction b with
  | nil => rfl
  | cons x b ih =>
    have hx : x = v := hb x (List.mem_cons_self _ _)
    rw [List.foldl_cons, if_pos (hx ▸ hv)]
    exact ih (fun y hy => hb y (List.mem_cons_of_mem _ hy))

theorem firstSeen_blocks {α : Type} [DecidableEq α] (blocks : List (α × List α))
    (hconst : ∀ p ∈ blocks, ∀ x ∈ p.2, x = p.1) :
    ∀ seen : List α, (seen ++ blocks.map Prod.fst).Nodup →
      (blocks.map (fun p => p.1 :: p.2)).flatten.foldl
          (fun seen x => if x ∈ seen then seen else seen ++ [x]) seen
        = seen ++ blocks.map Prod.fst := by
  induction blocks with
  | nil => intro seen _; simp
  | cons p rest ih =>
    intro seen hnd
    have hp : p.1 ∉ seen := by
      intro h
      rw [List.map_cons, List.nodup_append] at hnd
      exact hnd.2.2 h (List.mem_cons_self _ _)
    simp only [List.map_cons, List.flatten_cons, List.foldl_append, List.foldl_cons]
    rw [if_neg hp, firstSeen_step_block p.1 p.2 (hconst p (List.mem_cons_self _ _)) _
      (List.mem_append_right _ (List.mem_singleton.mpr rfl))]
    rw [ih (fun q hq => hconst q (List.mem_cons_of_mem _ hq)) (seen ++ [p.1])
      (by simpa [List.append_assoc] using hnd)]
    simp

theorem heads_nodup {α β : Type} (f : β → α) (blocks : List (β × List β))
    (hchain : List.Chain' (fun p q => f p.1 ≠ f q.1) blocks)
    (hcontig : ∀ (a b c : List β) (x y : β),
      (blocks.map (fun p => p.1 :: p.2)).flatten = a ++ x :: (b ++ y :: c) → f x = f y →
        ∀ z ∈ b, f z = f x) :
    (blocks.map (fun p => f p.1)).Nodup := by
  induction blocks with
  | nil => simp
  | cons p rest ih =>
    rw [List.map_cons, List.nodup_cons]
    constructor
    · intro hmem
      obtain ⟨q, hq, hqe⟩ := List.mem_map.mp hmem
      cases rest with
      | nil => simp at hq
      | cons q0 rest1 =>
        have hne : f p.1 ≠ f q0.1 := (List.chain'_cons.mp hchain).1
        rcases List.mem_cons.mp hq with h | h
        · subst h
          exact hne hqe.symm
        · obtain ⟨r1, r2, hr⟩ := List.append_of_mem h
          have hflat : (((p :: q0 :: rest1).map (fun p => p.1 :: p.2)).flatten)
              = [] ++ p.1 :: ((p.2 ++ (q0.1 :: q0.2) ++ (r1.map (fun p => p.1 :: p.2)).flatten)
                  ++ q.1 :: (q.2 ++ (r2.map (fun p => p.1 :: p.2)).flatten)) := by
            rw [hr]
            simp
          have := hcontig _ _ _ _ _ hflat hqe.symm q0.1 (by simp)
          exact hne this.symm
    · apply ih (List.chain'_cons'.mp hchain).2
      intro a b c x y hflat hxy
      apply hcontig ((p.1 :: p.2) ++ a) b c x y _ hxy
      rw [List.map_cons, List.flatten_cons, hflat]
      simp

theorem identity_eq_of_ident (o p : RawTableData) (hc : o.TableCatalog = p.TableCatalog)
    (hs : o.TableSchema = p.TableSchema) (h : ident o = ident p) : o.identity = p.identity := by
  have hn := (ident_eq_iff_tableName o p hc hs).mp h
  unfold RawTableData.identity
  rw [hc, hs, hn]

theorem ident_eq_of_identity (o p : RawTableData) (h : o.identity = p.identity) :
    ident o = ident p := by
  unfold RawTableData.identity at h
  simp only [Prod.mk.injEq] at h
  unfold ident
  rw [h.1, h.2.1, h.2.2]

/-- A test of contiguity by positions: whenever a position and a later one hold
rows with the same value of f, the position next to the first holds that value
too. -/
theorem contiguous_of_positions {α β : Type} (f : β → α) (l : List β)
    (hnext : ∀ j < l.length, ∀ i < j,
      l[i]?.map f = l[j]?.map f → (l[i + 1]?).map f = l[i]?.map f) :
    ∀ (a b c : List β) (x y : β), l = a ++ x :: (b ++ y :: c) → f x = f y →
      ∀ z ∈ b, f z = f x := by
  have h : ∀ j < l.length, ∀ k < j, ∀ i < k,
      l[i]?.map f = l[j]?.map f → l[k]?.map f = l[i]?.map f := by
    intro j hj k hk i hi heq
    have hd : ∀ d, i + d ≤ j → (l[i + d]?).map f = l[i]?.map f := by
      intro d
      induction d with
      | zero => intro _; rfl
      | succ d ih =>
        intro hle
        have h1 := ih (by omega)
        have h2 := hnext j hj (i + d) (by omega) (h1.trans heq)
        rw [← Nat.add_assoc]
        exact h2.trans h1
    have := hd (k - i) (by omega)
    rw [Nat.add_sub_cancel' (le_of_lt hi)] at this
    exact this
  intro a b c x y hl hxy z hz
  obtain ⟨m, hm⟩ := List.getElem?_of_mem hz
  have hmlt : m < b.length := by
    by_contra hge
    rw [List.getElem?_eq_none (by omega)] at hm
    cases hm
  have hi : l[a.length]? = some x := by
    rw [hl, List.getElem?_append_right (le_refl _)]
    simp
  have hk : l[a.length + 1 + m]? = some z := by
    rw [hl, List.getElem?_append_right (by omega)]
    have e : a.length + 1 + m - a.length = m + 1 := by omega
    rw [e, List.getElem?_cons_succ, List.getElem?_append_left hmlt]
    exact hm
  have hj : l[a.length + 1 + b.length]? = some y := by
    rw [hl, List.getElem?_append_right (by omega)]
    have e : a.length + 1 + b.length - a.length = b.length + 1 := by omega
    rw [e, List.getElem?_cons_succ, List.getElem?_append_right (le_refl _)]
    simp
  have hlen : a.length + 1 + b.length < l.length := by
    rw [hl]
    simp only [List.length_append, List.length_cons]
    omega
  have := h (a.length + 1 + b.length) hlen (a.length + 1 + m) (by omega) a.length (by omega)
    (by rw [hi, hj]; simp [hxy])
  rw [hk, hi] at this
  simpa using this

/-- C5: for every list of metadata rows that all have the catalog and the schema
of the run, as the rows returned by the metadata query of main have (the query
filters on one schema of the connected database), and in which the rows of each
table identity are contiguous (between two rows of one identity there are only
rows of that identity): the assembling loop returns tables whose identities are
the distinct identities of the rows in the order of their first appearance, each
exactly once.  For rows of T1 with 3 columns followed by rows of T2 with 2 columns
it returns two tables, T1 then T2. -/
theorem assembleTables_one_per_identity (objects : List RawTableData) (catalog schema : String)
    (hquery : ∀ o ∈ objects, o.TableCatalog = catalog ∧ o.TableSchema = schema)
    (hcontig : ∀ (a b c : List RawTableData) (x y : RawTableData),
      objects = a ++ x :: (b ++ y :: c) → x.identity = y.identity →
        ∀ z ∈ b, z.identity = x.identity) :
    (∃ tables, assembleTables objects = some tables
      ∧ tables.map ExportTableMetadata.identity = firstSeen (objects.map RawTableData.identity)
      ∧ (tables.map ExportTableMetadata.identity).Nodup
      ∧ (∀ id, id ∈ tables.map ExportTableMetadata.identity
          ↔ id ∈ objects.map RawTableData.identity))
    ∧ (assembleTables
          [ RawTableData.mk "db" "dbo" "T1" "a" 1 "NO" "int",
            RawTableData.mk "db" "dbo" "T1" "b" 2 "YES" "varchar",
            RawTableData.mk "db" "dbo" "T1" "c" 3 "NO" "int",
            RawTableData.mk "db" "dbo" "T2" "x" 1 "NO" "int",
            RawTableData.mk "db" "dbo" "T2" "y" 2 "NO" "int" ]).map
        (fun tables => tables.map (fun t => (t.identity, t.Columns.map Column.Name)))
      = some [(("db", "dbo", "T1"), ["a", "b", "c"]), (("db", "dbo", "T2"), ["x", "y"])] := by
  refine ⟨?_, by decide⟩
  obtain ⟨segs, hloop, hflat, hsame, hchain⟩ := assembleLoop_runs objects
  have hin : ∀ p ∈ segs, ∀ r ∈ p.1 :: p.2, r ∈ objects := by
    intro p hp r hr
    rw [← hflat, List.mem_flatten]
    exact ⟨p.1 :: p.2, List.mem_map.mpr ⟨p, hp, rfl⟩, hr⟩
  have hid : ∀ p ∈ segs, ∀ r ∈ p.2, r.identity = p.1.identity := by
    intro p hp r hr
    have h1 := hquery r (hin p hp r (List.mem_cons_of_mem _ hr))
    have h2 := hquery p.1 (hin p hp p.1 (List.mem_cons_self _ _))
    exact identity_eq_of_ident r p.1 (h1.1.trans h2.1.symm) (h1.2.trans h2.2.symm)
      (hsame p hp r hr)
  have hheads : (segs.map (fun p => runTable p.1 p.2)).map ExportTableMetadata.identity
      = segs.map (fun p => p.1.identity) := by
    rw [List.map_map]
    rfl
  have hnodup : (segs.map (fun p => p.1.identity)).Nodup := by
    apply heads_nodup RawTableData.identity segs
    · exact hchain.imp (fun _ _ h e => h (ident_eq_of_identity _ _ e))
    · rw [hflat]
      exact hcontig
  refine ⟨segs.map (fun p => runTable p.1 p.2), ?_, ?_, ?_, ?_⟩
  · unfold assembleTables
    rw [hloop]
    rfl
  · rw [hheads]
    have hobj : objects.map RawTableData.identity
        = ((segs.map (fun p => (p.1.identity, p.2.map RawTableData.identity))).map
            (fun p => p.1 :: p.2)).flatten := by
      rw [← hflat, List.map_flatten, List.map_map, List.map_map]
      rfl
    have hconst : ∀ p ∈ segs.map (fun p => (p.1.identity, p.2.map RawTableData.identity)),
        ∀ x ∈ p.2, x = p.1 := by
      intro q hq x hx
      obtain ⟨p, hp, rfl⟩ := List.mem_map.mp hq
      obtain ⟨r, hr, rfl⟩ := List.mem_map.mp hx
      exact hid p hp r hr
    have hfst : (segs.map (fun p => (p.1.identity, p.2.map RawTableData.identity))).map Prod.fst
        = segs.map (fun p => p.1.identity) := by
      rw [List.map_map]
      rfl
    unfold firstSeen
    rw [hobj, firstSeen_blocks _ hconst [] (by rw [List.nil_append, hfst]; exact hnodup),
      List.nil_append, hfst]
  · rw [hheads]
    exact hnodup
  · intro id
    rw [hheads]
    constructor
    · intro h
      obtain ⟨p, hp, rfl⟩ := List.mem_map.mp h
      exact List.mem_map.mpr ⟨p.1, hin p hp p.1 (List.mem_cons_self _ _), rfl⟩
    · intro h
      obtain ⟨o, ho, rfl⟩ := List.mem_map.mp h
      rw [← hflat, List.mem_flatten] at ho
      obtain ⟨l, hl, hol⟩ := ho
      obtain ⟨p, hp, rfl⟩ := List.mem_map.mp hl
      refine List.mem_map.mpr ⟨p, hp, ?_⟩
      rcases List.mem_cons.mp hol with h1 | h1
      · rw [h1]
      · exact (hid p hp o h1).symm

theorem assembleTables_one_per_identity_witness :
    ∃ tables,
      assembleTables
          [ RawTableData.mk "db" "dbo" "T1" "a" 1 "NO" "int",
            RawTableData.mk "db" "dbo" "T1" "b" 2 "YES" "varchar",
            RawTableData.mk "db" "dbo" "T1" "c" 3 "NO" "int",
            RawTableData.mk "db" "dbo" "T2" "x" 1 "NO" "int",
            RawTableData.mk "db" "dbo" "T2" "y" 2 "NO" "int" ] = some tables
      ∧ tables.map ExportTableMetadata.identity = [("db", "dbo", "T1"), ("db", "dbo", "T2")] := by
  obtain ⟨tables, h1, h2, _, _⟩ :=
    (assembleTables_one_per_identity
      [ RawTableData.mk "db" "dbo" "T1" "a" 1 "NO" "int",
        RawTableData.mk "db" "dbo" "T1" "b" 2 "YES" "varchar",
        RawTableData.mk "db" "dbo" "T1" "c" 3 "NO" "int",
        RawTableData.mk "db" "dbo" "T2" "x" 1 "NO" "int",
        RawTableData.mk "db" "dbo" "T2" "y" 2 "NO" "int" ] "db" "dbo" (by decide)
      (contiguous_of_positions RawTableData.identity _ (by
        intro j hj i hi
        have hj5 : j < 5 := hj
        interval_cases j <;> interval_cases i <;> decide))).1
  exact ⟨tables, h1, h2.trans (by decide)⟩


/-! ## Consecutive rows -/

/-- One iteration of the assembling loop from a state with a last table t: a row
with another identity text starts a new table, a row with the text prevIdent adds
its column to t. -/
theorem assembleStep_last (ts : List ExportTableMetadata) (t : ExportTableMetadata)
    (prev : String) (o : RawTableData) :
    assembleStep (ts ++ [t], prev) o
      = if ident o ≠ prev then
          some (ts ++ [t, ExportTableMetadata.mk o.TableCatalog o.TableSchema o.TableName
            [columnOf o] (GoMap.empty.set o.ColumnName (columnOf o)) ""], ident o)
        else
          some (ts ++ [ExportTableMetadata.mk t.TableCatalog t.TableSchema t.TableName
            (t.Columns ++ [columnOf o]) (t.ColumnMap.set o.ColumnName (columnOf o))
            t.SelectStatement], prev) := by
  unfold assembleStep
  by_cases h : ident o ≠ prev
  · simp only
    rw [if_pos h, if_pos h]
    simp only [updateLast_concat]
    simp
  · simp only
    rw [if_neg h, if_neg h]
    simp only [updateLast_concat]

/-- After a row o the assembling loop holds a last table whose last column is the
column of o, and prevIdent is the identity text of o. -/
theorem assembleLoop_after (pre : List RawTableData) (o : RawTableData) :
    ∃ (ts : List ExportTableMetadata) (t : ExportTableMetadata),
      assembleLoop (pre ++ [o]) ([], "") = some (ts ++ [t], ident o)
        ∧ t.Columns.getLast? = some (columnOf o) := by
  obtain ⟨segs, hloop, hflat, hsame, _⟩ := assembleLoop_runs (pre ++ [o])
  rcases List.eq_nil_or_concat segs with hnil | ⟨segs0, p, hsegs⟩
  · subst hnil
    simp at hflat
  · rw [List.concat_eq_append] at hsegs
    subst hsegs
    have hlast : (p.1 :: p.2).getLast? = some o := by
      have := congrArg List.getLast? hflat
      simpa [List.getLast?_append] using this
    have ho : o ∈ p.1 :: p.2 := List.mem_of_getLast?_eq_some hlast
    have hid : ident p.1 = ident o := by
      rcases List.mem_cons.mp ho with h | h
      · rw [h]
      · exact (hsame p (by simp) o h).symm
    refine ⟨segs0.map (fun p => runTable p.1 p.2), runTable p.1 p.2, ?_, ?_⟩
    · rw [hloop, List.getLast?_concat]
      simp only [List.map_append, List.map_cons, List.map_nil, hid]
    · show ((p.1 :: p.2).map columnOf).getLast? = some (columnOf o)
      rw [List.getLast?_map, hlast]
      rfl

/-- C6: for every two consecutive metadata rows o and p that have the catalog and
the schema of the run, as the rows returned by the metadata query of main have,
whatever rows come before them: after o the loop holds a last table t whose last
column is the column of o, and the iteration for p adds the column of p to that
table t exactly when o and p have equal catalog, equal schema and equal table
name; otherwise it appends a new table for p after t. -/
theorem consecutive_rows_same_table (pre : List RawTableData) (o p : RawTableData)
    (hc : o.TableCatalog = p.TableCatalog) (hs : o.TableSchema = p.TableSchema) :
    ∃ (ts : List ExportTableMetadata) (t : ExportTableMetadata)
        (tables : List ExportTableMetadata),
      assembleTables (pre ++ [o]) = some (ts ++ [t])
        ∧ t.Columns.getLast? = some (columnOf o)
        ∧ assembleTables (pre ++ [o, p]) = some tables
        ∧ (tables = ts ++ [ExportTableMetadata.mk t.TableCatalog t.TableSchema t.TableName
              (t.Columns ++ [columnOf p]) (t.ColumnMap.set p.ColumnName (columnOf p))
              t.SelectStatement]
            ↔ (o.TableCatalog = p.TableCatalog ∧ o.TableSchema = p.TableSchema
                ∧ o.TableName = p.TableName))
        ∧ (tables = ts ++ [t, ExportTableMetadata.mk p.TableCatalog p.TableSchema p.TableName
              [columnOf p] (GoMap.empty.set p.ColumnName (columnOf p)) ""]
            ↔ ¬ (o.TableCatalog = p.TableCatalog ∧ o.TableSchema = p.TableSchema
                ∧ o.TableName = p.TableName)) := by
  obtain ⟨ts, t, hloop, hcol⟩ := assembleLoop_after pre o
  have hpre : pre ++ [o, p] = (pre ++ [o]) ++ [p] := by simp
  have hbefore : assembleTables (pre ++ [o]) = some (ts ++ [t]) := by
    unfold assembleTables
    rw [hloop]
    rfl
  by_cases hid : ident p ≠ ident o
  · have hname : ¬ o.TableName = p.TableName := fun h =>
      hid ((ident_eq_iff_tableName o p hc hs).mpr h).symm
    refine ⟨ts, t, ts ++ [t, ExportTableMetadata.mk p.TableCatalog p.TableSchema p.TableName
      [columnOf p] (GoMap.empty.set p.ColumnName (columnOf p)) ""], hbefore, hcol, ?_, ?_, ?_⟩
    · unfold assembleTables
      rw [hpre, assembleLoop_append, hloop]
      simp only
      rw [assembleStep_last, if_pos hid]
      rfl
    · constructor
      · intro h
        have := congrArg List.length h
        simp at this
      · intro h
        exact absurd h.2.2 hname
    · constructor
      · intro _ h
        exact hname h.2.2
      · intro _
        rfl
  · have hname : o.TableName = p.TableName :=
      (ident_eq_iff_tableName o p hc hs).mp (not_not.mp hid).symm
    refine ⟨ts, t, ts ++ [ExportTableMetadata.mk t.TableCatalog t.TableSchema t.TableName
      (t.Columns ++ [columnOf p]) (t.ColumnMap.set p.ColumnName (columnOf p))
      t.SelectStatement], hbefore, hcol, ?_, ?_, ?_⟩
    · unfold assembleTables
      rw [hpre, assembleLoop_append, hloop]
      simp only
      rw [assembleStep_last, if_neg hid]
      rfl
    · constructor
      · intro _
        exact ⟨hc, hs, hname⟩
      · intro _
        rfl
    · constructor
      · intro h
        have := congrArg List.length h
        simp at this
      · intro h
        exact absurd ⟨hc, hs, hname⟩ h

theorem consecutive_rows_same_table_witness :
    ∃ (ts : List ExportTableMetadata) (t : ExportTableMetadata)
        (tables : List ExportTableMetadata),
      assembleTables ([RawTableData.mk "db" "dbo" "T0" "z" 1 "NO" "int"]
          ++ [RawTableData.mk "db" "dbo" "T1" "a" 1 "NO" "int"]) = some (ts ++ [t])
        ∧ t.Columns.getLast? = some (columnOf (RawTableData.mk "db" "dbo" "T1" "a" 1 "NO" "int"))
        ∧ assembleTables ([RawTableData.mk "db" "dbo" "T0" "z" 1 "NO" "int"]
          ++ [RawTableData.mk "db" "dbo" "T1" "a" 1 "NO" "int",
              RawTableData.mk "db" "dbo" "T1" "b" 2 "NO" "int"]) = some tables
        ∧ tables = ts ++ [ExportTableMetadata.mk t.TableCatalog t.TableSchema t.TableName
              (t.Columns ++ [columnOf (RawTableData.mk "db" "dbo" "T1" "b" 2 "NO" "int")])
              (t.ColumnMap.set "b" (columnOf (RawTableData.mk "db" "dbo" "T1" "b" 2 "NO" "int")))
              t.SelectStatement] := by
  obtain ⟨ts, t, tables, h1, h2, h3, h4, _⟩ :=
    consecutive_rows_same_table [RawTableData.mk "db" "dbo" "T0" "z" 1 "NO" "int"]
      (RawTableData.mk "db" "dbo" "T1" "a" 1 "NO" "int")
      (RawTableData.mk "db" "dbo" "T1" "b" 2 "NO" "int") rfl rfl
  exact ⟨ts, t, tables, h1, h2, h3, h4.mpr ⟨rfl, rfl, rfl⟩⟩


/-! ## Table exporter -/

theorem string_empty_append (s : String) : "" ++ s = s := by
  apply String.ext
  rw [String.data_append]
  rfl

theorem intercalate_go_eq_foldl (sep : String) (l : List String) (acc : String) :
    String.intercalate.go acc sep l = l.foldl (fun b s => b ++ sep ++ s) acc := by
  induction l generalizing acc with
  | nil => rfl
  | cons a l ih =>
    rw [String.intercalate.go, ih]
    rfl

theorem intercalate_cons (sep a : String) (l : List String) :
    String.intercalate sep (a :: l) = l.foldl (fun b s => b ++ sep ++ s) a := by
  rw [String.intercalate, intercalate_go_eq_foldl]

theorem columnsLoop_eq_foldl (cols : List Column) (i : ℕ) (hi : i ≠ 0) (columns : String) :
    columnsLoop cols i columns
      = (cols.map (fun c => "[" ++ c.Name ++ "]")).foldl (fun b s => b ++ ", " ++ s) columns := by
  induction cols generalizing i columns with
  | nil => rfl
  | cons c rest ih =>
    have hsplit : (", [" : String) = ", " ++ "[" := by decide
    rw [columnsLoop, if_neg hi, ih (i + 1) (Nat.succ_ne_zero i)]
    simp only [List.map_cons, List.foldl_cons, hsplit, String.append_assoc]

theorem columnsLoop_eq (cols : List Column) : columnsLoop cols 0 "" = columnList cols := by
  unfold columnList
  cases cols with
  | nil => rfl
  | cons c rest =>
    rw [columnsLoop, if_pos rfl, columnsLoop_eq_foldl rest 1 (by decide), List.map_cons,
      intercalate_cons, string_empty_append]

theorem valuesLoop_eq_foldl (r : Row) (cols : List Column) (k : ℕ) (hk : k ≠ 0) (niv : String) :
    valuesLoop r cols k niv
      = (cols.map (fun c => insertStringValue (r.index c.Name))).foldl
          (fun b s => b ++ ", " ++ s) niv := by
  induction cols generalizing k niv with
  | nil => rfl
  | cons c rest ih =>
    rw [valuesLoop, if_pos hk, ih (k + 1) (Nat.succ_ne_zero k)]
    rfl

theorem valuesLoop_eq (r : Row) (cols : List Column) :
    "(" ++ valuesLoop r cols 0 "" ++ ")" = valueTuple cols r := by
  unfold valueTuple
  cases cols with
  | nil => rfl
  | cons c rest =>
    have h0 : ¬ (0 ≠ 0) := by decide
    rw [valuesLoop, if_neg h0, valuesLoop_eq_foldl r rest 1 (by decide), List.map_cons,
      intercalate_cons, string_empty_append]

theorem batchLoop_eq_foldl (table : ExportTableMetadata) (dc : List Row) (i : ℕ) (hi : i ≠ 0)
    (x : String) :
    batchLoop table dc i (x ++ " \n")
      = (dc.map (valueTuple table.Columns)).foldl (fun b s => b ++ " \n, " ++ s) x ++ " \n" := by
  induction dc generalizing i x with
  | nil => rfl
  | cons r rest ih =>
    have h1 : (", (" : String) = ", " ++ "(" := by decide
    have h2 : (") \n" : String) = ")" ++ " \n" := by decide
    have h3 : (" \n, " : String) = " \n" ++ ", " := by decide
    have hstep : x ++ " \n" ++ (", (" ++ valuesLoop r table.Columns 0 "" ++ ") \n")
        = (x ++ " \n, " ++ valueTuple table.Columns r) ++ " \n" := by
      rw [← valuesLoop_eq, h1, h2, h3]
      simp only [String.append_assoc]
    simp only [batchLoop]
    rw [if_neg hi, hstep, ih (i + 1) (Nat.succ_ne_zero i)]
    rfl

theorem batchLoop_eq (table : ExportTableMetadata) (r : Row) (rest : List Row) (ni : String) :
    batchLoop table (r :: rest) 0 ni
      = ni ++ "\n  " ++ String.intercalate " \n, " ((r :: rest).map (valueTuple table.Columns))
          ++ " \n" := by
  have h1 : ("\n  (" : String) = "\n  " ++ "(" := by decide
  have h2 : (") \n" : String) = ")" ++ " \n" := by decide
  have hstep : ni ++ ("\n  (" ++ valuesLoop r table.Columns 0 "" ++ ") \n")
      = (ni ++ "\n  " ++ valueTuple table.Columns r) ++ " \n" := by
    rw [← valuesLoop_eq, h1, h2]
    simp only [String.append_assoc]
  simp only [batchLoop, if_true, Nat.zero_add]
  rw [hstep, batchLoop_eq_foldl table rest 1 (by decide), List.map_cons,
    intercalate_cons]
  have hfold : ∀ (l : List String) (a b : String),
      l.foldl (fun b s => b ++ " \n, " ++ s) (a ++ b)
        = a ++ l.foldl (fun b s => b ++ " \n, " ++ s) b := by
    intro l
    induction l with
    | nil => intro a b; rfl
    | cons c l ih =>
      intro a b
      simp only [List.foldl_cons]
      rw [← ih]
      simp only [String.append_assoc]
  rw [hfold, String.append_assoc]

theorem index_absent (r : Row) (name : String) (h : r.get? name = none) :
    insertStringValue (r.index name) = "NULL" := by
  unfold Row.index
  rw [h]
  rfl

/-- C9: for every table and every batch of k rows, k at least 1, the INSERT
statement is the head INSERT INTO [catalog].[schema].[table] (columns) VALUES,
whose column list is the bracketed comma-separated list in Columns order that the
SELECT statement also uses, followed by exactly k parenthesized tuples, one per row
in batch order, separated by a comma and line breaks; a tuple holds, in Columns
order and separated by ", ", insertStringValue of the row's value under each column
name, which is NULL when the row has no value under that name. -/
theorem insertStatement_shape (table : ExportTableMetadata) (dc : List Row) (hk : 1 ≤ dc.length) :
    insertStatement table dc
        = "INSERT INTO [" ++ table.TableCatalog ++ "].[" ++ table.TableSchema ++ "].["
            ++ table.TableName ++ "] (" ++ columnList table.Columns ++ ") VALUES "
          ++ "\n  " ++ String.intercalate " \n, " (dc.map (valueTuple table.Columns))
          ++ " \n" ++ "\n"
      ∧ selectStatement table
        = "SELECT " ++ columnList table.Columns ++ " FROM [" ++ table.TableCatalog ++ "].["
            ++ table.TableSchema ++ "].[" ++ table.TableName ++ "]"
      ∧ (dc.map (valueTuple table.Columns)).length = dc.length
      ∧ (∀ r ∈ dc, ∀ c ∈ table.Columns, r.get? c.Name = none →
          insertStringValue (r.index c.Name) = "NULL") := by
  refine ⟨?_, ?_, List.length_map _ _, fun r _ c _ h => index_absent r c.Name h⟩
  · cases dc with
    | nil => simp at hk
    | cons r rest =>
      unfold insertStatement insertBase columnsOf
      rw [batchLoop_eq, columnsLoop_eq]
  · unfold selectStatement columnsOf
    rw [columnsLoop_eq]

theorem insertStatement_shape_witness :
    1 ≤ [(GoMap.empty : Row).set "Id" (Value.int64 1)].length
      ∧ insertStatement
          (ExportTableMetadata.mk "db" "dbo" "Widgets"
            [Column.mk "Id" 1 "NO" "int", Column.mk "Name" 2 "YES" "varchar"] GoMap.empty "")
          [(GoMap.empty : Row).set "Id" (Value.int64 1)]
        = "INSERT INTO [db].[dbo].[Widgets] ([Id], [Name]) VALUES \n  (1, NULL) \n\n" := by
  refine ⟨by decide, ?_⟩
  rw [(insertStatement_shape
    (ExportTableMetadata.mk "db" "dbo" "Widgets"
      [Column.mk "Id" 1 "NO" "int", Column.mk "Name" 2 "YES" "varchar"] GoMap.empty "")
    [(GoMap.empty : Row).set "Id" (Value.int64 1)] (by decide)).1]
  decide


theorem join_eq_intercalate (elems : List String) (sep : String) :
    strings.Join elems sep = String.intercalate sep elems := by
  cases elems with
  | nil => rfl
  | cons e rest =>
    rw [intercalate_cons]
    cases rest with
    | nil => rfl
    | cons a rest => rfl

theorem fileContent_eq (table : ExportTableMetadata) (chunk : List String) :
    fileContent table chunk
      = ("SET IDENTITY_INSERT [" ++ table.TableSchema ++ "].[" ++ table.TableName ++ "] ON")
          ++ "\n\n " ++ String.intercalate " \n\n " chunk ++ " \n\n"
          ++ ("SET IDENTITY_INSERT [" ++ table.TableSchema ++ "].[" ++ table.TableName
              ++ "] OFF") := by
  have h1 : ("] ON\n\n " : String) = "] ON" ++ "\n\n " := by decide
  have h2 : (" \n\nSET IDENTITY_INSERT [" : String) = " \n\n" ++ "SET IDENTITY_INSERT [" := by
    decide
  unfold fileContent
  rw [join_eq_intercalate, h1, h2]
  simp only [String.append_assoc]

theorem writeLoop_fst (table : ExportTableMetadata) (chunks : List (List String)) (i : ℕ) :
    (writeLoop table chunks i).map Prod.fst
      = (List.range chunks.length).map (fun j => fileName table (i + j)) := by
  induction chunks generalizing i with
  | nil => rfl
  | cons c rest ih =>
    rw [writeLoop, List.map_cons, ih, List.length_cons, List.range_succ_eq_map, List.map_cons,
      List.map_map]
    congr 1
    apply List.map_congr_left
    intro j _
    simp only [Function.comp, Nat.succ_eq_add_one]
    congr 1
    omega

theorem writeLoop_snd (table : ExportTableMetadata) (chunks : List (List String)) (i : ℕ) :
    (writeLoop table chunks i).map Prod.snd = chunks.map (fileContent table) := by
  induction chunks generalizing i with
  | nil => rfl
  | cons c rest ih => rw [writeLoop, List.map_cons, ih, List.map_cons]

/-- C10: for every table and every list of INSERT statements shorter than 2^53,
with BatchesPerFile at least 1, the statements split in order into groups of at
least 1 and at most BatchesPerFile statements, and one file is written per group,
in order, numbered from 1: its content is the directive SET IDENTITY_INSERT
[schema].[table] ON, the statements of the group separated by a blank line, and
the directive SET IDENTITY_INSERT [schema].[table] OFF for the same table. -/
theorem exportFiles_shape (table : ExportTableMetadata) (stmts : List String)
    (batchesPerFile : ℕ) (hB : 1 ≤ batchesPerFile) (hlen : stmts.length < 2 ^ 53) :
    ∃ (groups : List (List String)) (files : List (String × String)),
      exportFiles table stmts batchesPerFile = some files
      ∧ groups.flatten = stmts
      ∧ (∀ g ∈ groups, 1 ≤ g.length ∧ g.length ≤ batchesPerFile)
      ∧ files.map Prod.snd = groups.map (fun g =>
          ("SET IDENTITY_INSERT [" ++ table.TableSchema ++ "].[" ++ table.TableName ++ "] ON")
            ++ "\n\n " ++ String.intercalate " \n\n " g ++ " \n\n"
            ++ ("SET IDENTITY_INSERT [" ++ table.TableSchema ++ "].[" ++ table.TableName
                ++ "] OFF"))
      ∧ files.map Prod.fst = (List.range groups.length).map (fun (j : ℕ) =>
          table.TableCatalog ++ "_" ++ table.TableSchema ++ "_" ++ table.TableName ++ "_"
            ++ fmtD ((j : ℤ) + 1) ++ ".sql") := by
  obtain ⟨groups, hchunk, hflat⟩ := chunkSlice_flatten stmts batchesPerFile hB hlen
  obtain ⟨groups1, hchunk1, _, _, hsizes⟩ := chunkSlice_sizes stmts batchesPerFile hB hlen
  have hsame : groups1 = groups := Option.some.inj (hchunk1.symm.trans hchunk)
  subst hsame
  refine ⟨groups1, writeLoop table groups1 0, ?_, hflat, hsizes, ?_, ?_⟩
  · unfold exportFiles chunkStringSlice
    rw [hchunk]
    rfl
  · rw [writeLoop_snd]
    apply List.map_congr_left
    intro g _
    rw [fileContent_eq]
  · rw [writeLoop_fst]
    apply List.map_congr_left
    intro j _
    rw [Nat.zero_add]
    rfl

theorem exportFiles_shape_witness :
    (1 ≤ 2 ∧ ["s1\n", "s2\n", "s3\n"].length < 2 ^ 53)
      ∧ ∃ (groups : List (List String)) (files : List (String × String)),
        exportFiles (ExportTableMetadata.mk "db" "dbo" "Widgets" [] GoMap.empty "")
          ["s1\n", "s2\n", "s3\n"] 2 = some files
        ∧ groups.flatten = ["s1\n", "s2\n", "s3\n"]
        ∧ (∀ g ∈ groups, 1 ≤ g.length ∧ g.length ≤ 2)
        ∧ files.map Prod.snd = groups.map (fun g =>
            ("SET IDENTITY_INSERT [" ++ "dbo" ++ "].[" ++ "Widgets" ++ "] ON")
              ++ "\n\n " ++ String.intercalate " \n\n " g ++ " \n\n"
              ++ ("SET IDENTITY_INSERT [" ++ "dbo" ++ "].[" ++ "Widgets" ++ "] OFF"))
        ∧ files.map Prod.fst = (List.range groups.length).map (fun (j : ℕ) =>
            "db" ++ "_" ++ "dbo" ++ "_" ++ "Widgets" ++ "_" ++ fmtD ((j : ℤ) + 1) ++ ".sql") :=
  ⟨⟨by decide, by decide⟩,
    exportFiles_shape (ExportTableMetadata.mk "db" "dbo" "Widgets" [] GoMap.empty "")
      ["s1\n", "s2\n", "s3\n"] 2 (by decide) (by decide)⟩


/-! ## Null and boolean rendering, reversibility of text rendering -/

/-- C15: insertStringValue renders a null value as the unquoted token NULL, the
boolean true as the unquoted token 1 and the boolean false as the unquoted token 0. -/
theorem insertStringValue_null_bool :
    insertStringValue Value.nil = "NULL"
      ∧ insertStringValue (Value.bool true) = "1"
      ∧ insertStringValue (Value.bool false) = "0" := by
  decide

theorem collapseQuotes_escape (l : List Char) :
    collapseQuotes (l.flatMap (fun c => if c = quoteChar then [quoteChar, quoteChar] else [c]))
      = l := by
  induction l with
  | nil => rfl
  | cons c rest ih =>
    by_cases hc : c = quoteChar
    · subst hc
      simp only [List.flatMap_cons, if_true, List.cons_append, List.nil_append]
      rw [collapseQuotes, if_pos ⟨rfl, rfl⟩, ih]
    · simp only [List.flatMap_cons, hc, if_false, List.singleton_append]
      cases hrest : rest.flatMap
          (fun c => if c = quoteChar then [quoteChar, quoteChar] else [c]) with
      | nil =>
        rw [hrest] at ih
        rw [← ih]
        rfl
      | cons d r =>
        rw [collapseQuotes, if_neg (fun h => hc h.1), ← hrest, ih]

theorem quoteRunsEven_escape (l : List Char) (n : ℕ) (hn : n % 2 = 0) :
    quoteRunsEven (l.flatMap (fun c => if c = quoteChar then [quoteChar, quoteChar] else [c])) n
      = true := by
  induction l generalizing n with
  | nil => simp [quoteRunsEven, hn]
  | cons c rest ih =>
    by_cases hc : c = quoteChar
    · subst hc
      simp only [List.flatMap_cons, if_true, List.cons_append, List.nil_append, quoteRunsEven]
      exact ih (n + 1 + 1) (by omega)
    · simp only [List.flatMap_cons, hc, if_false, List.singleton_append, quoteRunsEven]
      simp [hn, ih 0 rfl]

theorem stripEnds_text (t : String) :
    stripEnds (insertStringValue (Value.string t)) = doubleQuotes t := by
  rw [(show insertStringValue (Value.string t) = "'" ++ strings.ReplaceAll t "'" "''" ++ "'"
    from rfl), replaceAll_quote]
  unfold stripEnds
  apply String.ext
  simp only [String.data_append]
  simp


/-! ## Undoing the doubling of quotes with strings.ReplaceAll -/

theorem indexFrom_pair_not_mem (q : Char) (s : List Char) (i : ℕ) (h : q ∉ s) :
    strings.indexFrom [q, q] s i = -1 := by
  induction s generalizing i with
  | nil => simp [strings.indexFrom, List.isPrefixOf]
  | cons c t ih =>
    have hc : ¬ q = c := fun e => h (by rw [e]; exact List.mem_cons_self c t)
    have ht : q ∉ t := fun m => h (List.mem_cons_of_mem c m)
    have hstep : strings.indexFrom [q, q] (c :: t) i = strings.indexFrom [q, q] t (i + 1) := by
      simp [strings.indexFrom, List.isPrefixOf, hc]
    rw [hstep, ih (i + 1) ht]

theorem indexFrom_pair_of_split (q : Char) (pre r : List Char) (i : ℕ) (h : q ∉ pre) :
    strings.indexFrom [q, q] (pre ++ q :: q :: r) i = ((i + pre.length : ℕ) : ℤ) := by
  induction pre generalizing i with
  | nil => simp [strings.indexFrom, List.isPrefixOf]
  | cons c t ih =>
    have hc : ¬ q = c := fun e => h (by rw [e]; exact List.mem_cons_self c t)
    have ht : q ∉ t := fun m => h (List.mem_cons_of_mem c m)
    have hstep : strings.indexFrom [q, q] (c :: t ++ q :: q :: r) i
        = strings.indexFrom [q, q] (t ++ q :: q :: r) (i + 1) := by
      simp [strings.indexFrom, List.isPrefixOf, hc]
    rw [hstep, ih (i + 1) ht]
    simp only [List.length_cons]
    congr 1
    omega

theorem escape_split (q : Char) (pre post : List Char) (h : q ∉ pre) :
    (pre ++ q :: post).flatMap (fun c => if c = q then [q, q] else [c])
      = pre ++ q :: q :: post.flatMap (fun c => if c = q then [q, q] else [c]) := by
  rw [List.flatMap_append, flatMap_escape_of_not_mem q [q, q] pre h]
  simp

theorem countLoop_escape (q : Char) (fuel : ℕ) : ∀ (l : List Char) (n : ℕ), l.count q < fuel →
    strings.countLoop [q, q] fuel (l.flatMap (fun c => if c = q then [q, q] else [c])) n
      = n + l.count q := by
  induction fuel with
  | zero => intro l n h; omega
  | succ fuel ih =>
    intro l n hfuel
    by_cases hmem : q ∈ l
    · obtain ⟨pre, post, hl, hpre, _⟩ := indexFrom_single q l 0 hmem
      have hcount : l.count q = post.count q + 1 := by
        rw [hl, List.count_append, List.count_cons_self, List.count_eq_zero.mpr hpre]
        omega
      rw [strings.countLoop, hl, escape_split q pre post hpre]
      simp only [indexFrom_pair_of_split q pre _ 0 hpre, Nat.zero_add]
      have hne : ¬ (((pre.length : ℕ) : ℤ) = -1) := by omega
      rw [if_neg hne, Int.toNat_natCast]
      have hdrop : List.drop (pre.length + [q, q].length)
          (pre ++ q :: q :: post.flatMap (fun c => if c = q then [q, q] else [c]))
          = post.flatMap (fun c => if c = q then [q, q] else [c]) := by
        have : pre ++ q :: q :: post.flatMap (fun c => if c = q then [q, q] else [c])
            = (pre ++ [q, q]) ++ post.flatMap (fun c => if c = q then [q, q] else [c]) := by
          simp
        rw [this]
        exact List.drop_left' (by simp)
      rw [hdrop, ih post (n + 1) (by omega), ← hl, hcount]
      omega
    · rw [strings.countLoop, flatMap_escape_of_not_mem q [q, q] l hmem]
      simp only [indexFrom_pair_not_mem q l 0 hmem, if_true]
      rw [List.count_eq_zero.mpr hmem]
      rfl

theorem replaceLoop_escape (q : Char) (s : List Char) (r : ℕ) :
    ∀ (rest : List Char) (i start : ℕ) (b : List Char),
      s.drop start = rest.flatMap (fun c => if c = q then [q, q] else [c]) →
      start ≤ s.length → r ≤ rest.count q →
      ∃ rest1 : List Char,
        s.drop (strings.replaceLoop s [q, q] [q] r i start b).2
            = rest1.flatMap (fun c => if c = q then [q, q] else [c])
          ∧ rest1.count q = rest.count q - r
          ∧ (strings.replaceLoop s [q, q] [q] r i start b).1 ++ rest1 = b ++ rest := by
  induction r with
  | zero =>
    intro rest i start b hdrop _ _
    exact ⟨rest, hdrop, by simp, rfl⟩
  | succ r ih =>
    intro rest i start b hdrop hstart hcount
    have hmem : q ∈ rest := List.count_pos_iff.mp (by omega)
    obtain ⟨pre, post, hl, hpre, _⟩ := indexFrom_single q rest 0 hmem
    have hcrest : rest.count q = post.count q + 1 := by
      rw [hl, List.count_append, List.count_cons_self, List.count_eq_zero.mpr hpre]
      omega
    have hdrop1 : s.drop start
        = pre ++ q :: q :: post.flatMap (fun c => if c = q then [q, q] else [c]) := by
      rw [hdrop, hl, escape_split q pre post hpre]
    have hj : (((start : ℤ) + strings.indexFrom [q, q] (s.drop start) 0).toNat)
        = start + pre.length := by
      rw [hdrop1, indexFrom_pair_of_split q pre _ 0 hpre]
      simp only [Nat.zero_add]
      omega
    have htake : (s.take (start + pre.length)).drop start = pre := by
      rw [List.drop_take, hdrop1]
      simp
    have hstep : strings.replaceLoop s [q, q] [q] (r + 1) i start b
        = strings.replaceLoop s [q, q] [q] r (i + 1) (start + pre.length + 2) (b ++ pre ++ [q]) := by
      have hlen2 : ¬ ([q, q].length = 0) := by simp
      simp only [strings.replaceLoop, hlen2, if_false, hj, htake]
      rfl
    have hdrop2 : s.drop (start + pre.length + 2)
        = post.flatMap (fun c => if c = q then [q, q] else [c]) := by
      have : s.drop (start + pre.length + 2) = (s.drop start).drop (pre.length + 2) := by
        rw [List.drop_drop, Nat.add_assoc]
      rw [this, hdrop1]
      have : pre ++ q :: q :: post.flatMap (fun c => if c = q then [q, q] else [c])
          = (pre ++ [q, q]) ++ post.flatMap (fun c => if c = q then [q, q] else [c]) := by
        simp
      rw [this]
      exact List.drop_left' (by simp)
    have hle : start + pre.length + 2 ≤ s.length := by
      have h1 : (s.drop start).length = s.length - start := List.length_drop _ _
      rw [hdrop1] at h1
      simp only [List.length_append, List.length_cons] at h1
      omega
    rw [hstep]
    obtain ⟨rest1, e1, e2, e3⟩ := ih post (i + 1) (start + pre.length + 2) (b ++ pre ++ [q])
      hdrop2 hle (by omega)
    refine ⟨rest1, e1, by rw [e2, hcrest]; omega, ?_⟩
    rw [e3, hl]
    simp

/-- Replacing every pair of single quotes by one single quote, with
strings.ReplaceAll, undoes the doubling of quotes. -/
theorem replaceAll_pair_doubleQuotes (t : String) :
    strings.ReplaceAll (doubleQuotes t) "''" "'" = t := by
  have hne : ¬ (("''" : String) = "'" ∨ (-1 : ℤ) = 0) := by decide
  unfold strings.ReplaceAll strings.Replace
  rw [if_neg hne]
  have hcount : strings.Count (doubleQuotes t) "''" = t.data.count quoteChar := by
    have h1 : strings.Count (doubleQuotes t) "''"
        = strings.countLoop [quoteChar, quoteChar] ((doubleQuotes t).length + 1)
            (doubleQuotes t).data 0 := rfl
    rw [h1]
    have hlen : t.data.count quoteChar < (doubleQuotes t).length + 1 := by
      have h2 : t.data.count quoteChar ≤ (doubleQuotes t).data.count quoteChar := by
        unfold doubleQuotes
        simp only
        generalize t.data = l
        induction l with
        | nil => simp
        | cons c r ih =>
          by_cases hc : c = quoteChar
          · subst hc
            simp only [List.flatMap_cons, if_true, List.cons_append, List.nil_append,
              List.count_cons_self]
            omega
          · simp only [List.flatMap_cons, hc, if_false, List.singleton_append, List.count_cons]
            omega
      have h3 : (doubleQuotes t).data.count quoteChar ≤ (doubleQuotes t).data.length :=
        List.count_le_length _ _
      have h4 : (doubleQuotes t).length = (doubleQuotes t).data.length := rfl
      omega
    have := countLoop_escape quoteChar ((doubleQuotes t).length + 1) t.data 0 hlen
    rw [Nat.zero_add] at this
    exact this
  simp only [hcount]
  by_cases hm : t.data.count quoteChar = 0
  · rw [if_pos hm]
    unfold doubleQuotes
    rw [flatMap_escape_of_not_mem quoteChar _ t.data (List.count_eq_zero.mp hm)]
  · rw [if_neg hm]
    have hn1 : (if (-1 : ℤ) < 0 ∨ ((t.data.count quoteChar : ℕ) : ℤ) < -1
        then t.data.count quoteChar else (-1 : ℤ).toNat) = t.data.count quoteChar := by
      rw [if_pos (Or.inl (by decide))]
    rw [hn1]
    obtain ⟨rest1, e1, e2, e3⟩ := replaceLoop_escape quoteChar (doubleQuotes t).data
      (t.data.count quoteChar) t.data 0 0 [] rfl (Nat.zero_le _) (Nat.le_refl _)
    rw [Nat.sub_self] at e2
    have hrest := flatMap_escape_of_not_mem quoteChar [quoteChar, quoteChar] rest1
      (List.count_eq_zero.mp e2)
    rw [hrest] at e1
    rw [List.nil_append] at e3
    apply String.ext
    show (strings.replaceLoop (doubleQuotes t).data [quoteChar, quoteChar] [quoteChar]
        (t.data.count quoteChar) 0 0 []).1
      ++ List.drop (strings.replaceLoop (doubleQuotes t).data [quoteChar, quoteChar] [quoteChar]
        (t.data.count quoteChar) 0 0 []).2 (doubleQuotes t).data = t.data
    rw [e1, e3]


/-- C20: text rendering is reversible.  For every text value t, stripping the
first and the last character of insertStringValue(t) and replacing every pair of
single quotes by one single quote (with strings.ReplaceAll, or pair by pair from
the left) gives back t; so two text values with the same rendering are equal, and
inside the outer quotes every run of single quotes has even length. -/
theorem insertStringValue_text_reversible (t u : String) :
    strings.ReplaceAll (stripEnds (insertStringValue (Value.string t))) "''" "'" = t
      ∧ String.mk (collapseQuotes (stripEnds (insertStringValue (Value.string t))).data) = t
      ∧ (insertStringValue (Value.string t) = insertStringValue (Value.string u) → t = u)
      ∧ quoteRunsEven (stripEnds (insertStringValue (Value.string t))).data 0 = true := by
  have hrev : ∀ s : String,
      String.mk (collapseQuotes (stripEnds (insertStringValue (Value.string s))).data) = s := by
    intro s
    rw [stripEnds_text]
    unfold doubleQuotes
    rw [collapseQuotes_escape]
  refine ⟨?_, hrev t, ?_, ?_⟩
  · rw [stripEnds_text, replaceAll_pair_doubleQuotes]
  · intro h
    rw [← hrev t, ← hrev u, h]
  · rw [stripEnds_text]
    exact quoteRunsEven_escape t.data 0 rfl


/-! ## Export of one table: empty tables, one row per batch and one batch per file -/

theorem chunkSlice_nil {α : Type} (size : ℕ) (hsize : 1 ≤ size) :
    chunkSlice ([] : List α) size = some [] := by
  rw [chunkSlice_eq [] size hsize (by simp)]
  simp

/-- C12: for every chunk size of at least 1 both chunkers return zero chunks on an
empty sequence; hence for every table with zero fetched rows and positive
RowsPerBatch and BatchesPerFile the export step builds zero INSERT statements and
writes zero files, and it returns (no run-time panic). -/
theorem export_empty_table (table : ExportTableMetadata) (size rowsPerBatch batchesPerFile : ℕ)
    (hsize : 1 ≤ size) (hr : 1 ≤ rowsPerBatch) (hb : 1 ≤ batchesPerFile) :
    chunkMapInterfaceSlice [] size = some []
      ∧ chunkStringSlice [] size = some []
      ∧ insertStatements table [] rowsPerBatch = some []
      ∧ exportFiles table [] batchesPerFile = some []
      ∧ exportTable table [] rowsPerBatch batchesPerFile = some [] := by
  have h1 : insertStatements table [] rowsPerBatch = some [] := by
    unfold insertStatements chunkMapInterfaceSlice
    rw [chunkSlice_nil rowsPerBatch hr]
    rfl
  have h2 : exportFiles table [] batchesPerFile = some [] := by
    unfold exportFiles chunkStringSlice
    rw [chunkSlice_nil batchesPerFile hb]
    rfl
  refine ⟨chunkSlice_nil size hsize, chunkSlice_nil size hsize, h1, h2, ?_⟩
  unfold exportTable
  rw [h1]
  exact h2

theorem export_empty_table_witness :
    (1 ≤ 3 ∧ 1 ≤ 1000 ∧ 1 ≤ 10)
      ∧ chunkMapInterfaceSlice [] 3 = some []
      ∧ chunkStringSlice [] 3 = some []
      ∧ insertStatements (ExportTableMetadata.mk "db" "dbo" "Widgets"
          [Column.mk "Id" 1 "NO" "int"] GoMap.empty "") [] 1000 = some []
      ∧ exportFiles (ExportTableMetadata.mk "db" "dbo" "Widgets"
          [Column.mk "Id" 1 "NO" "int"] GoMap.empty "") [] 10 = some []
      ∧ exportTable (ExportTableMetadata.mk "db" "dbo" "Widgets"
          [Column.mk "Id" 1 "NO" "int"] GoMap.empty "") [] 1000 10 = some [] :=
  ⟨⟨by decide, by decide, by decide⟩,
    export_empty_table (ExportTableMetadata.mk "db" "dbo" "Widgets"
      [Column.mk "Id" 1 "NO" "int"] GoMap.empty "") 3 1000 10 (by decide) (by decide)
      (by decide)⟩

theorem eq_map_singleton_of_length_one {α : Type} (cs : List (List α))
    (h : ∀ c ∈ cs, 1 ≤ c.length ∧ c.length ≤ 1) : cs = cs.flatten.map (fun x => [x]) := by
  induction cs with
  | nil => rfl
  | cons c rest ih =>
    have hc := h c (List.mem_cons_self c rest)
    have hrest := ih (fun d hd => h d (List.mem_cons_of_mem c hd))
    match c, hc with
    | [x], _ =>
      simp only [List.flatten_cons, List.singleton_append, List.map_cons]
      rw [← hrest]
    | [], hc => simp at hc
    | _ :: _ :: _, hc => simp at hc

theorem chunkSlice_one {α : Type} (s : List α) (hlen : s.length < 2 ^ 53) :
    chunkSlice s 1 = some (s.map (fun x => [x])) := by
  obtain ⟨cs, hcs, _, _, hsizes⟩ := chunkSlice_sizes s 1 (Nat.le_refl 1) hlen
  obtain ⟨cs1, hcs1, hflat⟩ := chunkSlice_flatten s 1 (Nat.le_refl 1) hlen
  have hsame : cs1 = cs := Option.some.inj (hcs1.symm.trans hcs)
  subst hsame
  rw [hcs, eq_map_singleton_of_length_one cs1 hsizes, hflat]

theorem writeLoop_length (table : ExportTableMetadata) (chunks : List (List String)) (i : ℕ) :
    (writeLoop table chunks i).length = chunks.length := by
  induction chunks generalizing i with
  | nil => rfl
  | cons c rest ih => rw [writeLoop, List.length_cons, ih, List.length_cons]

/-- The export step with one row per batch and one batch per file: one file per
fetched row. -/
theorem exportTable_one_one (table : ExportTableMetadata) (resarr : List Row)
    (hlen : resarr.length < 2 ^ 53) :
    exportTable table resarr 1 1
      = some (writeLoop table (resarr.map (fun r => [insertStatement table [r]])) 0) := by
  unfold exportTable insertStatements chunkMapInterfaceSlice
  rw [chunkSlice_one resarr hlen]
  simp only [Option.map_some', List.map_map]
  unfold exportFiles chunkStringSlice
  rw [chunkSlice_one _ (by rw [List.length_map]; exact hlen)]
  simp only [Option.map_some', List.map_map]
  rfl

/-- C11: for every table with N fetched rows (N below 2^53), RowsPerBatch 1 and
BatchesPerFile 1, the export step writes exactly N files, numbered 1 to N; the j-th
file holds, between the IDENTITY_INSERT ON and OFF directives of the table, exactly
one INSERT statement with exactly one value tuple, that of the j-th row.  For
dbo.Widgets with columns Id, Name and rows (1, 'a'), (2, 'b') it writes 2 files,
with the tuples (1, 'a') and (2, 'b'). -/
theorem export_one_row_per_file (table : ExportTableMetadata) (resarr : List Row)
    (hlen : resarr.length < 2 ^ 53) :
    (∃ files : List (String × String), exportTable table resarr 1 1 = some files
      ∧ files.length = resarr.length
      ∧ files.map Prod.fst = (List.range resarr.length).map (fun (j : ℕ) =>
          table.TableCatalog ++ "_" ++ table.TableSchema ++ "_" ++ table.TableName ++ "_"
            ++ fmtD ((j : ℤ) + 1) ++ ".sql")
      ∧ files.map Prod.snd = resarr.map (fun r =>
          ("SET IDENTITY_INSERT [" ++ table.TableSchema ++ "].[" ++ table.TableName ++ "] ON")
            ++ "\n\n "
            ++ ("INSERT INTO [" ++ table.TableCatalog ++ "].[" ++ table.TableSchema ++ "].["
                ++ table.TableName ++ "] (" ++ columnList table.Columns ++ ") VALUES "
                ++ "\n  " ++ valueTuple table.Columns r ++ " \n" ++ "\n")
            ++ " \n\n"
            ++ ("SET IDENTITY_INSERT [" ++ table.TableSchema ++ "].[" ++ table.TableName
                ++ "] OFF")))
    ∧ exportTable
        (ExportTableMetadata.mk "db" "dbo" "Widgets"
          [Column.mk "Id" 1 "NO" "int", Column.mk "Name" 2 "YES" "varchar"] GoMap.empty "")
        [ ((GoMap.empty : Row).set "Id" (Value.int64 1)).set "Name" (Value.string "a"),
          ((GoMap.empty : Row).set "Id" (Value.int64 2)).set "Name" (Value.string "b") ] 1 1
      = some
        [ ("db_dbo_Widgets_1.sql",
            "SET IDENTITY_INSERT [dbo].[Widgets] ON\n\n INSERT INTO [db].[dbo].[Widgets] ([Id], [Name]) VALUES \n  (1, 'a') \n\n \n\nSET IDENTITY_INSERT [dbo].[Widgets] OFF"),
          ("db_dbo_Widgets_2.sql",
            "SET IDENTITY_INSERT [dbo].[Widgets] ON\n\n INSERT INTO [db].[dbo].[Widgets] ([Id], [Name]) VALUES \n  (2, 'b') \n\n \n\nSET IDENTITY_INSERT [dbo].[Widgets] OFF") ] := by
  constructor
  · refine ⟨_, exportTable_one_one table resarr hlen, ?_, ?_, ?_⟩
    · rw [writeLoop_length, List.length_map]
    · rw [writeLoop_fst, List.length_map]
      apply List.map_congr_left
      intro j _
      rw [Nat.zero_add]
      rfl
    · rw [writeLoop_snd, List.map_map]
      apply List.map_congr_left
      intro r _
      simp only [Function.comp]
      rw [fileContent_eq]
      have hst : insertStatement table [r]
          = "INSERT INTO [" ++ table.TableCatalog ++ "].[" ++ table.TableSchema ++ "].["
              ++ table.TableName ++ "] (" ++ columnList table.Columns ++ ") VALUES "
              ++ "\n  " ++ valueTuple table.Columns r ++ " \n" ++ "\n" := by
        unfold insertStatement insertBase columnsOf
        rw [batchLoop_eq, columnsLoop_eq]
        rfl
      rw [← hst]
      rfl
  · rw [exportTable_one_one _ _ (by decide)]
    decide

theorem export_one_row_per_file_witness :
    [(GoMap.empty : Row).set "Id" (Value.int64 7)].length < 2 ^ 53
      ∧ ∃ files : List (String × String),
        exportTable (ExportTableMetadata.mk "db" "dbo" "T" [Column.mk "Id" 1 "NO" "int"]
          GoMap.empty "") [(GoMap.empty : Row).set "Id" (Value.int64 7)] 1 1 = some files
        ∧ files.length = 1 :=
  ⟨by decide,
    match (export_one_row_per_file (ExportTableMetadata.mk "db" "dbo" "T"
        [Column.mk "Id" 1 "NO" "int"] GoMap.empty "")
        [(GoMap.empty : Row).set "Id" (Value.int64 7)] (by decide)).1 with
    | ⟨files, h1, h2, _⟩ => ⟨files, h1, h2⟩⟩


/-! ## File names -/

theorem append_cons_inj_first {α : Type} (a : α) (l1 l2 r1 r2 : List α)
    (h : l1 ++ a :: r1 = l2 ++ a :: r2) (h1 : a ∉ l1) (h2 : a ∉ l2) : l1 = l2 ∧ r1 = r2 := by
  induction l1 generalizing l2 with
  | nil =>
    cases l2 with
    | nil => exact ⟨rfl, by simpa using h⟩
    | cons b l2 =>
      simp only [List.nil_append, List.cons_append, List.cons.injEq] at h
      exact absurd (List.mem_cons.mpr (Or.inl h.1)) h2
  | cons c l1 ih =>
    cases l2 with
    | nil =>
      simp only [List.nil_append, List.cons_append, List.cons.injEq] at h
      exact absurd (List.mem_cons.mpr (Or.inl h.1.symm)) h1
    | cons b l2 =>
      simp only [List.cons_append, List.cons.injEq] at h
      obtain ⟨e1, e2⟩ := ih l2 h.2 (fun m => h1 (List.mem_cons_of_mem c m))
        (fun m => h2 (List.mem_cons_of_mem b m))
      exact ⟨by rw [h.1, e1], e2⟩

theorem append_cons_inj_last {α : Type} (a : α) (l1 l2 r1 r2 : List α)
    (h : l1 ++ a :: r1 = l2 ++ a :: r2) (h1 : a ∉ r1) (h2 : a ∉ r2) : l1 = l2 ∧ r1 = r2 := by
  have hrev := congrArg List.reverse h
  simp only [List.reverse_append, List.reverse_cons, List.append_assoc, List.singleton_append]
    at hrev
  obtain ⟨e1, e2⟩ := append_cons_inj_first a r1.reverse r2.reverse l1.reverse l2.reverse hrev
    (by simpa using h1) (by simpa using h2)
  exact ⟨List.reverse_injective e2, List.reverse_injective e1⟩

theorem fmtD_index_data (i : ℕ) :
    ('_') ∉ (fmtD ((i : ℤ) + 1)).data := by
  have hnn : ¬ ((i : ℤ) + 1 < 0) := by omega
  unfold fmtD
  rw [if_neg hnn]
  intro hmem
  have := (parseUint_fmtUint ((i : ℤ) + 1).natAbs).2.2 _ hmem
  have h95 : ('_').toNat = 95 := rfl
  omega

theorem fmtD_index_inj (i j : ℕ) (h : fmtD ((i : ℤ) + 1) = fmtD ((j : ℤ) + 1)) : i = j := by
  have h1 := parseInt_fmtD ((i : ℤ) + 1)
  rw [h, parseInt_fmtD] at h1
  have := Option.some.inj h1
  omega

theorem fileName_eq_iff (t1 t2 : ExportTableMetadata) (i j : ℕ) :
    fileName t1 i = fileName t2 j
      ↔ (t1.TableCatalog ++ "_" ++ t1.TableSchema ++ "_" ++ t1.TableName
            = t2.TableCatalog ++ "_" ++ t2.TableSchema ++ "_" ++ t2.TableName ∧ i = j) := by
  constructor
  · intro h
    have hd := congrArg String.data h
    unfold fileName at hd
    simp only [String.data_append] at hd
    have hd1 := List.append_cancel_right hd
    have hu : ("_" : String).data = ['_'] := by decide
    simp only [List.append_assoc, List.singleton_append] at hd1
    have hd2 : (t1.TableCatalog.data ++ '_' :: (t1.TableSchema.data
          ++ '_' :: t1.TableName.data)) ++ '_' :: (fmtD ((i : ℤ) + 1)).data
        = (t2.TableCatalog.data ++ '_' :: (t2.TableSchema.data
          ++ '_' :: t2.TableName.data)) ++ '_' :: (fmtD ((j : ℤ) + 1)).data := by
      simpa only [List.append_assoc, List.cons_append] using hd1
    obtain ⟨e1, e2⟩ := append_cons_inj_last _ _ _ _ _ hd2 (fmtD_index_data i) (fmtD_index_data j)
    refine ⟨?_, fmtD_index_inj i j (String.ext e2)⟩
    apply String.ext
    simp only [String.data_append, hu, List.append_assoc, List.singleton_append]
    exact e1
  · rintro ⟨h1, h2⟩
    unfold fileName
    rw [h1, h2]

/-- For two tables that have the same catalog and the same schema, as the tables
of one run have, or whose catalogs and schemas contain no underscore, the name
texts of two pairs (table, group index) are equal only if catalog, schema, table
name and index are all equal. -/
theorem fileName_injective (t1 t2 : ExportTableMetadata) (i j : ℕ)
    (h : (t1.TableCatalog = t2.TableCatalog ∧ t1.TableSchema = t2.TableSchema)
      ∨ ('_' ∉ t1.TableCatalog.data ∧ '_' ∉ t1.TableSchema.data
        ∧ '_' ∉ t2.TableCatalog.data ∧ '_' ∉ t2.TableSchema.data)) :
    fileName t1 i = fileName t2 j
      ↔ (t1.TableCatalog = t2.TableCatalog ∧ t1.TableSchema = t2.TableSchema
          ∧ t1.TableName = t2.TableName ∧ i = j) := by
  rw [fileName_eq_iff]
  have hu : ("_" : String).data = ['_'] := by decide
  constructor
  · rintro ⟨hx, hij⟩
    have hd := congrArg String.data hx
    simp only [String.data_append, hu, List.append_assoc, List.singleton_append] at hd
    rcases h with ⟨hc, hs⟩ | ⟨h1, h2, h3, h4⟩
    · rw [hc, hs] at hd
      have := List.append_cancel_left hd
      simp only [List.cons.injEq, true_and] at this
      have := List.append_cancel_left this
      simp only [List.cons.injEq, true_and] at this
      exact ⟨hc, hs, String.ext this, hij⟩
    · obtain ⟨e1, e2⟩ := append_cons_inj_first _ _ _ _ _ hd h1 h3
      obtain ⟨e3, e4⟩ := append_cons_inj_first _ _ _ _ _ e2 h2 h4
      exact ⟨String.ext e1, String.ext e3, String.ext e4, hij⟩
  · rintro ⟨hc, hs, hn, hij⟩
    rw [hc, hs, hn]
    exact ⟨rfl, hij⟩


/-! ## Output paths -/

theorem elements_append_slash (x y : List Char) :
    ∀ cur, filepath.elements (x ++ '/' :: y) cur
      = filepath.elements x cur ++ filepath.elements y [] := by
  induction x with
  | nil => intro cur; simp [filepath.elements]
  | cons c x ih =>
    intro cur
    by_cases hc : c = '/'
    · rw [List.cons_append]
      simp only [filepath.elements, if_pos hc]
      rw [ih]
      rfl
    · rw [List.cons_append]
      simp only [filepath.elements, if_neg hc]
      exact ih _

theorem elements_no_slash (y : List Char) (hy : '/' ∉ y) :
    ∀ cur, filepath.elements y cur = [cur ++ y] := by
  induction y with
  | nil => intro cur; simp [filepath.elements]
  | cons c y ih =>
    intro cur
    have hc : c ≠ '/' := fun h => hy (h ▸ List.mem_cons_self _ _)
    have hy1 : '/' ∉ y := fun h => hy (List.mem_cons_of_mem _ h)
    simp only [filepath.elements, if_neg hc, ih hy1, List.append_assoc, List.singleton_append]

theorem cleanStep_real (rooted : Bool) (out : List (List Char)) (e : List Char)
    (h : 3 ≤ e.length) : filepath.cleanStep rooted out e = out ++ [e] := by
  have h0 : e ≠ [] := by intro h1; rw [h1] at h; simp at h
  have h1 : e ≠ ['.'] := by intro h1; rw [h1] at h; simp at h
  have h2 : e ≠ ['.', '.'] := by intro h1; rw [h1] at h; simp at h
  unfold filepath.cleanStep
  rw [if_neg h0, if_neg h1, if_neg h2]

theorem joinElements_concat (out : List (List Char)) (e : List Char) :
    filepath.joinElements (out ++ [e]) = (out.map (fun x => x ++ ['/'])).flatten ++ e := by
  induction out with
  | nil => simp [filepath.joinElements]
  | cons a out ih =>
    cases out with
    | nil => simp [filepath.joinElements]
    | cons b out =>
      simp only [List.cons_append] at ih ⊢
      simp only [filepath.joinElements, ih]
      simp

/-- The path filepath.Join(newpath, text) of a name text that is a single path
element of at least three characters: a text that depends on newpath only,
followed by the name text. -/
theorem join_single_element (newpath : String) :
    ∃ pre : List Char, ∀ text : String, '/' ∉ text.data → 3 ≤ text.data.length →
      filepath.Join [newpath, text] = String.mk (pre ++ text.data) := by
  by_cases hn : newpath = ""
  · refine ⟨[], ?_⟩
    intro text hs hl
    have hne : text ≠ "" := by
      intro h; rw [h] at hl; simp at hl
    have hroot : ¬ text.data.head? = some '/' := by
      intro h
      cases htd : text.data with
      | nil => rw [htd] at h; simp at h
      | cons c t =>
        rw [htd] at h hs
        simp only [List.head?_cons, Option.some.injEq] at h
        exact hs (h ▸ List.mem_cons_self _ _)
    unfold filepath.Join
    rw [if_neg (not_not.mpr hn)]
    unfold filepath.Join
    rw [if_pos hne]
    have hj : strings.Join [text] "/" = text := rfl
    rw [hj]
    unfold filepath.Clean
    rw [if_neg hne]
    simp only [decide_eq_true_eq]
    rw [if_neg hroot, elements_no_slash _ hs]
    simp only [List.nil_append, List.foldl_cons, List.foldl_nil, decide_eq_false hroot]
    rw [cleanStep_real _ _ _ hl]
    simp [filepath.joinElements]
  · by_cases hroot : newpath.data.head? = some '/'
    · refine ⟨'/' :: (((filepath.elements newpath.data []).foldl
          (filepath.cleanStep true) []).map (fun x => x ++ ['/'])).flatten, ?_⟩
      intro text hs hl
      unfold filepath.Join
      rw [if_pos hn]
      have hj : strings.Join [newpath, text] "/" = newpath ++ "/" ++ text := rfl
      rw [hj]
      have hd : (newpath ++ "/" ++ text).data = newpath.data ++ '/' :: text.data := by
        simp [String.data_append]
      have hne : newpath ++ "/" ++ text ≠ "" := by
        intro h
        have := congrArg String.data h
        rw [hd] at this
        simp at this
      have hr : (newpath ++ "/" ++ text).data.head? = some '/' := by
        rw [hd]
        cases hnd : newpath.data with
        | nil => simp
        | cons c t => rw [hnd] at hroot; simpa using hroot
      unfold filepath.Clean
      rw [if_neg hne]
      simp only [decide_eq_true_eq]
      rw [if_pos hr, hd, elements_append_slash, elements_no_slash _ hs, List.foldl_append]
      simp only [List.nil_append, List.foldl_cons, List.foldl_nil, decide_eq_true hr]
      rw [cleanStep_real _ _ _ hl, joinElements_concat]
      have hnd : newpath.data ≠ [] := fun h => hn (String.ext h)
      simp [hroot, hnd]
    · refine ⟨(((filepath.elements newpath.data []).foldl
          (filepath.cleanStep false) []).map (fun x => x ++ ['/'])).flatten, ?_⟩
      intro text hs hl
      unfold filepath.Join
      rw [if_pos hn]
      have hj : strings.Join [newpath, text] "/" = newpath ++ "/" ++ text := rfl
      rw [hj]
      have hd : (newpath ++ "/" ++ text).data = newpath.data ++ '/' :: text.data := by
        simp [String.data_append]
      have hne : newpath ++ "/" ++ text ≠ "" := by
        intro h
        have := congrArg String.data h
        rw [hd] at this
        simp at this
      have hr : ¬ (newpath ++ "/" ++ text).data.head? = some '/' := by
        rw [hd]
        cases hnd : newpath.data with
        | nil => exact absurd (String.ext hnd) hn
        | cons c t => rw [hnd] at hroot; simpa using hroot
      unfold filepath.Clean
      rw [if_neg hne]
      simp only [decide_eq_true_eq]
      rw [if_neg hr, hd, elements_append_slash, elements_no_slash _ hs, List.foldl_append]
      simp only [List.nil_append, List.foldl_cons, List.foldl_nil, decide_eq_false hr]
      rw [cleanStep_real _ _ _ hl, joinElements_concat]
      have hnd : newpath.data ≠ [] := fun h => hn (String.ext h)
      simp [hroot, hnd]

theorem fmtD_index_no_slash (i : ℕ) : ('/') ∉ (fmtD ((i : ℤ) + 1)).data := by
  have hnn : ¬ ((i : ℤ) + 1 < 0) := by omega
  unfold fmtD
  rw [if_neg hnn]
  intro hmem
  have := (parseUint_fmtUint ((i : ℤ) + 1).natAbs).2.2 _ hmem
  have h47 : ('/').toNat = 47 := rfl
  omega

theorem fileName_single_element (t : ExportTableMetadata) (i : ℕ)
    (h : '/' ∉ t.TableCatalog.data ∧ '/' ∉ t.TableSchema.data ∧ '/' ∉ t.TableName.data) :
    '/' ∉ (fileName t i).data ∧ 3 ≤ (fileName t i).data.length := by
  obtain ⟨h1, h2, h3⟩ := h
  have h4 := fmtD_index_no_slash i
  unfold fileName
  simp only [String.data_append, List.mem_append, List.length_append]
  constructor
  · rintro (((((((h | h) | h) | h) | h) | h) | h) | h)
    · exact h1 h
    · revert h; decide
    · exact h2 h
    · revert h; decide
    · exact h3 h
    · revert h; decide
    · exact h4 h
    · revert h; decide
  · simp only [List.length_cons, List.length_nil]
    omega

/-- The writes of main for one table go to the paths filePath of that table. -/
theorem writeFiles_paths (w : World) (newpath : String) (table : ExportTableMetadata)
    (filechunks : List (List String)) :
    ∀ (k : ℕ) (e : Event), e ∈ (writeFiles w newpath (writeLoop table filechunks k)).1 →
      e = Event.fatal
        ∨ ∃ (n : ℕ) (chunk : List String), k ≤ n ∧ n < k + filechunks.length
            ∧ filechunks.get? (n - k) = some chunk
            ∧ e = Event.writeFile (filePath newpath table n) (fileContent table chunk) := by
  induction filechunks with
  | nil => intro k e h; simp [writeLoop, writeFiles] at h
  | cons c rest ih =>
    intro k e h
    have hhere : ∃ (n : ℕ) (chunk : List String), k ≤ n ∧ n < k + (c :: rest).length
        ∧ (c :: rest).get? (n - k) = some chunk
        ∧ Event.writeFile (filepath.Join [newpath, fileName table k]) (fileContent table c)
          = Event.writeFile (filePath newpath table n) (fileContent table chunk) :=
      ⟨k, c, le_refl _, by simp, by simp, rfl⟩
    unfold writeLoop writeFiles at h
    by_cases hw : w.writeFile (filepath.Join [newpath, fileName table k]) = true
    · simp only at h
      rw [if_pos hw] at h
      rcases List.mem_cons.mp h with h1 | h1
      · rw [h1]
        exact Or.inr hhere
      · rcases ih (k + 1) e h1 with h2 | ⟨n, chunk, h2, h3, h4, h5⟩
        · exact Or.inl h2
        · refine Or.inr ⟨n, chunk, by omega, by simp only [List.length_cons]; omega, ?_, h5⟩
          have : n - k = (n - (k + 1)) + 1 := by omega
          rw [this, List.get?_cons_succ]
          exact h4
    · simp only at h
      rw [if_neg hw] at h
      rcases List.mem_cons.mp h with h1 | h1
      · rw [h1]
        exact Or.inr hhere
      · rw [List.mem_singleton] at h1
        exact Or.inl h1

/-- C13, at two tables of one run (catalog db, schema dbo) named x/../db_dbo_y and
y, written to the directory out: the name texts differ, but filepath.Join cleans
the path, so both tables are written to out/db_dbo_y_1.sql.  Also, at catalog a_b
with schema c against catalog a with schema b_c (same table t, same index): the
identities differ in catalog and schema and the name texts are the same,
a_b_c_t_1.sql. -/
theorem filePath_collision :
    (ExportTableMetadata.mk "db" "dbo" "x/../db_dbo_y" [] GoMap.empty "").TableName
        ≠ (ExportTableMetadata.mk "db" "dbo" "y" [] GoMap.empty "").TableName
      ∧ fileName (ExportTableMetadata.mk "db" "dbo" "x/../db_dbo_y" [] GoMap.empty "") 0
        = "db_dbo_x/../db_dbo_y_1.sql"
      ∧ fileName (ExportTableMetadata.mk "db" "dbo" "y" [] GoMap.empty "") 0 = "db_dbo_y_1.sql"
      ∧ filePath "out" (ExportTableMetadata.mk "db" "dbo" "x/../db_dbo_y" [] GoMap.empty "") 0
        = "out/db_dbo_y_1.sql"
      ∧ filePath "out" (ExportTableMetadata.mk "db" "dbo" "y" [] GoMap.empty "") 0
        = "out/db_dbo_y_1.sql"
      ∧ (ExportTableMetadata.mk "a_b" "c" "t" [] GoMap.empty "").TableCatalog
        ≠ (ExportTableMetadata.mk "a" "b_c" "t" [] GoMap.empty "").TableCatalog
      ∧ fileName (ExportTableMetadata.mk "a_b" "c" "t" [] GoMap.empty "") 0
        = fileName (ExportTableMetadata.mk "a" "b_c" "t" [] GoMap.empty "") 0
      ∧ filePath "out" (ExportTableMetadata.mk "a_b" "c" "t" [] GoMap.empty "") 0
        = filePath "out" (ExportTableMetadata.mk "a" "b_c" "t" [] GoMap.empty "") 0 := by
  decide

/-- C13, amended: for every output directory and every two tables whose catalog,
schema and table name contain no slash, and that have the same catalog and the
same schema, as the tables of one run have, or whose catalogs and schemas contain
no underscore: the paths filepath.Join(newpath, name text) written for two pairs
(table, group index) are equal only if catalog, schema, table name and index are
all equal, and so are the name texts. -/
theorem filePath_injective (newpath : String) (t1 t2 : ExportTableMetadata) (i j : ℕ)
    (hsame : (t1.TableCatalog = t2.TableCatalog ∧ t1.TableSchema = t2.TableSchema)
      ∨ ('_' ∉ t1.TableCatalog.data ∧ '_' ∉ t1.TableSchema.data
        ∧ '_' ∉ t2.TableCatalog.data ∧ '_' ∉ t2.TableSchema.data))
    (hslash : '/' ∉ t1.TableCatalog.data ∧ '/' ∉ t1.TableSchema.data
      ∧ '/' ∉ t1.TableName.data ∧ '/' ∉ t2.TableCatalog.data ∧ '/' ∉ t2.TableSchema.data
      ∧ '/' ∉ t2.TableName.data) :
    (filePath newpath t1 i = filePath newpath t2 j
        ↔ (t1.TableCatalog = t2.TableCatalog ∧ t1.TableSchema = t2.TableSchema
            ∧ t1.TableName = t2.TableName ∧ i = j))
      ∧ (fileName t1 i = fileName t2 j
        ↔ (t1.TableCatalog = t2.TableCatalog ∧ t1.TableSchema = t2.TableSchema
            ∧ t1.TableName = t2.TableName ∧ i = j)) := by
  refine ⟨?_, fileName_injective t1 t2 i j hsame⟩
  obtain ⟨pre, hpre⟩ := join_single_element newpath
  obtain ⟨a1, a2, a3, b1, b2, b3⟩ := hslash
  obtain ⟨s1, l1⟩ := fileName_single_element t1 i ⟨a1, a2, a3⟩
  obtain ⟨s2, l2⟩ := fileName_single_element t2 j ⟨b1, b2, b3⟩
  unfold filePath
  rw [hpre _ s1 l1, hpre _ s2 l2, ← fileName_injective t1 t2 i j hsame]
  constructor
  · intro h
    have hd := congrArg String.data h
    exact String.ext (List.append_cancel_left hd)
  · intro h
    rw [h]

theorem filePath_injective_witness :
    (filePath "./out/" (ExportTableMetadata.mk "db" "dbo" "T_1" [] GoMap.empty "") 0
        = filePath "./out/" (ExportTableMetadata.mk "db" "dbo" "T" [] GoMap.empty "") 10
      ↔ ("db" = "db" ∧ "dbo" = "dbo" ∧ "T_1" = "T" ∧ 0 = 10))
    ∧ filePath "./out/" (ExportTableMetadata.mk "db" "dbo" "T_1" [] GoMap.empty "") 0
        = "out/db_dbo_T_1_1.sql"
    ∧ filePath "./out/" (ExportTableMetadata.mk "db" "dbo" "T" [] GoMap.empty "") 10
        = "out/db_dbo_T_11.sql" :=
  ⟨(filePath_injective "./out/" (ExportTableMetadata.mk "db" "dbo" "T_1" [] GoMap.empty "")
      (ExportTableMetadata.mk "db" "dbo" "T" [] GoMap.empty "") 0 10 (Or.inl ⟨rfl, rfl⟩)
      (by decide)).1, by decide, by decide⟩


/-! ## Connection string -/

theorem indexFrom_of_split (q : Char) (pre post : List Char) (i : ℕ) (h : q ∉ pre) :
    strings.indexFrom [q] (pre ++ q :: post) i = ((i + pre.length : ℕ) : ℤ) := by
  induction pre generalizing i with
  | nil => simp [strings.indexFrom, List.isPrefixOf]
  | cons c t ih =>
    have hc : ¬ q = c := fun e => h (by rw [e]; exact List.mem_cons_self c t)
    have ht : q ∉ t := fun m => h (List.mem_cons_of_mem c m)
    have hstep : strings.indexFrom [q] (c :: t ++ q :: post) i
        = strings.indexFrom [q] (t ++ q :: post) (i + 1) := by
      simp [strings.indexFrom, List.isPrefixOf, hc]
    rw [hstep, ih (i + 1) ht]
    simp only [List.length_cons]
    congr 1
    omega

theorem lastIndexFrom_not_mem (q : Char) (rest : List Char) (i : ℕ) (best : ℤ) (h : q ∉ rest) :
    strings.lastIndexFrom [q] rest i best = best := by
  induction rest generalizing i with
  | nil => simp [strings.lastIndexFrom, List.isPrefixOf]
  | cons c t ih =>
    have hc : ¬ q = c := fun e => h (by rw [e]; exact List.mem_cons_self c t)
    have ht : q ∉ t := fun m => h (List.mem_cons_of_mem c m)
    have hstep : strings.lastIndexFrom [q] (c :: t) i best
        = strings.lastIndexFrom [q] t (i + 1) best := by
      simp [strings.lastIndexFrom, List.isPrefixOf, hc]
    rw [hstep, ih (i + 1) ht]

theorem lastIndexFrom_of_split (q : Char) (pre post : List Char) (i : ℕ) (best : ℤ)
    (h : q ∉ post) :
    strings.lastIndexFrom [q] (pre ++ q :: post) i best = ((i + pre.length : ℕ) : ℤ) := by
  induction pre generalizing i best with
  | nil =>
    have hstep : strings.lastIndexFrom [q] (q :: post) i best
        = strings.lastIndexFrom [q] post (i + 1) (i : ℤ) := by
      simp [strings.lastIndexFrom, List.isPrefixOf]
    rw [List.nil_append, hstep, lastIndexFrom_not_mem q post (i + 1) _ h]
    simp
  | cons c t ih =>
    have hstep : strings.lastIndexFrom [q] (c :: t ++ q :: post) i best
        = strings.lastIndexFrom [q] (t ++ q :: post) (i + 1)
            (if [q].isPrefixOf (c :: (t ++ q :: post)) then (i : ℤ) else best) := by
      simp [strings.lastIndexFrom]
    rw [hstep, ih (i + 1)]
    simp only [List.length_cons]
    congr 1
    omega

theorem sliceString_of_split (s : String) (pre mid post : List Char)
    (h : s.data = pre ++ mid ++ post) :
    sliceString s ((pre.length : ℕ) : ℤ) ((pre.length + mid.length : ℕ) : ℤ)
      = some (String.mk mid) := by
  unfold sliceString
  rw [sliceRange_natCast s.data pre.length (pre.length + mid.length) (by omega)
    (by rw [h]; simp only [List.length_append]; omega), h, List.append_assoc,
    List.take_append, List.drop_left, List.take_left]
  rfl

theorem sliceStringFrom_of_split (s : String) (pre post : List Char) (h : s.data = pre ++ post) :
    sliceStringFrom s ((pre.length : ℕ) : ℤ) = some (String.mk post) := by
  unfold sliceStringFrom
  rw [sliceFrom_natCast s.data pre.length (by rw [h]; simp), h]
  simp

/-- The text of a connection string made of five fields. -/
theorem connection_data (u p a t d : String) :
    (u ++ ":" ++ p ++ "@" ++ a ++ ":" ++ t ++ "/" ++ d).data
      = u.data ++ ':' :: (p.data ++ '@' :: (a.data ++ ':' :: (t.data ++ '/' :: d.data))) := by
  simp only [String.data_append, List.append_assoc]
  rfl

/-- C18: for every username, password, address, port and database that contain
none of the characters colon, at sign and slash, the connection string
username:password@address:port/database is accepted by isValidConnectionString and
the five slice expressions of main return (no panic) and recover exactly those
five values, leaving the other fields of cfg as they were. -/
theorem connectionFields_recovers (cfg : config) (u p a t d : String)
    (hu : ':' ∉ u.data ∧ '@' ∉ u.data ∧ '/' ∉ u.data)
    (hp : ':' ∉ p.data ∧ '@' ∉ p.data ∧ '/' ∉ p.data)
    (ha : ':' ∉ a.data ∧ '@' ∉ a.data ∧ '/' ∉ a.data)
    (ht : ':' ∉ t.data ∧ '@' ∉ t.data ∧ '/' ∉ t.data)
    (hd : ':' ∉ d.data ∧ '@' ∉ d.data ∧ '/' ∉ d.data) :
    isValidConnectionString (u ++ ":" ++ p ++ "@" ++ a ++ ":" ++ t ++ "/" ++ d) = true
      ∧ connectionFields cfg (u ++ ":" ++ p ++ "@" ++ a ++ ":" ++ t ++ "/" ++ d)
        = some { cfg with DbUsername := u, DbPassword := p, DbAddress := a, DbPort := t,
                          DbDatabase := d } := by
  have hdata := connection_data u p a t d
  generalize hcd : u ++ ":" ++ p ++ "@" ++ a ++ ":" ++ t ++ "/" ++ d = cd at hdata
  have hcolon : (":" : String).data = [':'] := rfl
  have hat : ("@" : String).data = ['@'] := rfl
  have hslash : ("/" : String).data = ['/'] := rfl
  have hne1 : ¬ ('@' : Char) = ':' := by decide
  have hne2 : ¬ ('/' : Char) = ':' := by decide
  have hne3 : ¬ (':' : Char) = '@' := by decide
  have hne4 : ¬ ('/' : Char) = '@' := by decide
  have hne5 : ¬ (':' : Char) = '/' := by decide
  have hne6 : ¬ ('@' : Char) = '/' := by decide
  -- the three counts
  have hc1 : strings.Count cd ":" = 2 := by
    unfold strings.Count
    rw [hcolon]
    simp only [hdata, List.count_append, List.count_cons, List.count_eq_zero.mpr hu.1,
      List.count_eq_zero.mpr hp.1, List.count_eq_zero.mpr ha.1, List.count_eq_zero.mpr ht.1,
      List.count_eq_zero.mpr hd.1]
    simp [hne1, hne2]
  have hc2 : strings.Count cd "@" = 1 := by
    unfold strings.Count
    rw [hat]
    simp only [hdata, List.count_append, List.count_cons, List.count_eq_zero.mpr hu.2.1,
      List.count_eq_zero.mpr hp.2.1, List.count_eq_zero.mpr ha.2.1,
      List.count_eq_zero.mpr ht.2.1, List.count_eq_zero.mpr hd.2.1]
    simp [hne3, hne4]
  have hc3 : strings.Count cd "/" = 1 := by
    unfold strings.Count
    rw [hslash]
    simp only [hdata, List.count_append, List.count_cons, List.count_eq_zero.mpr hu.2.2,
      List.count_eq_zero.mpr hp.2.2, List.count_eq_zero.mpr ha.2.2,
      List.count_eq_zero.mpr ht.2.2, List.count_eq_zero.mpr hd.2.2]
    simp [hne5, hne6]
  -- the positions of the separators
  have hi1 : strings.Index cd ":" = ((u.data.length : ℕ) : ℤ) := by
    unfold strings.Index
    rw [hcolon, hdata, indexFrom_of_split _ _ _ 0 hu.1, Nat.zero_add]
  have hi2 : strings.Index cd "@" = (((u.data ++ [':']).length + p.data.length : ℕ) : ℤ) := by
    unfold strings.Index
    have hsplit : cd.data = (u.data ++ ':' :: p.data)
        ++ '@' :: (a.data ++ ':' :: (t.data ++ '/' :: d.data)) := by
      rw [hdata]; simp
    have hnot : '@' ∉ u.data ++ ':' :: p.data := by
      simp only [List.mem_append, List.mem_cons, not_or]
      exact ⟨hu.2.1, hne1, hp.2.1⟩
    rw [hat, hsplit, indexFrom_of_split _ _ _ 0 hnot, Nat.zero_add]
    simp; omega
  have hi3 : strings.LastIndex cd ":"
      = (((u.data ++ ':' :: (p.data ++ ['@'])).length + a.data.length : ℕ) : ℤ) := by
    unfold strings.LastIndex
    have hsplit : cd.data = (u.data ++ ':' :: (p.data ++ '@' :: a.data))
        ++ ':' :: (t.data ++ '/' :: d.data) := by
      rw [hdata]; simp
    have hnot : ':' ∉ t.data ++ '/' :: d.data := by
      simp only [List.mem_append, List.mem_cons, not_or]
      exact ⟨ht.1, hne5, hd.1⟩
    rw [hcolon, hsplit, lastIndexFrom_of_split _ _ _ 0 _ hnot, Nat.zero_add]
    simp; omega
  have hi4 : strings.LastIndex cd "/"
      = (((u.data ++ ':' :: (p.data ++ '@' :: (a.data ++ [':']))).length
          + t.data.length : ℕ) : ℤ) := by
    unfold strings.LastIndex
    have hsplit : cd.data = (u.data ++ ':' :: (p.data ++ '@' :: (a.data ++ ':' :: t.data)))
        ++ '/' :: d.data := by
      rw [hdata]; simp
    rw [hslash, hsplit, lastIndexFrom_of_split _ _ _ 0 _ hd.2.2, Nat.zero_add]
    simp; omega
  have hi5 : strings.Index cd "/"
      = (((u.data ++ ':' :: (p.data ++ '@' :: (a.data ++ ':' :: t.data))).length : ℕ) : ℤ) := by
    unfold strings.Index
    have hsplit : cd.data = (u.data ++ ':' :: (p.data ++ '@' :: (a.data ++ ':' :: t.data)))
        ++ '/' :: d.data := by
      rw [hdata]; simp
    have hnot : '/' ∉ u.data ++ ':' :: (p.data ++ '@' :: (a.data ++ ':' :: t.data)) := by
      simp only [List.mem_append, List.mem_cons, not_or]
      exact ⟨hu.2.2, hne2, hp.2.2, hne4, ha.2.2, hne2, ht.2.2⟩
    rw [hslash, hsplit, indexFrom_of_split _ _ _ 0 hnot, Nat.zero_add]
  -- the five slices
  have hs1 : sliceString cd 0 (strings.Index cd ":") = some u := by
    have := sliceString_of_split cd [] u.data
      (':' :: (p.data ++ '@' :: (a.data ++ ':' :: (t.data ++ '/' :: d.data))))
      (by rw [hdata]; simp)
    rw [hi1]
    simpa using this
  have hs2 : sliceString cd (strings.Index cd ":" + 1) (strings.Index cd "@") = some p := by
    have := sliceString_of_split cd (u.data ++ [':']) p.data
      ('@' :: (a.data ++ ':' :: (t.data ++ '/' :: d.data))) (by rw [hdata]; simp)
    rw [hi1, hi2]
    have hlen : ((u.data.length : ℕ) : ℤ) + 1 = (((u.data ++ [':']).length : ℕ) : ℤ) := by simp
    rw [hlen]
    exact this
  have hs3 : sliceString cd (strings.Index cd "@" + 1) (strings.LastIndex cd ":")
      = some a := by
    have := sliceString_of_split cd (u.data ++ ':' :: (p.data ++ ['@'])) a.data
      (':' :: (t.data ++ '/' :: d.data)) (by rw [hdata]; simp)
    rw [hi2, hi3]
    have hlen : (((u.data ++ [':']).length + p.data.length : ℕ) : ℤ) + 1
        = (((u.data ++ ':' :: (p.data ++ ['@'])).length : ℕ) : ℤ) := by
      simp; omega
    rw [hlen]
    exact this
  have hs4 : sliceString cd (strings.LastIndex cd ":" + 1) (strings.LastIndex cd "/")
      = some t := by
    have := sliceString_of_split cd (u.data ++ ':' :: (p.data ++ '@' :: (a.data ++ [':'])))
      t.data ('/' :: d.data) (by rw [hdata]; simp)
    rw [hi3, hi4]
    have hlen : (((u.data ++ ':' :: (p.data ++ ['@'])).length + a.data.length : ℕ) : ℤ) + 1
        = (((u.data ++ ':' :: (p.data ++ '@' :: (a.data ++ [':']))).length : ℕ) : ℤ) := by
      simp; omega
    rw [hlen]
    exact this
  have hs5 : sliceStringFrom cd (strings.Index cd "/" + 1) = some d := by
    have := sliceStringFrom_of_split cd
      (u.data ++ ':' :: (p.data ++ '@' :: (a.data ++ ':' :: (t.data ++ ['/'])))) d.data
      (by rw [hdata]; simp)
    rw [hi5]
    have hlen : (((u.data ++ ':' :: (p.data ++ '@' :: (a.data ++ ':' :: t.data))).length : ℕ) : ℤ)
          + 1
        = (((u.data ++ ':' :: (p.data ++ '@' :: (a.data ++ ':' :: (t.data ++ ['/'])))).length
            : ℕ) : ℤ) := by
      simp; omega
    rw [hlen]
    exact this
  constructor
  · unfold isValidConnectionString
    rw [hc1, hc2, hc3]
    rfl
  · unfold connectionFields
    rw [hs1, hs2, hs3, hs4, hs5]

theorem connectionFields_recovers_witness :
    ((':' ∉ "sa".data ∧ '@' ∉ "sa".data ∧ '/' ∉ "sa".data)
      ∧ (':' ∉ "pw".data ∧ '@' ∉ "pw".data ∧ '/' ∉ "pw".data)
      ∧ (':' ∉ "host".data ∧ '@' ∉ "host".data ∧ '/' ∉ "host".data)
      ∧ (':' ∉ "1433".data ∧ '@' ∉ "1433".data ∧ '/' ∉ "1433".data)
      ∧ (':' ∉ "db".data ∧ '@' ∉ "db".data ∧ '/' ∉ "db".data))
    ∧ isValidConnectionString ("sa" ++ ":" ++ "pw" ++ "@" ++ "host" ++ ":" ++ "1433" ++ "/" ++ "db")
        = true
    ∧ connectionFields (config.mk "out" 1000 10 "" "" "" "" "" "" "dbo")
        ("sa" ++ ":" ++ "pw" ++ "@" ++ "host" ++ ":" ++ "1433" ++ "/" ++ "db")
      = some (config.mk "out" 1000 10 "" "host" "1433" "sa" "pw" "db" "dbo") :=
  ⟨⟨by decide, by decide, by decide, by decide, by decide⟩,
    connectionFields_recovers (config.mk "out" 1000 10 "" "" "" "" "" "" "dbo")
      "sa" "pw" "host" "1433" "db" (by decide) (by decide) (by decide) (by decide) (by decide)⟩

/-- C19, at the argument @::/ (also a:b:c@d/e and a/b:c@d:e): the string has two
colons, an at sign and a slash, so isValidConnectionString accepts it, and the
slice expression for the password has its start after its end, so main panics. -/
theorem connectionFields_panics :
    isValidConnectionString "@::/" = true
      ∧ strings.Index "@::/" ":" + 1 = 2 ∧ strings.Index "@::/" "@" = 0
      ∧ sliceString "@::/" (strings.Index "@::/" ":" + 1) (strings.Index "@::/" "@") = none
      ∧ connectionFields (config.mk "out" 1000 10 "" "" "" "" "" "" "dbo") "@::/" = none
      ∧ isValidConnectionString "a:b:c@d/e" = true
      ∧ connectionFields (config.mk "out" 1000 10 "" "" "" "" "" "" "dbo") "a:b:c@d/e" = none
      ∧ isValidConnectionString "a/b:c@d:e" = true
      ∧ connectionFields (config.mk "out" 1000 10 "" "" "" "" "" "" "dbo") "a/b:c@d:e" = none := by
  decide


/-! ## Timestamp rendering -/

theorem fmtUintLoop_length (fuel : ℕ) : ∀ (u : ℕ) (buf : List Char) (k : ℕ), u < 10 ^ (k + 1) →
    (fmtUintLoop fuel u buf).length ≤ k + 1 + buf.length := by
  induction fuel with
  | zero =>
    intro u buf k _
    simp only [fmtUintLoop, List.length_cons]
    omega
  | succ fuel ih =>
    intro u buf k hu
    by_cases h10 : 10 ≤ u
    · rw [fmtUintLoop, if_pos h10]
      cases k with
      | zero => simp at hu; omega
      | succ k =>
        have hdiv : u / 10 < 10 ^ (k + 1) := by
          rw [Nat.div_lt_iff_lt_mul (by decide)]
          calc u < 10 ^ (k + 1 + 1) := hu
            _ = 10 ^ (k + 1) * 10 := by rw [pow_succ]
        have := ih (u / 10) (digitChar (u - u / 10 * 10) :: buf) k hdiv
        simp only [List.length_cons] at this
        omega
    · rw [fmtUintLoop, if_neg h10]
      simp only [List.length_cons]
      omega

theorem padUint_length (u k : ℕ) (hu : u < 10 ^ (k + 1)) :
    (padUint u (k + 1)).data.length = k + 1 := by
  have hlen : (fmtUint u).length ≤ k + 1 := by
    have := fmtUintLoop_length u u [] k hu
    simpa [fmtUint] using this
  unfold padUint
  rw [String.data_append]
  simp only [List.length_append, List.length_replicate]
  have : (fmtUint u).data.length = (fmtUint u).length := rfl
  omega

theorem parseUintLoop_zeros (n : ℕ) (ds : List Char) :
    parseUintLoop (List.replicate n '0' ++ ds) 0 = parseUintLoop ds 0 := by
  induction n with
  | zero => rfl
  | succ n ih =>
    rw [List.replicate_succ, List.cons_append, parseUintLoop]
    have h0 : ('0' : Char).toNat = 48 := rfl
    rw [if_pos (by rw [h0]; omega), h0]
    exact ih

theorem parseUintLoop_padUint (u w : ℕ) : parseUintLoop (padUint u w).data 0 = some u := by
  obtain ⟨hparse, hne, _⟩ := parseUint_fmtUint u
  unfold parseUint at hparse
  rw [if_neg hne] at hparse
  unfold padUint
  rw [String.data_append, parseUintLoop_zeros, hparse]

theorem padUint_data_inj (u v w1 w2 : ℕ) (h : (padUint u w1).data = (padUint v w2).data) :
    u = v := by
  have h1 := parseUintLoop_padUint u w1
  rw [h, parseUintLoop_padUint] at h1
  exact (Option.some.inj h1).symm

/-- The zone part of the layout determines a zone offset of whole minutes. -/
theorem zone_data_inj (o1 o2 : ℤ) (h1 : o1 % 60 = 0) (h2 : o2 % 60 = 0)
    (h : (if o1 = 0 then "Z"
          else if Int.tdiv o1 60 < 0 then
            "-" ++ padUint ((-(Int.tdiv o1 60)).toNat / 60) 2 ++ ":"
              ++ padUint ((-(Int.tdiv o1 60)).toNat % 60) 2
          else "+" ++ padUint ((Int.tdiv o1 60).toNat / 60) 2 ++ ":"
              ++ padUint ((Int.tdiv o1 60).toNat % 60) 2).data
       = (if o2 = 0 then "Z"
          else if Int.tdiv o2 60 < 0 then
            "-" ++ padUint ((-(Int.tdiv o2 60)).toNat / 60) 2 ++ ":"
              ++ padUint ((-(Int.tdiv o2 60)).toNat % 60) 2
          else "+" ++ padUint ((Int.tdiv o2 60).toNat / 60) 2 ++ ":"
              ++ padUint ((Int.tdiv o2 60).toNat % 60) 2).data) :
    o1 = o2 := by
  have hz1 : 60 * Int.tdiv o1 60 = o1 := Int.mul_tdiv_cancel' (Int.dvd_of_emod_eq_zero h1)
  have hz2 : 60 * Int.tdiv o2 60 = o2 := Int.mul_tdiv_cancel' (Int.dvd_of_emod_eq_zero h2)
  generalize Int.tdiv o1 60 = z1 at h hz1
  generalize Int.tdiv o2 60 = z2 at h hz2
  have hmm : ∀ n : ℕ, (padUint (n % 60) 2).data.length = 2 := fun n =>
    padUint_length (n % 60) 1 (by
      have := Nat.mod_lt n (show 0 < 60 by decide)
      omega)
  have key : ∀ a b : ℕ,
      (padUint (a / 60) 2).data ++ ':' :: (padUint (a % 60) 2).data
        = (padUint (b / 60) 2).data ++ ':' :: (padUint (b % 60) 2).data → a = b := by
    intro a b hab
    have hab1 : ((padUint (a / 60) 2).data ++ [':']) ++ (padUint (a % 60) 2).data
        = ((padUint (b / 60) 2).data ++ [':']) ++ (padUint (b % 60) 2).data := by
      simpa using hab
    obtain ⟨e1, e2⟩ := List.append_inj' hab1 (by rw [hmm, hmm])
    have e3 := padUint_data_inj _ _ _ _ (List.append_cancel_right e1)
    have e4 := padUint_data_inj _ _ _ _ e2
    omega
  by_cases c1 : o1 = 0
  · by_cases c2 : o2 = 0
    · rw [c1, c2]
    · rw [if_pos c1, if_neg c2] at h
      by_cases d2 : z2 < 0
      · rw [if_pos d2] at h
        simp only [String.data_append] at h
        exact absurd h (by simp)
      · rw [if_neg d2] at h
        simp only [String.data_append] at h
        exact absurd h (by simp)
  · by_cases c2 : o2 = 0
    · rw [if_neg c1, if_pos c2] at h
      by_cases d1 : z1 < 0
      · rw [if_pos d1] at h
        simp only [String.data_append] at h
        exact absurd h (by simp)
      · rw [if_neg d1] at h
        simp only [String.data_append] at h
        exact absurd h (by simp)
    · rw [if_neg c1, if_neg c2] at h
      by_cases d1 : z1 < 0
      · by_cases d2 : z2 < 0
        · rw [if_pos d1, if_pos d2] at h
          simp only [String.data_append, List.append_assoc, List.singleton_append,
            List.cons_append, List.nil_append, List.cons.injEq, true_and] at h
          have := key _ _ h
          omega
        · rw [if_pos d1, if_neg d2] at h
          simp only [String.data_append] at h
          exact absurd h (by simp)
      · by_cases d2 : z2 < 0
        · rw [if_neg d1, if_pos d2] at h
          simp only [String.data_append] at h
          exact absurd h (by simp)
        · rw [if_neg d1, if_neg d2] at h
          simp only [String.data_append, List.append_assoc, List.singleton_append,
            List.cons_append, List.nil_append, List.cons.injEq, true_and] at h
          have := key _ _ h
          omega


theorem formatRFC3339_inj (t1 t2 : Time) (h1 : t1.inRFC3339Range) (h2 : t2.inRFC3339Range)
    (h : t1.FormatRFC3339 = t2.FormatRFC3339) :
    t1.year = t2.year ∧ t1.month = t2.month ∧ t1.day = t2.day ∧ t1.hour = t2.hour
      ∧ t1.minute = t2.minute ∧ t1.second = t2.second ∧ t1.offset = t2.offset := by
  obtain ⟨hy1, hy1', _, hm1, _, hd1, hh1, hmi1, hs1, ho1⟩ := h1
  obtain ⟨hy2, hy2', _, hm2, _, hd2, hh2, hmi2, hs2, ho2⟩ := h2
  have l4 : ∀ u : ℕ, u < 10000 → (padUint u 4).data.length = 4 := fun u hu =>
    padUint_length u 3 (by norm_num; omega)
  have l2 : ∀ u : ℕ, u < 100 → (padUint u 2).data.length = 2 := fun u hu =>
    padUint_length u 1 (by norm_num; omega)
  have hd := congrArg String.data h
  unfold Time.FormatRFC3339 appendInt at hd
  rw [if_neg (by omega), if_neg (by omega)] at hd
  simp only [String.data_append, List.append_assoc] at hd
  obtain ⟨eY, hd⟩ := List.append_inj hd (by rw [l4 _ (by omega), l4 _ (by omega)])
  obtain ⟨_, hd⟩ := List.append_inj hd rfl
  obtain ⟨eM, hd⟩ := List.append_inj hd (by rw [l2 _ (by omega), l2 _ (by omega)])
  obtain ⟨_, hd⟩ := List.append_inj hd rfl
  obtain ⟨eD, hd⟩ := List.append_inj hd (by rw [l2 _ (by omega), l2 _ (by omega)])
  obtain ⟨_, hd⟩ := List.append_inj hd rfl
  obtain ⟨eH, hd⟩ := List.append_inj hd (by rw [l2 _ (by omega), l2 _ (by omega)])
  obtain ⟨_, hd⟩ := List.append_inj hd rfl
  obtain ⟨eMi, hd⟩ := List.append_inj hd (by rw [l2 _ (by omega), l2 _ (by omega)])
  obtain ⟨_, hd⟩ := List.append_inj hd rfl
  obtain ⟨eS, hd⟩ := List.append_inj hd (by rw [l2 _ (by omega), l2 _ (by omega)])
  have eYn := padUint_data_inj _ _ _ _ eY
  refine ⟨by omega, padUint_data_inj _ _ _ _ eM, padUint_data_inj _ _ _ _ eD,
    padUint_data_inj _ _ _ _ eH, padUint_data_inj _ _ _ _ eMi, padUint_data_inj _ _ _ _ eS,
    zone_data_inj _ _ ho1 ho2 hd⟩

/-- C16, at 2024-01-02T03:04:05Z against the same instant plus one nanosecond: the
two timestamps differ and are rendered by the same text, since time.RFC3339 has
second resolution. -/
theorem time_rendering_collision :
    Time.mk 2024 1 2 3 4 5 0 0 ≠ Time.mk 2024 1 2 3 4 5 1 0
      ∧ insertStringValue (Value.time (Time.mk 2024 1 2 3 4 5 0 0))
        = insertStringValue (Value.time (Time.mk 2024 1 2 3 4 5 1 0))
      ∧ insertStringValue (Value.time (Time.mk 2024 1 2 3 4 5 0 0))
        = "'2024-01-02T03:04:05Z'" := by
  decide

/-- C16, amended: for every timestamp insertStringValue returns, between single
quotes, its text in the layout time.RFC3339, which has second resolution.  Two
timestamps with a year from 0 to 9999 and a zone offset of whole minutes are
rendered by the same text exactly when they have the same date, the same clock
reading to the second and the same zone offset; the nanoseconds are not rendered. -/
theorem time_rendering (t1 t2 : Time) (h1 : t1.inRFC3339Range) (h2 : t2.inRFC3339Range) :
    insertStringValue (Value.time t1) = "'" ++ t1.FormatRFC3339 ++ "'"
      ∧ (insertStringValue (Value.time t1) = insertStringValue (Value.time t2)
          ↔ (t1.year = t2.year ∧ t1.month = t2.month ∧ t1.day = t2.day ∧ t1.hour = t2.hour
              ∧ t1.minute = t2.minute ∧ t1.second = t2.second ∧ t1.offset = t2.offset)) := by
  refine ⟨rfl, ?_, ?_⟩
  · intro h
    have hd := congrArg String.data h
    have e1 : insertStringValue (Value.time t1) = "'" ++ t1.FormatRFC3339 ++ "'" := rfl
    have e2 : insertStringValue (Value.time t2) = "'" ++ t2.FormatRFC3339 ++ "'" := rfl
    rw [e1, e2] at hd
    simp only [String.data_append, List.append_assoc, List.singleton_append,
      List.cons_append, List.nil_append, List.cons.injEq, true_and] at hd
    exact formatRFC3339_inj t1 t2 h1 h2 (String.ext (List.append_cancel_right hd))
  · rintro ⟨e1, e2, e3, e4, e5, e6, e7⟩
    have : t1.FormatRFC3339 = t2.FormatRFC3339 := by
      unfold Time.FormatRFC3339
      rw [e1, e2, e3, e4, e5, e6, e7]
    show "'" ++ t1.FormatRFC3339 ++ "'" = "'" ++ t2.FormatRFC3339 ++ "'"
    rw [this]

theorem time_rendering_witness :
    ((Time.mk 2024 1 2 3 4 5 0 3600).inRFC3339Range
      ∧ (Time.mk 2024 1 2 3 4 5 7 (-3600)).inRFC3339Range)
      ∧ insertStringValue (Value.time (Time.mk 2024 1 2 3 4 5 0 3600))
        ≠ insertStringValue (Value.time (Time.mk 2024 1 2 3 4 5 7 (-3600))) := by
  have ha : (Time.mk 2024 1 2 3 4 5 0 3600).inRFC3339Range := by
    unfold Time.inRFC3339Range; decide
  have hb : (Time.mk 2024 1 2 3 4 5 7 (-3600)).inRFC3339Range := by
    unfold Time.inRFC3339Range; decide
  refine ⟨⟨ha, hb⟩, ?_⟩
  intro heq
  have := ((time_rendering _ _ ha hb).2.mp heq).2.2.2.2.2.2
  exact absurd this (by decide)


/-! ## The run of main: usage errors and chunker calls -/

theorem connectionFields_keeps (cfg cfg1 : config) (cd : String)
    (h : connectionFields cfg cd = some cfg1) :
    cfg1.Directory = cfg.Directory ∧ cfg1.RowsPerBatch = cfg.RowsPerBatch
      ∧ cfg1.BatchesPerFile = cfg.BatchesPerFile ∧ cfg1.IgnoreTables = cfg.IgnoreTables
      ∧ cfg1.DbSchema = cfg.DbSchema := by
  unfold connectionFields at h
  split at h
  · exact absurd h (by simp)
  · split at h
    · exact absurd h (by simp)
    · split at h
      · exact absurd h (by simp)
      · split at h
        · exact absurd h (by simp)
        · split at h
          · exact absurd h (by simp)
          · have := Option.some.inj h
            subst this
            exact ⟨rfl, rfl, rfl, rfl, rfl⟩

theorem writeFiles_events (w : World) (dir : String) (files : List (String × String))
    (e : Event) (h : e ∈ (writeFiles w dir files).1) :
    e = Event.fatal ∨ ∃ name content, e = Event.writeFile (filepath.Join [dir, name]) content := by
  induction files with
  | nil => simp [writeFiles] at h
  | cons f rest ih =>
    unfold writeFiles at h
    by_cases hw : w.writeFile (filepath.Join [dir, f.1]) = true
    · rw [if_pos hw] at h
      rcases List.mem_cons.mp h with h1 | h1
      · exact Or.inr ⟨f.1, f.2, h1⟩
      · exact ih h1
    · rw [if_neg hw] at h
      rcases List.mem_cons.mp h with h1 | h1
      · exact Or.inr ⟨f.1, f.2, h1⟩
      · rw [List.mem_singleton] at h1
        exact Or.inl h1

theorem exportLoop_calls (w : World) (newpath : String) (cfg : config)
    (tables : List ExportTableMetadata) (size : ℤ) :
    (Event.callChunkMapInterfaceSlice size ∈ exportLoop w newpath cfg tables
        → size = cfg.RowsPerBatch)
      ∧ (Event.callChunkStringSlice size ∈ exportLoop w newpath cfg tables
        → size = cfg.BatchesPerFile) := by
  induction tables with
  | nil => simp [exportLoop]
  | cons table rest ih =>
    have hwrite : ∀ (fs : List (String × String)) (e : Event),
        e ∈ (writeFiles w newpath fs).1
          ++ (if (writeFiles w newpath fs).2 = true then exportLoop w newpath cfg rest else []) →
        (e = Event.callChunkMapInterfaceSlice size → size = cfg.RowsPerBatch)
          ∧ (e = Event.callChunkStringSlice size → size = cfg.BatchesPerFile) := by
      intro fs e he
      rcases List.mem_append.mp he with h1 | h1
      · rcases writeFiles_events w newpath fs e h1 with h2 | ⟨n, c, h2⟩
        · subst h2
          exact ⟨fun h => (by cases h), fun h => (by cases h)⟩
        · subst h2
          exact ⟨fun h => (by cases h), fun h => (by cases h)⟩
      · by_cases hok : (writeFiles w newpath fs).2 = true
        · rw [if_pos hok] at h1
          exact ⟨fun h => ih.1 (h ▸ h1), fun h => ih.2 (h ▸ h1)⟩
        · rw [if_neg hok] at h1
          simp at h1
    unfold exportLoop
    cases hq : w.queryx (selectStatement table) with
    | none => simp
    | some resarr =>
      simp only
      cases hi : insertStatements table resarr cfg.RowsPerBatch.toNat with
      | none =>
        simp only [List.mem_cons, List.mem_singleton, List.not_mem_nil, or_false]
        constructor
        · rintro (h | h | h)
          · cases h
          · cases h; rfl
          · cases h
        · rintro (h | h | h) <;> cases h
      | some stmts =>
        simp only
        cases hc : chunkStringSlice stmts cfg.BatchesPerFile.toNat with
        | none =>
          simp only [List.mem_cons, List.mem_singleton, List.not_mem_nil, or_false]
          constructor
          · rintro (h | h | h | h)
            · cases h
            · cases h; rfl
            · cases h
            · cases h
          · rintro (h | h | h | h)
            · cases h
            · cases h
            · cases h; rfl
            · cases h
        | some filechunks =>
          simp only [List.mem_cons]
          constructor
          · rintro (h | h | h | h)
            · cases h
            · cases h; rfl
            · cases h
            · exact (hwrite _ _ h).1 rfl
          · rintro (h | h | h | h)
            · cases h
            · cases h
            · cases h; rfl
            · exact (hwrite _ _ h).2 rfl

theorem mainRun_calls (w : World) (cfg : config) (args : List String) (size : ℤ)
    (h : Event.callChunkMapInterfaceSlice size ∈ mainRun w cfg args
      ∨ Event.callChunkStringSlice size ∈ mainRun w cfg args) : 1 ≤ size := by
  unfold mainRun at h
  by_cases h1 : args.length ≠ 1
  · rw [if_pos h1] at h
    simp at h
  rw [if_neg h1] at h
  by_cases h2 : cfg.Directory = ""
  · rw [if_pos h2] at h
    simp at h
  rw [if_neg h2] at h
  by_cases h3 : cfg.BatchesPerFile ≤ 0 ∨ cfg.RowsPerBatch ≤ 0
  · rw [if_pos h3] at h
    simp at h
  rw [if_neg h3] at h
  by_cases h4 : w.mkdirAll (filepath.Join [cfg.Directory]) = false
  · rw [if_pos h4] at h
    simp at h
  rw [if_neg h4] at h
  by_cases h5 : isValidConnectionString (args.headD "") = false
  · rw [if_pos h5] at h
    simp at h
  rw [if_neg h5] at h
  cases hcf : connectionFields cfg (args.headD "") with
  | none =>
    rw [hcf] at h
    simp at h
  | some cfg1 =>
    rw [hcf] at h
    obtain ⟨_, hr, hb, _, _⟩ := connectionFields_keeps cfg cfg1 _ hcf
    simp only at h
    by_cases h6 : w.connect (dataSourceName cfg1) = false
    · rw [if_pos h6] at h
      simp at h
    rw [if_neg h6] at h
    cases hq : w.query (metadataQuery (ignoreTablesInItems cfg1.IgnoreTables)) cfg1.DbSchema with
    | none =>
      rw [hq] at h
      simp at h
    | some objects =>
      rw [hq] at h
      simp only at h
      cases ha : assembleTables objects with
      | none =>
        rw [ha] at h
        simp at h
      | some tables =>
        rw [ha] at h
        simp only [List.mem_cons, false_or, reduceCtorEq] at h
        have hcalls := exportLoop_calls w (filepath.Join [cfg.Directory]) cfg1 tables size
        rcases h with h | h
        · have := hcalls.1 h
          omega
        · have := hcalls.2 h
          omega

/-- C14: for every configuration with RowsPerBatch at most 0 or BatchesPerFile at
most 0, main prints the usage text and exits with status -1 and does nothing else:
no directory is made, no connection is opened, no query is sent and no chunker is
called.  So in every run, every call of chunkMapInterfaceSlice and of
chunkStringSlice made by main has a size of at least 1. -/
theorem usage_error_before_export (w : World) (cfg : config) (args : List String) :
    ((cfg.RowsPerBatch ≤ 0 ∨ cfg.BatchesPerFile ≤ 0) →
        mainRun w cfg args = [Event.usage, Event.exit (-1)])
      ∧ (∀ size : ℤ, (Event.callChunkMapInterfaceSlice size ∈ mainRun w cfg args
          ∨ Event.callChunkStringSlice size ∈ mainRun w cfg args) → 1 ≤ size) := by
  refine ⟨?_, fun size h => mainRun_calls w cfg args size h⟩
  intro h
  unfold mainRun
  by_cases h1 : args.length ≠ 1
  · rw [if_pos h1]
  rw [if_neg h1]
  by_cases h2 : cfg.Directory = ""
  · rw [if_pos h2]
  rw [if_neg h2, if_pos (Or.symm h)]


/-! ## The ignore list in the metadata query -/

theorem indexFrom_not_mem (q : Char) (s : List Char) (i : ℕ) (h : q ∉ s) :
    strings.indexFrom [q] s i = -1 := by
  induction s generalizing i with
  | nil => simp [strings.indexFrom, List.isPrefixOf]
  | cons c t ih =>
    have hc : ¬ q = c := fun e => h (by rw [e]; exact List.mem_cons_self c t)
    have ht : q ∉ t := fun m => h (List.mem_cons_of_mem c m)
    have hstep : strings.indexFrom [q] (c :: t) i = strings.indexFrom [q] t (i + 1) := by
      simp [strings.indexFrom, List.isPrefixOf, hc]
    rw [hstep, ih (i + 1) ht]

theorem foldl_sep_append (sep : String) (l : List String) (a b : String) :
    l.foldl (fun x s => x ++ sep ++ s) (a ++ b) = a ++ l.foldl (fun x s => x ++ sep ++ s) b := by
  induction l generalizing b with
  | nil => rfl
  | cons c l ih =>
    simp only [List.foldl_cons]
    rw [← ih]
    simp only [String.append_assoc]

theorem join_cons_cons (sep x y : String) (r : List String) :
    strings.Join (x :: y :: r) sep = x ++ sep ++ strings.Join (y :: r) sep := by
  rw [join_eq_intercalate, join_eq_intercalate, intercalate_cons, intercalate_cons,
    List.foldl_cons]
  rw [String.append_assoc x sep y, foldl_sep_append sep r x (sep ++ y),
    foldl_sep_append sep r sep y, String.append_assoc]

theorem splitLoop_join (x : String) (rest : List String) :
    ∀ (n : ℕ) (a : List (List Char)), rest.length ≤ n → (∀ e ∈ x :: rest, ',' ∉ e.data) →
      strings.splitLoop [','] n (strings.Join (x :: rest) ",").data a
        = a ++ (x :: rest).map String.data := by
  induction rest generalizing x with
  | nil =>
    intro n a _ hc
    have hx : ',' ∉ x.data := hc x (List.mem_cons_self x [])
    have hj : strings.Join [x] "," = x := rfl
    rw [hj]
    cases n with
    | zero => rfl
    | succ n =>
      rw [strings.splitLoop]
      simp only [indexFrom_not_mem ',' x.data 0 hx]
      rfl
  | cons y r ih =>
    intro n a hn hc
    have hx : ',' ∉ x.data := hc x (List.mem_cons_self x (y :: r))
    cases n with
    | zero => simp at hn
    | succ n =>
      have hdata : (strings.Join (x :: y :: r) ",").data
          = x.data ++ ',' :: (strings.Join (y :: r) ",").data := by
        rw [join_cons_cons]
        simp only [String.data_append, List.append_assoc]
        rfl
      rw [hdata, strings.splitLoop]
      simp only [indexFrom_of_split ',' x.data _ 0 hx, Nat.zero_add]
      have hneg : ¬ (((x.data.length : ℕ) : ℤ) < 0) := by omega
      rw [if_neg hneg, Int.toNat_natCast]
      have hdrop : List.drop (x.data.length + [','].length)
          (x.data ++ ',' :: (strings.Join (y :: r) ",").data)
          = (strings.Join (y :: r) ",").data := by
        have : x.data ++ ',' :: (strings.Join (y :: r) ",").data
            = (x.data ++ [',']) ++ (strings.Join (y :: r) ",").data := by simp
        rw [this]
        exact List.drop_left' (by simp)
      rw [hdrop, List.take_left,
        ih y n (a ++ [x.data]) (by simpa using hn)
          (fun e he => hc e (List.mem_cons_of_mem x he))]
      simp

theorem count_join (x : String) (rest : List String) (hc : ∀ e ∈ x :: rest, ',' ∉ e.data) :
    (strings.Join (x :: rest) ",").data.count ',' = rest.length := by
  induction rest generalizing x with
  | nil =>
    have hj : strings.Join [x] "," = x := rfl
    rw [hj]
    exact List.count_eq_zero.mpr (hc x (List.mem_cons_self x []))
  | cons y r ih =>
    have hdata : (strings.Join (x :: y :: r) ",").data
        = x.data ++ ',' :: (strings.Join (y :: r) ",").data := by
      rw [join_cons_cons]
      simp only [String.data_append, List.append_assoc]
      rfl
    rw [hdata, List.count_append, List.count_cons_self,
      List.count_eq_zero.mpr (hc x (List.mem_cons_self x (y :: r))),
      ih y (fun e he => hc e (List.mem_cons_of_mem x he))]
    simp

/-- Splitting at commas undoes joining with commas, for pieces without comma. -/
theorem split_join (names : List String) (hne : names ≠ [])
    (hc : ∀ e ∈ names, ',' ∉ e.data) : strings.Split (strings.Join names ",") "," = names := by
  cases names with
  | nil => exact absurd rfl hne
  | cons x rest =>
    unfold strings.Split
    have hsep : ¬ (("," : String).data = []) := by decide
    rw [if_neg hsep]
    have hcount : strings.Count (strings.Join (x :: rest) ",") "," = rest.length := by
      unfold strings.Count
      exact count_join x rest hc
    have hle : rest.length ≤ (strings.Join (x :: rest) ",").length := by
      have h1 := count_join x rest hc
      have h2 : (strings.Join (x :: rest) ",").data.count ','
          ≤ (strings.Join (x :: rest) ",").data.length := List.count_le_length _ _
      have h3 : (strings.Join (x :: rest) ",").length
          = (strings.Join (x :: rest) ",").data.length := rfl
      omega
    simp only [hcount]
    have hn : min (rest.length + 1) ((strings.Join (x :: rest) ",").length + 1) - 1
        = rest.length := by omega
    rw [hn]
    rw [splitLoop_join x rest rest.length [] (Nat.le_refl _) hc, List.nil_append,
      List.map_map]
    exact List.map_id _

theorem trimSpace_eq_self (n : String)
    (hfirst : ∀ c, n.data.head? = some c → unicodeIsSpace c = false)
    (hlast : ∀ c, n.data.getLast? = some c → unicodeIsSpace c = false) :
    strings.TrimSpace n = n := by
  unfold strings.TrimSpace
  have h1 : n.data.dropWhile unicodeIsSpace = n.data := by
    cases hd : n.data with
    | nil => rfl
    | cons c t =>
      have := hfirst c (by rw [hd]; rfl)
      simp [List.dropWhile, this]
  rw [h1]
  have h2 : n.data.rdropWhile unicodeIsSpace = n.data := by
    rw [List.rdropWhile_eq_self_iff]
    intro hl
    have := hlast (n.data.getLast hl) (List.getLast?_eq_getLast _ hl)
    simp [this]
  rw [h2]

theorem mainRun_query (w : World) (cfg : config) (args : List String) (text arg : String)
    (h : Event.query text arg ∈ mainRun w cfg args) :
    text = metadataQuery (ignoreTablesInItems cfg.IgnoreTables) ∧ arg = cfg.DbSchema := by
  unfold mainRun at h
  by_cases h1 : args.length ≠ 1
  · rw [if_pos h1] at h
    simp at h
  rw [if_neg h1] at h
  by_cases h2 : cfg.Directory = ""
  · rw [if_pos h2] at h
    simp at h
  rw [if_neg h2] at h
  by_cases h3 : cfg.BatchesPerFile ≤ 0 ∨ cfg.RowsPerBatch ≤ 0
  · rw [if_pos h3] at h
    simp at h
  rw [if_neg h3] at h
  by_cases h4 : w.mkdirAll (filepath.Join [cfg.Directory]) = false
  · rw [if_pos h4] at h
    simp at h
  rw [if_neg h4] at h
  by_cases h5 : isValidConnectionString (args.headD "") = false
  · rw [if_pos h5] at h
    simp at h
  rw [if_neg h5] at h
  cases hcf : connectionFields cfg (args.headD "") with
  | none =>
    rw [hcf] at h
    simp at h
  | some cfg1 =>
    rw [hcf] at h
    obtain ⟨_, _, _, hi, hs⟩ := connectionFields_keeps cfg cfg1 _ hcf
    simp only at h
    by_cases h6 : w.connect (dataSourceName cfg1) = false
    · rw [if_pos h6] at h
      simp at h
    rw [if_neg h6] at h
    have hloop : ∀ tables,
        Event.query text arg ∉ exportLoop w (filepath.Join [cfg.Directory]) cfg1 tables := by
      intro tables
      induction tables with
      | nil => simp [exportLoop]
      | cons table rest ih =>
        unfold exportLoop
        intro hmem
        cases hq : w.queryx (selectStatement table) with
        | none => rw [hq] at hmem; simp at hmem
        | some resarr =>
          rw [hq] at hmem
          simp only at hmem
          cases hins : insertStatements table resarr cfg1.RowsPerBatch.toNat with
          | none => rw [hins] at hmem; simp at hmem
          | some stmts =>
            rw [hins] at hmem
            simp only at hmem
            cases hc : chunkStringSlice stmts cfg1.BatchesPerFile.toNat with
            | none => rw [hc] at hmem; simp at hmem
            | some filechunks =>
              rw [hc] at hmem
              simp only [List.mem_cons, reduceCtorEq, false_or, List.mem_append] at hmem
              rcases hmem with hm | hm
              · rcases writeFiles_events w (filepath.Join [cfg.Directory]) _ _ hm
                  with e1 | ⟨n, c, e1⟩ <;>
                  cases e1
              · by_cases hok : (writeFiles w (filepath.Join [cfg.Directory])
                    (writeLoop table filechunks 0)).2
                    = true
                · rw [if_pos hok] at hm
                  exact ih hm
                · rw [if_neg hok] at hm
                  simp at hm
    simp only [List.mem_cons, reduceCtorEq, false_or, Event.query.injEq] at h
    rcases h with h | h
    · exact ⟨by rw [h.1, hi], by rw [h.2, hs]⟩
    · cases hq : w.query (metadataQuery (ignoreTablesInItems cfg1.IgnoreTables))
          cfg1.DbSchema with
      | none => rw [hq] at h; simp at h
      | some objects =>
        rw [hq] at h
        simp only at h
        cases ha : assembleTables objects with
        | none => rw [ha] at h; simp at h
        | some tables =>
          rw [ha] at h
          exact absurd h (hloop tables)

theorem assembleTables_names (objects : List RawTableData) (tables : List ExportTableMetadata)
    (h : assembleTables objects = some tables) :
    ∀ t ∈ tables, ∃ o ∈ objects, t.TableCatalog = o.TableCatalog
      ∧ t.TableSchema = o.TableSchema ∧ t.TableName = o.TableName := by
  obtain ⟨segs, hloop, hflat, _, _⟩ := assembleLoop_runs objects
  unfold assembleTables at h
  rw [hloop] at h
  have ht : tables = segs.map (fun p => runTable p.1 p.2) := (Option.some.inj h).symm
  subst ht
  intro t hmem
  obtain ⟨p, hp, rfl⟩ := List.mem_map.mp hmem
  refine ⟨p.1, ?_, rfl, rfl, rfl⟩
  rw [← hflat, List.mem_flatten]
  exact ⟨p.1 :: p.2, List.mem_map.mpr ⟨p, hp, rfl⟩, List.mem_cons_self _ _⟩


theorem trimSpace_subset (e : String) (c : Char) (h : c ∈ (strings.TrimSpace e).data) :
    c ∈ e.data := by
  unfold strings.TrimSpace at h
  exact (List.dropWhile_suffix unicodeIsSpace).subset
    ((List.rdropWhile_prefix unicodeIsSpace _).subset h)

theorem exportLoop_queryx (w : World) (newpath : String) (cfg : config) (text : String) :
    ∀ tables : List ExportTableMetadata, Event.queryx text ∈ exportLoop w newpath cfg tables →
      ∃ table ∈ tables, text = selectStatement table := by
  intro tables
  induction tables with
  | nil => simp [exportLoop]
  | cons table rest ih =>
    unfold exportLoop
    intro hmem
    have hrest : Event.queryx text ∈ exportLoop w newpath cfg rest →
        ∃ t ∈ table :: rest, text = selectStatement t := by
      intro h
      obtain ⟨t, ht, e⟩ := ih h
      exact ⟨t, List.mem_cons_of_mem _ ht, e⟩
    rcases List.mem_cons.mp hmem with h0 | hmem
    · exact ⟨table, List.mem_cons_self _ _, Event.queryx.inj h0⟩
    cases hq : w.queryx (selectStatement table) with
    | none => rw [hq] at hmem; simp at hmem
    | some resarr =>
      rw [hq] at hmem
      simp only at hmem
      cases hins : insertStatements table resarr cfg.RowsPerBatch.toNat with
      | none => rw [hins] at hmem; simp at hmem
      | some stmts =>
        rw [hins] at hmem
        simp only at hmem
        cases hc : chunkStringSlice stmts cfg.BatchesPerFile.toNat with
        | none => rw [hc] at hmem; simp at hmem
        | some filechunks =>
          rw [hc] at hmem
          simp only [List.mem_cons, reduceCtorEq, false_or, List.mem_append] at hmem
          rcases hmem with hm | hm
          · rcases writeFiles_events w newpath _ _ hm with e1 | ⟨n, c, e1⟩ <;> cases e1
          · by_cases hok : (writeFiles w newpath (writeLoop table filechunks 0)).2 = true
            · rw [if_pos hok] at hm
              exact hrest hm
            · rw [if_neg hok] at hm
              simp at hm

/-- Every SELECT main sends is the statement of a table assembled from the rows
the metadata query returned. -/
theorem mainRun_queryx (w : World) (cfg : config) (args : List String) (text : String)
    (h : Event.queryx text ∈ mainRun w cfg args) :
    ∃ (objects : List RawTableData) (tables : List ExportTableMetadata),
      w.query (metadataQuery (ignoreTablesInItems cfg.IgnoreTables)) cfg.DbSchema = some objects
        ∧ assembleTables objects = some tables
        ∧ ∃ table ∈ tables, text = selectStatement table := by
  unfold mainRun at h
  by_cases h1 : args.length ≠ 1
  · rw [if_pos h1] at h
    simp at h
  rw [if_neg h1] at h
  by_cases h2 : cfg.Directory = ""
  · rw [if_pos h2] at h
    simp at h
  rw [if_neg h2] at h
  by_cases h3 : cfg.BatchesPerFile ≤ 0 ∨ cfg.RowsPerBatch ≤ 0
  · rw [if_pos h3] at h
    simp at h
  rw [if_neg h3] at h
  by_cases h4 : w.mkdirAll (filepath.Join [cfg.Directory]) = false
  · rw [if_pos h4] at h
    simp at h
  rw [if_neg h4] at h
  by_cases h5 : isValidConnectionString (args.headD "") = false
  · rw [if_pos h5] at h
    simp at h
  rw [if_neg h5] at h
  cases hcf : connectionFields cfg (args.headD "") with
  | none =>
    rw [hcf] at h
    simp at h
  | some cfg1 =>
    rw [hcf] at h
    obtain ⟨_, _, _, hi, hs⟩ := connectionFields_keeps cfg cfg1 _ hcf
    simp only at h
    by_cases h6 : w.connect (dataSourceName cfg1) = false
    · rw [if_pos h6] at h
      simp at h
    rw [if_neg h6] at h
    simp only [List.mem_cons, reduceCtorEq, false_or] at h
    rw [hi, hs] at h
    cases hq : w.query (metadataQuery (ignoreTablesInItems cfg.IgnoreTables)) cfg.DbSchema with
    | none => rw [hq] at h; simp at h
    | some objects =>
      rw [hq] at h
      simp only at h
      cases ha : assembleTables objects with
      | none => rw [ha] at h; simp at h
      | some tables =>
        rw [ha] at h
        exact ⟨objects, tables, rfl, ha, exportLoop_queryx w _ cfg1 text tables h⟩

/-- C17, at the ignore list made of the one entry b with a space before it: the
table name with the leading space is named in the list, and the NOT IN list holds
the item 'b', not the entry itself between quotes, because main trims every entry. -/
theorem ignore_entry_trimmed :
    strings.Split " b" "," = [" b"]
      ∧ ignoreTablesInItems " b" = "'b'"
      ∧ "' b'" ∉ (strings.Split " b" ",").map (fun e => "'" ++ strings.TrimSpace e ++ "'") := by
  decide

/-- C17, amended: for every ignore-table list made of comma-separated entries
without single quote, the text of the one metadata query main sends is the fixed
text up to NOT IN (, then the entries in order, each stripped of leading and
trailing white space and put between single quotes (the stripped entry has no
quote of its own, and an entry without surrounding white space is unchanged),
separated by ", ", then the closing bracket and the schema filter, with the schema
as the parameter.  Provided the database answers that query with rows of no table
whose name is one of the stripped entries, no table assembled from the answer has
such a name, and every SELECT main sends is the statement of an assembled table
with no such name. -/
theorem ignore_list_items (entries : List String) (hne : entries ≠ [])
    (hentries : ∀ e ∈ entries, ',' ∉ e.data ∧ quoteChar ∉ e.data) :
    ignoreTablesInItems (strings.Join entries ",")
        = String.intercalate ", " (entries.map (fun e => "'" ++ strings.TrimSpace e ++ "'"))
      ∧ (∀ e ∈ entries, quoteChar ∉ (strings.TrimSpace e).data)
      ∧ (∀ e ∈ entries, (∀ c, e.data.head? = some c → unicodeIsSpace c = false) →
          (∀ c, e.data.getLast? = some c → unicodeIsSpace c = false) →
          strings.TrimSpace e = e)
      ∧ (∀ (w : World) (cfg : config) (args : List String),
          cfg.IgnoreTables = strings.Join entries "," →
          ∃ q : String,
            q = "SELECT c.[TABLE_CATALOG], c.[TABLE_SCHEMA], c.[TABLE_NAME], c.[COLUMN_NAME], c.[ORDINAL_POSITION], c.[IS_NULLABLE], c.[DATA_TYPE]\n\tFROM INFORMATION_SCHEMA.COLUMNS c \n\tJOIN INFORMATION_SCHEMA.TABLES t ON c.[TABLE_NAME] = t.[TABLE_NAME]\n\tWHERE t.[TABLE_TYPE] = 'BASE TABLE' \n\t\tAND t.[TABLE_NAME] NOT IN ("
                ++ String.intercalate ", "
                    (entries.map (fun e => "'" ++ strings.TrimSpace e ++ "'"))
                ++ ")\n\t\tAND c.[TABLE_SCHEMA] = @p1\n\tORDER BY c.[TABLE_SCHEMA], c.[TABLE_NAME], c.[ORDINAL_POSITION] "
            ∧ (∀ (text arg : String), Event.query text arg ∈ mainRun w cfg args →
                text = q ∧ arg = cfg.DbSchema)
            ∧ ((∀ objects : List RawTableData, w.query q cfg.DbSchema = some objects →
                  ∀ o ∈ objects, ∀ e ∈ entries, o.TableName ≠ strings.TrimSpace e) →
                (∀ (objects : List RawTableData) (tables : List ExportTableMetadata),
                  w.query q cfg.DbSchema = some objects → assembleTables objects = some tables →
                  ∀ t ∈ tables, ∀ e ∈ entries, t.TableName ≠ strings.TrimSpace e)
                ∧ (∀ text : String, Event.queryx text ∈ mainRun w cfg args →
                    ∃ table : ExportTableMetadata, text = selectStatement table
                      ∧ ∀ e ∈ entries, table.TableName ≠ strings.TrimSpace e))) := by
  have hitems : ignoreTablesInItems (strings.Join entries ",")
      = String.intercalate ", " (entries.map (fun e => "'" ++ strings.TrimSpace e ++ "'")) := by
    unfold ignoreTablesInItems
    rw [split_join entries hne (fun e he => (hentries e he).1), join_eq_intercalate]
  have hassembled : ∀ (objects : List RawTableData) (tables : List ExportTableMetadata),
      (∀ o ∈ objects, ∀ e ∈ entries, o.TableName ≠ strings.TrimSpace e) →
      assembleTables objects = some tables →
      ∀ t ∈ tables, ∀ e ∈ entries, t.TableName ≠ strings.TrimSpace e := by
    intro objects tables hout hassemble t ht e he
    obtain ⟨o, ho, _, _, hname⟩ := assembleTables_names objects tables hassemble t ht
    rw [hname]
    exact hout o ho e he
  refine ⟨hitems, ?_, ?_, ?_⟩
  · intro e he hq
    exact (hentries e he).2 (trimSpace_subset e _ hq)
  · intro e _ hfirst hlast
    exact trimSpace_eq_self e hfirst hlast
  · intro w cfg args hcfg
    have htext : metadataQuery (ignoreTablesInItems cfg.IgnoreTables)
        = "SELECT c.[TABLE_CATALOG], c.[TABLE_SCHEMA], c.[TABLE_NAME], c.[COLUMN_NAME], c.[ORDINAL_POSITION], c.[IS_NULLABLE], c.[DATA_TYPE]\n\tFROM INFORMATION_SCHEMA.COLUMNS c \n\tJOIN INFORMATION_SCHEMA.TABLES t ON c.[TABLE_NAME] = t.[TABLE_NAME]\n\tWHERE t.[TABLE_TYPE] = 'BASE TABLE' \n\t\tAND t.[TABLE_NAME] NOT IN ("
          ++ String.intercalate ", " (entries.map (fun e => "'" ++ strings.TrimSpace e ++ "'"))
          ++ ")\n\t\tAND c.[TABLE_SCHEMA] = @p1\n\tORDER BY c.[TABLE_SCHEMA], c.[TABLE_NAME], c.[ORDINAL_POSITION] " := by
      rw [hcfg, hitems]
      rfl
    refine ⟨_, rfl, ?_, ?_⟩
    · intro text arg h
      obtain ⟨h1, h2⟩ := mainRun_query w cfg args text arg h
      exact ⟨h1.trans htext, h2⟩
    · intro hdb
      refine ⟨?_, ?_⟩
      · intro objects tables hq hassemble
        exact hassembled objects tables (hdb objects hq) hassemble
      · intro text h
        obtain ⟨objects, tables, hq, hassemble, table, ht, htxt⟩ := mainRun_queryx w cfg args text h
        rw [htext] at hq
        exact ⟨table, htxt, hassembled objects tables (hdb objects hq) hassemble table ht⟩

theorem ignore_list_items_witness :
    ignoreTablesInItems "Logs, Audit " = "'Logs', 'Audit'"
      ∧ ∀ (w : World) (text arg : String),
          Event.query text arg
              ∈ mainRun w (config.mk "out" 1000 10 "Logs, Audit " "" "" "" "" "" "dbo")
                  ["sa:pw@host:1433/db"] →
            text = "SELECT c.[TABLE_CATALOG], c.[TABLE_SCHEMA], c.[TABLE_NAME], c.[COLUMN_NAME], c.[ORDINAL_POSITION], c.[IS_NULLABLE], c.[DATA_TYPE]\n\tFROM INFORMATION_SCHEMA.COLUMNS c \n\tJOIN INFORMATION_SCHEMA.TABLES t ON c.[TABLE_NAME] = t.[TABLE_NAME]\n\tWHERE t.[TABLE_TYPE] = 'BASE TABLE' \n\t\tAND t.[TABLE_NAME] NOT IN (" ++ "'Logs', 'Audit'" ++ ")\n\t\tAND c.[TABLE_SCHEMA] = @p1\n\tORDER BY c.[TABLE_SCHEMA], c.[TABLE_NAME], c.[ORDINAL_POSITION] " ∧ arg = "dbo" := by
  have h1 : (["Logs", " Audit "] : List String) ≠ [] := by decide
  have h2 : ∀ e ∈ (["Logs", " Audit "] : List String), ',' ∉ e.data ∧ quoteChar ∉ e.data := by
    decide
  have h := ignore_list_items ["Logs", " Audit "] h1 h2
  have hj : strings.Join ["Logs", " Audit "] "," = "Logs, Audit " := by decide
  have hi : String.intercalate ", "
      ((["Logs", " Audit "] : List String).map (fun e => "'" ++ strings.TrimSpace e ++ "'"))
      = "'Logs', 'Audit'" := by decide
  rw [hj, hi] at h
  refine ⟨h.1, ?_⟩
  intro w text arg hmem
  obtain ⟨q, hq, hquery, _⟩ := h.2.2.2 w
    (config.mk "out" 1000 10 "Logs, Audit " "" "" "" "" "" "dbo") ["sa:pw@host:1433/db"] rfl
  rw [← hq]
  exact hquery text arg hmem

theorem usage_error_before_export_witness :
    (((0 : ℤ) ≤ 0 ∨ (10 : ℤ) ≤ 0))
      ∧ mainRun (World.mk (fun _ => true) (fun _ => true) (fun _ _ => some [])
            (fun _ => some []) (fun _ => true))
          (config.mk "out" 0 10 "" "" "" "" "" "" "dbo") ["sa:pw@host:1433/db"]
        = [Event.usage, Event.exit (-1)] :=
  ⟨Or.inl (by decide),
    (usage_error_before_export (World.mk (fun _ => true) (fun _ => true) (fun _ _ => some [])
        (fun _ => some []) (fun _ => true))
      (config.mk "out" 0 10 "" "" "" "" "" "" "dbo") ["sa:pw@host:1433/db"]).1
      (Or.inl (by decide))⟩

end Sqldatadump
